import Mathlib

/-!
Shallow embedding of pyemsi's FEMAP neutral-file parser
(`src/pyemsi/femap_parser.pyx`) and proofs about it.

Modelling conventions:
* A line of the input file is a `List Char` (`Line`); the file is a `List Line`
  (Python's `readlines` output; universal-newline mode means a line has no
  internal newline).
* Python `str.strip` / `str.rstrip` / `str.split` are modelled character by
  character over the six ASCII whitespace characters Python recognises
  (non-ASCII whitespace does not occur in this format).
* Python `int(s)` / `float(s)` are modelled by `pyInt?` / `pyFloat?` returning
  `Option`; `none` models the `ValueError` the parser catches.  The common
  fixed/scientific notations are covered; the exotic underscore-grouping and
  inf/nan spellings are not used in any theorem below.
* Float values are carried exactly as rationals (`ℚ`): the parser only parses
  and stores them, it never computes with them, and the decimal strings used
  in concrete inputs below are exactly representable.
* A Python dict is an association list (`PyDict`) with Python's
  insert-or-overwrite semantics (`dinsert`): overwriting keeps the original
  position, a fresh key is appended.  `dlookup` is dictionary access.
* NumPy array construction (`np.array(..., dtype=...)`) is modelled as the
  identity on the collected value lists: the file format restricts IDs to
  `[1, 99999999]`, inside the int32 range, and float64 is the value domain
  modelled by `ℚ` throughout.
-/

set_option maxHeartbeats 1000000

deriving instance DecidableEq for Except

namespace PyEMSI

/-- One line of input, as a list of characters. -/
abbrev Line := List Char

/-- Characters of a string literal (used to write concrete inputs). -/
def chars (s : String) : Line := s.data

/-- ASCII whitespace stripped by Python's `str.strip()` / split by `str.split()`. -/
def isPySpace (c : Char) : Bool :=
  c = ' ' || c = '\t' || c = '\n' || c = '\r' || c = '\x0b' || c = '\x0c'

/-- Remove the trailing run of characters satisfying `p` (Python `rstrip`). -/
def dropTrailing (p : Char → Bool) (l : Line) : Line :=
  (l.reverse.dropWhile p).reverse

/-- Python `str.strip()` (no arguments): remove surrounding whitespace. -/
def pyStrip (l : Line) : Line :=
  dropTrailing isPySpace (l.dropWhile isPySpace)

/-- Python `str.rstrip(",")`: remove all trailing commas. -/
def rstripComma (l : Line) : Line := dropTrailing (· = ',') l

/-- Python `line.rstrip("\n")`: remove trailing newlines. -/
def rstripNewline (l : Line) : Line := dropTrailing (· = '\n') l

/-- Split on every character satisfying `p`, keeping empty fragments
    (the behaviour of Python `str.split(sep)` for a one-character `sep`). -/
def splitOnChar (p : Char → Bool) : Line → List Line
  | [] => [[]]
  | c :: cs =>
    if p c then [] :: splitOnChar p cs
    else
      match splitOnChar p cs with
      | [] => [[c]]
      | g :: gs => (c :: g) :: gs

/-- Python `str.split(",")`. -/
def splitComma (l : Line) : List Line := splitOnChar (· = ',') l

/-- Python `str.split()` (no arguments): split on whitespace runs, no empties. -/
def splitWs (l : Line) : List Line := (splitOnChar isPySpace l).filter (· ≠ [])

/-- `FEMAPParser._parse_csv_line_fast` = `FEMAPParser.parse_csv_line`
    (femap_parser.pyx lines 114-143). -/
def parse_csv_line (line : Line) : List Line :=
  let stripped := pyStrip (rstripComma line)
  if stripped.contains ',' then
    ((splitComma stripped).map pyStrip).filter (· ≠ [])
  else
    splitWs stripped

/-- Numeric value of a decimal digit character. -/
def digitVal (c : Char) : ℤ := (c.toNat : ℤ) - ('0'.toNat : ℤ)

/-- Value of a string of decimal digits. -/
def digitsVal (l : Line) : ℤ := l.foldl (fun a c => a * 10 + digitVal c) 0

/-- Consume an optional leading sign, returning the sign and the rest. -/
def parseSign : Line → ℤ × Line
  | '+' :: t => (1, t)
  | '-' :: t => (-1, t)
  | l => (1, l)

/-- Python `int(s)` on the strings this parser feeds it (`ValueError` ↦ `none`). -/
def pyInt? (l : Line) : Option ℤ :=
  let s := pyStrip l
  let sg := parseSign s
  if sg.2 ≠ [] ∧ sg.2.all Char.isDigit then some (sg.1 * digitsVal sg.2) else none

/-- Optional exponent part of a Python float literal (`""` = exponent 0). -/
def pyExp? : Line → Option ℤ
  | [] => some 0
  | c :: t =>
    if c = 'e' ∨ c = 'E' then
      let sg := parseSign t
      if sg.2 ≠ [] ∧ sg.2.all Char.isDigit then some (sg.1 * digitsVal sg.2) else none
    else none

/-- Python `float(s)` on the strings this parser feeds it, valued in `ℚ`
    (`ValueError` ↦ `none`). -/
def pyFloat? (l : Line) : Option ℚ :=
  let s := pyStrip l
  let sg := parseSign s
  let ip := sg.2.takeWhile Char.isDigit
  let r1 := sg.2.dropWhile Char.isDigit
  let md :=
    match r1 with
    | '.' :: rest =>
      (ip ++ rest.takeWhile Char.isDigit, (rest.takeWhile Char.isDigit).length,
        rest.dropWhile Char.isDigit)
    | _ => (ip, 0, r1)
  if md.1 = [] then none
  else
    match pyExp? md.2.2 with
    | some e =>
      some (mkRat (sg.1 * digitsVal md.1 * 10 ^ (e - (md.2.1 : ℤ)).toNat)
        (10 ^ (-(e - (md.2.1 : ℤ))).toNat))
    | none => none

/-- A Python dict with integer keys, as an association list in insertion order. -/
abbrev PyDict (V : Type) := List (ℤ × V)

/-- Python `d[k] = v`: overwrite in place if `k` is present, else append. -/
def dinsert {V : Type} (k : ℤ) (v : V) : PyDict V → PyDict V
  | [] => [(k, v)]
  | (k', v') :: t => if k = k' then (k, v) :: t else (k', v') :: dinsert k v t

/-- Python `d.get(k)` / `d[k]`. -/
def dlookup {V : Type} (k : ℤ) : PyDict V → Option V
  | [] => none
  | (k', v') :: t => if k = k' then some v' else dlookup k t

/-- `FEMAPBlock` (femap_parser.pyx lines 22-30). -/
structure FEMAPBlock where
  block_id : ℤ
  lines : List Line
deriving DecidableEq

/-- `self.BLOCK_DELIMITER = "   -1"` (3 spaces + -1). -/
def BLOCK_DELIMITER : Line := chars "   -1"

/-- The accumulate phase of `FEMAPParser._parse` (lines 84-90): collect lines
    until the next delimiter; the delimiter line is consumed.  Returns the
    collected block lines and the remaining input. -/
def collectBlock : List Line → List Line × List Line
  | [] => ([], [])
  | l :: rest =>
    if rstripNewline l = BLOCK_DELIMITER then ([], rest)
    else (rstripNewline l :: (collectBlock rest).1, (collectBlock rest).2)

theorem collectBlock_rest_le (ls : List Line) :
    (collectBlock ls).2.length ≤ ls.length := by
  induction ls with
  | nil => simp [collectBlock]
  | cons l rest ih =>
    simp only [collectBlock]
    split
    · simp
    · simpa using Nat.le_succ_of_le ih

/-- `FEMAPParser._parse` (lines 46-103), on the already-read list of lines.
    Blocks are returned in file order; the Python side stores them in a dict
    from block id to blocks-in-file-order, which `get_blocks` recovers by
    filtering this list. -/
def femapScan : List Line → List FEMAPBlock
  | [] => []
  | l :: rest =>
    if rstripNewline l = BLOCK_DELIMITER then
      match rest with
      | [] => []
      | nl :: rest2 =>
        if pyStrip nl = chars "-1" then femapScan (nl :: rest2)
        else
          match pyInt? (pyStrip nl) with
          | some bid =>
            ⟨bid, (collectBlock rest2).1⟩ :: femapScan (collectBlock rest2).2
          | none => femapScan (nl :: rest2)
    else femapScan rest
termination_by ls => ls.length
decreasing_by
  all_goals simp only [List.length_cons]
  all_goals first
    | exact Nat.lt_succ_of_lt (Nat.lt_succ_of_le (collectBlock_rest_le _))
    | omega

/-- `FEMAPParser.get_blocks` (lines 145-147): all blocks with the given id,
    in file order. -/
def get_blocks (bs : List FEMAPBlock) (id : ℤ) : List FEMAPBlock :=
  bs.filter (fun b => b.block_id == id)

/-- Result record of `get_header` (lines 149-170). -/
structure Header where
  title : Line
  version : Line
deriving DecidableEq

/-- `FEMAPParser.get_header` (lines 149-170).  Note: the header's title is
    `strip()`ped only (no comma stripping) before the `<NULL>` check. -/
def get_header (bs : List FEMAPBlock) : Option Header :=
  match get_blocks bs 100 with
  | [] => none
  | b :: _ =>
    match b.lines with
    | t :: v :: _ =>
      let title := pyStrip t
      some ⟨if title = chars "<NULL>" then [] else title, pyStrip v⟩
    | _ => none

/-- One iteration of the `get_nodes` loop body (lines 187-198). -/
def nodesLineStep (nodes : PyDict (ℚ × ℚ × ℚ)) (line : Line) : PyDict (ℚ × ℚ × ℚ) :=
  let parts := parse_csv_line line
  if parts.length ≥ 14 then
    match pyInt? (parts.getD 0 []), pyFloat? (parts.getD 11 []),
        pyFloat? (parts.getD 12 []), pyFloat? (parts.getD 13 []) with
    | some nid, some x, some y, some z => dinsert nid (x, y, z) nodes
    | _, _, _, _ => nodes
  else nodes

/-- `FEMAPParser.get_nodes` (lines 172-200). -/
def get_nodes (bs : List FEMAPBlock) : PyDict (ℚ × ℚ × ℚ) :=
  (get_blocks bs 403).foldl (fun d b => b.lines.foldl nodesLineStep d) []

/-- One iteration of the `get_nodes_arrays` loop body (lines 219-231):
    the id and coordinate rows are appended together, after all four
    conversions have succeeded. -/
def nodesArrStep (acc : List ℤ × List (ℚ × ℚ × ℚ)) (line : Line) :
    List ℤ × List (ℚ × ℚ × ℚ) :=
  let parts := parse_csv_line line
  if parts.length ≥ 14 then
    match pyInt? (parts.getD 0 []), pyFloat? (parts.getD 11 []),
        pyFloat? (parts.getD 12 []), pyFloat? (parts.getD 13 []) with
    | some nid, some x, some y, some z => (acc.1 ++ [nid], acc.2 ++ [(x, y, z)])
    | _, _, _, _ => acc
  else acc

/-- `FEMAPParser.get_nodes_arrays` (lines 202-236); the NumPy conversion at
    the end is modelled as the identity on the collected lists. -/
def get_nodes_arrays (bs : List FEMAPBlock) : List ℤ × List (ℚ × ℚ × ℚ) :=
  (get_blocks bs 403).foldl (fun a b => b.lines.foldl nodesArrStep a) ([], [])

/-- Shared title-slot treatment of 402/450/1051 (e.g. lines 264-266):
    `strip()` then `rstrip(",")`, then the `<NULL>` sentinel becomes empty. -/
def titleOf (l : Line) : Line :=
  let t := rstripComma (pyStrip l)
  if t = chars "<NULL>" then [] else t

/-- Value stored per property by `get_properties` (line 268). -/
structure PropEntry where
  material_id : ℤ
  title : Line
deriving DecidableEq

/-- One record attempt of `get_properties` (lines 256-271) at line `l` with
    `rest` the lines after it; `none` models the caught `ValueError`. -/
def parse402 (l : Line) (rest : List Line) : Option (ℤ × PropEntry) :=
  let parts := parse_csv_line l
  match pyInt? (parts.getD 0 []), pyInt? (parts.getD 2 []) with
  | some pid, some mid =>
    some (pid, ⟨mid, match rest.head? with
                     | some tl => titleOf tl
                     | none => []⟩)
  | _, _ => none

/-- The `while` loop of `get_properties` (lines 253-273) over one block's
    lines: stride 7 on success, 1 on failure. -/
def propsLoop : List Line → PyDict PropEntry → PyDict PropEntry
  | [], d => d
  | l :: rest, d =>
    if (parse_csv_line l).length ≥ 3 then
      match parse402 l rest with
      | some r => propsLoop (rest.drop 6) (dinsert r.1 r.2 d)
      | none => propsLoop rest d
    else propsLoop rest d
termination_by ls _ => ls.length
decreasing_by
  all_goals (simp only [List.length_cons, List.length_drop]; omega)

/-- `FEMAPParser.get_properties` (lines 238-275). -/
def get_properties (bs : List FEMAPBlock) : PyDict PropEntry :=
  (get_blocks bs 402).foldl (fun d b => propsLoop b.lines d) []

/-- Element record produced by `get_elements` (lines 316-321). -/
structure Elem where
  id : ℤ
  prop_id : ℤ
  topology : ℤ
  nodes : List ℤ
deriving DecidableEq

/-- `int()` over a list of fields; any failure is the caught `ValueError`. -/
def mapInt? : List Line → Option (List ℤ)
  | [] => some []
  | p :: t =>
    match pyInt? p, mapInt? t with
    | some n, some ns => some (n :: ns)
    | _, _ => none

/-- Nodes contributed by one connectivity line (lines 302-314): absent line
    contributes nothing, otherwise every field must parse and zeros are
    dropped. -/
def nodeLineInts? : Option Line → Option (List ℤ)
  | none => some []
  | some l => (mapInt? (parse_csv_line l)).map (List.filter (fun n => n ≠ 0))

/-- One record attempt of `get_elements` (lines 294-321). -/
def parse404 (l : Line) (rest : List Line) : Option Elem :=
  let parts := parse_csv_line l
  match pyInt? (parts.getD 0 []), pyInt? (parts.getD 2 []), pyInt? (parts.getD 4 []) with
  | some eid, some pid, some topo =>
    match nodeLineInts? rest.head?, nodeLineInts? rest[1]? with
    | some n1, some n2 => some ⟨eid, pid, topo, n1 ++ n2⟩
    | _, _ => none
  | _, _, _ => none

/-- The `while` loop of `get_elements` (lines 291-326) over one block's lines. -/
def elemsLoop : List Line → List Elem
  | [] => []
  | l :: rest =>
    if (parse_csv_line l).length ≥ 5 then
      match parse404 l rest with
      | some e => e :: elemsLoop (rest.drop 6)
      | none => elemsLoop rest
    else elemsLoop rest
termination_by ls => ls.length
decreasing_by
  all_goals (simp only [List.length_cons, List.length_drop]; omega)

/-- `FEMAPParser.get_elements` (lines 277-328). -/
def get_elements (bs : List FEMAPBlock) : List Elem :=
  (get_blocks bs 404).foldl (fun acc b => acc ++ elemsLoop b.lines) []

/-- One iteration of the `get_materials` loop body (lines 416-426); the stored
    payload `{"id": mat_id}` is modelled by the id itself. -/
def matsLineStep (d : PyDict ℤ) (line : Line) : PyDict ℤ :=
  let parts := parse_csv_line line
  if parts.length ≥ 1 then
    match pyInt? (parts.getD 0 []) with
    | some mid => dinsert mid mid d
    | none => d
  else d

/-- `FEMAPParser.get_materials` (lines 400-428); every branch of its loop
    advances by one line, so the loop is a fold over the block's lines. -/
def get_materials (bs : List FEMAPBlock) : PyDict ℤ :=
  (get_blocks bs 601).foldl (fun d b => b.lines.foldl matsLineStep d) []

/-- Value stored per output set by `get_output_sets` (line 466). -/
structure OutSet where
  title : Line
  value : ℚ
deriving DecidableEq

/-- One record attempt of `get_output_sets` (lines 449-467). -/
def parse450 (l : Line) (rest : List Line) : Option (ℤ × OutSet) :=
  let parts := parse_csv_line l
  match pyInt? (parts.getD 0 []) with
  | some sid =>
    let title := match rest.head? with
                 | some tl => titleOf tl
                 | none => []
    match rest[2]? with
    | none => some (sid, ⟨title, 0⟩)
    | some vl =>
      let vparts := parse_csv_line vl
      if vparts.length ≥ 1 then
        match pyFloat? (vparts.getD 0 []) with
        | some v => some (sid, ⟨title, v⟩)
        | none => none
      else some (sid, ⟨title, 0⟩)
  | none => none

/-- The `while` loop of `get_output_sets` (lines 446-471): stride 6 on
    success, 1 on failure. -/
def setsLoop : List Line → PyDict OutSet → PyDict OutSet
  | [], d => d
  | l :: rest, d =>
    if (parse_csv_line l).length ≥ 1 then
      match parse450 l rest with
      | some r => setsLoop (rest.drop 5) (dinsert r.1 r.2 d)
      | none => setsLoop rest d
    else setsLoop rest d
termination_by ls _ => ls.length
decreasing_by
  all_goals (simp only [List.length_cons, List.length_drop]; omega)

/-- `FEMAPParser.get_output_sets` (lines 430-473). -/
def get_output_sets (bs : List FEMAPBlock) : PyDict OutSet :=
  (get_blocks bs 450).foldl (fun d b => setsLoop b.lines d) []

/-- The result-stream terminator test (lines 524-526): at least two fields,
    the first exactly the string `-1`, the second exactly the string `0.`. -/
def isTermParts (ps : List Line) : Bool :=
  ps.length ≥ 2 && ps.getD 0 [] == chars "-1" && ps.getD 1 [] == chars "0."

/-- `float()` over a list of fields; any failure is the caught `ValueError`
    (a Python list comprehension evaluates fully before extending). -/
def mapFloat? : List Line → Option (List ℚ)
  | [] => some []
  | p :: t =>
    match pyFloat? p, mapFloat? t with
    | some v, some vs => some (v :: vs)
    | _, _ => none

/-- The Format-2 continuation loop of `get_output_vectors` (lines 543-550):
    keep consuming lines while fewer than `count` values are gathered; a
    terminator line stops the loop without being consumed; a line that fails
    float conversion raises (`Except.error` carries the suffix starting at the
    offending line, where the handler resumes). -/
def collectCont (values : List ℚ) (count : ℤ) :
    List Line → Except (List Line) (List ℚ × List Line)
  | [] => .ok (values, [])
  | l :: t =>
    if (values.length : ℤ) < count then
      let ps := parse_csv_line l
      if isTermParts ps then .ok (values, l :: t)
      else
        match mapFloat? ps with
        | some ws => collectCont (values ++ ws) count t
        | none => .error (l :: t)
    else .ok (values, l :: t)

/-- The suffix of the input at which a result-stream helper stopped
    (normally or by raising). -/
def restOf {A : Type} : Except (List Line) (A × List Line) → List Line
  | .ok r => r.2
  | .error f => f

theorem collectCont_rest_le (values : List ℚ) (count : ℤ) (ls : List Line) :
    (restOf (collectCont values count ls)).length ≤ ls.length := by
  induction ls generalizing values with
  | nil => simp [collectCont, restOf]
  | cons l t ih =>
    simp only [collectCont]
    split
    · split
      · simp [restOf]
      · split
        · exact Nat.le_succ_of_le (ih _)
        · simp [restOf]
    · simp [restOf]

theorem collectCont_ok_rest_le {values : List ℚ} {count : ℤ} {ls : List Line}
    {r : List ℚ × List Line} (h : collectCont values count ls = .ok r) :
    r.2.length ≤ ls.length := by
  have := collectCont_rest_le values count ls
  rw [h] at this
  exact this

theorem collectCont_error_rest_le {values : List ℚ} {count : ℤ} {ls : List Line}
    {f : List Line} (h : collectCont values count ls = .error f) :
    f.length ≤ ls.length := by
  have := collectCont_rest_le values count ls
  rw [h] at this
  exact this

/-- The run-expansion assignment of lines 552-553:
    `results[start_id + offset] = values[offset]` for
    `offset < min(len(values), entity_count)`. -/
def runEntries (start : ℤ) (values : List ℚ) (count : ℤ) (d : PyDict ℚ) : PyDict ℚ :=
  (List.range (min (values.length : ℤ) count).toNat).foldl
    (fun d (k : ℕ) => dinsert (start + (k : ℤ)) (values.getD k 0) d) d

/-- The result-record loop of `get_output_vectors` (lines 520-555), starting
    just past a vector's 7 header lines.  `.ok` returns the results dict and
    the suffix after the (consumed) terminator or the end of the block;
    `.error` models a raised `ValueError`, carrying the suffix that starts at
    the line the parser was processing when it raised. -/
def collectResults (d : PyDict ℚ) : List Line → Except (List Line) (PyDict ℚ × List Line)
  | [] => .ok (d, [])
  | l :: t =>
    let ps := parse_csv_line l
    if isTermParts ps then .ok (d, t)
    else if ps.length = 2 then
      match pyInt? (ps.getD 0 []), pyFloat? (ps.getD 1 []) with
      | some eid, some v => collectResults (dinsert eid v d) t
      | _, _ => .error (l :: t)
    else if ps.length > 2 then
      match pyInt? (ps.getD 0 []), pyInt? (ps.getD 1 []), mapFloat? (ps.drop 2) with
      | some s, some e, some vs =>
        match h : collectCont vs (e - s + 1) t with
        | .ok r => collectResults (runEntries s r.1 (e - s + 1) d) r.2
        | .error f => .error f
      | _, _, _ => .error (l :: t)
    else collectResults d t
termination_by ls => ls.length
decreasing_by
  all_goals simp only [List.length_cons]
  · omega
  · have := collectCont_ok_rest_le h
    omega
  · omega

theorem collectResults_rest_le_aux (n : ℕ) : ∀ (d : PyDict ℚ) (ls : List Line),
    ls.length ≤ n → (restOf (collectResults d ls)).length ≤ ls.length := by
  induction n with
  | zero =>
    intro d ls h
    have : ls = [] := List.eq_nil_of_length_eq_zero (Nat.le_zero.mp h)
    subst this
    simp [collectResults, restOf]
  | succ n ih =>
    intro d ls h
    match ls with
    | [] => simp [collectResults, restOf]
    | l :: t =>
      have ht : t.length ≤ n := by simp at h; omega
      simp only [collectResults]
      split
      · simp [restOf]
      · split
        · split
          · exact Nat.le_succ_of_le (ih _ t ht)
          · simp [restOf]
        · split
          · split
            · next s e vs hok =>
              split
              · next r hcc =>
                have hr : r.2.length ≤ t.length := collectCont_ok_rest_le hcc
                exact Nat.le_succ_of_le
                  (Nat.le_trans (ih _ r.2 (Nat.le_trans hr ht)) hr)
              · next f hcc =>
                exact Nat.le_succ_of_le (collectCont_error_rest_le hcc)
            · simp [restOf]
          · exact Nat.le_succ_of_le (ih _ t ht)

theorem collectResults_rest_le (d : PyDict ℚ) (ls : List Line) :
    (restOf (collectResults d ls)).length ≤ ls.length :=
  collectResults_rest_le_aux ls.length d ls le_rfl

theorem collectResults_ok_rest_le {d : PyDict ℚ} {ls : List Line}
    {r : PyDict ℚ × List Line} (h : collectResults d ls = .ok r) :
    r.2.length ≤ ls.length := by
  have := collectResults_rest_le d ls
  rw [h] at this
  exact this

theorem collectResults_error_rest_le {d : PyDict ℚ} {ls : List Line}
    {f : List Line} (h : collectResults d ls = .error f) :
    f.length ≤ ls.length := by
  have := collectResults_rest_le d ls
  rw [h] at this
  exact this

/-- Structured record built by `get_output_vectors` (lines 557-563). -/
structure OutVec where
  set_id : ℤ
  vec_id : ℤ
  title : Line
  ent_type : Option ℤ
  results : PyDict ℚ
deriving DecidableEq

/-- The entity-type probe of lines 510-516: `lines[i+5]` parsed when present;
    `ent_type` stays unset when the line is missing or has fewer than 4
    fields; a field that fails `int()` raises. -/
def entTypeOf : Option Line → Except Unit (Option ℤ)
  | none => .ok none
  | some l =>
    let ps := parse_csv_line l
    if ps.length ≥ 4 then
      match pyInt? (ps.getD 3 []) with
      | some v => .ok (some v)
      | none => .error ()
    else .ok none

/-- One vector-record attempt of `get_output_vectors` (lines 500-563), on the
    suffix starting at the header line (which has at least 2 fields).
    `.error` carries the suffix at which the `ValueError` was raised; the
    handler (line 565-566) advances one line from there. -/
def processVector (ls : List Line) : Except (List Line) (OutVec × List Line) :=
  match ls with
  | [] => .error []
  | l :: rest =>
    let parts := parse_csv_line l
    match pyInt? (parts.getD 0 []), pyInt? (parts.getD 1 []) with
    | some sid, some vid =>
      let title := match rest.head? with
                   | some tl => titleOf tl
                   | none => []
      match entTypeOf ls[5]? with
      | .error _ => .error ls
      | .ok ety =>
        match collectResults [] (ls.drop 7) with
        | .ok r => .ok (⟨sid, vid, title, ety, r.1⟩, r.2)
        | .error f => .error f
    | _, _ => .error ls

theorem processVector_ok_rest_lt {ls : List Line} {r : OutVec × List Line}
    (hne : ls ≠ []) (h : processVector ls = .ok r) : r.2.length < ls.length := by
  match ls, hne with
  | l :: rest, _ =>
    simp only [processVector] at h
    split at h
    · split at h
      · exact absurd h (by simp)
      · split at h
        · next rr hcr =>
          have h1 : rr.2.length ≤ ((l :: rest).drop 7).length := collectResults_ok_rest_le hcr
          have h2 : ((l :: rest).drop 7).length ≤ rest.length := by
            simp [List.length_drop]
          cases h
          simp only [List.length_cons]
          omega
        · exact absurd h (by simp)
    · exact absurd h (by simp)

theorem processVector_error_rest_le {ls : List Line} {f : List Line}
    (h : processVector ls = .error f) : f.length ≤ ls.length := by
  match ls with
  | [] => simp_all [processVector]
  | l :: rest =>
    simp only [processVector] at h
    split at h
    · split at h
      · cases h; exact le_rfl
      · split at h
        · exact absurd h (by simp)
        · rename_i ff hcr
          cases h
          have h1 : f.length ≤ ((l :: rest).drop 7).length :=
            collectResults_error_rest_le hcr
          have h2 : ((l :: rest).drop 7).length ≤ rest.length := by
            simp [List.length_drop]
          simp only [List.length_cons]
          omega
    · cases h; exact le_rfl

/-- The outer `while` loop of `get_output_vectors` (lines 497-568) over one
    block's lines: on success the finished vector is appended and the loop
    continues after the record; a raised `ValueError` skips one line from
    where it was raised (lines 565-566). -/
def govLoop : List Line → List OutVec
  | [] => []
  | l :: rest =>
    if (parse_csv_line l).length ≥ 2 then
      match h : processVector (l :: rest) with
      | .ok r => r.1 :: govLoop r.2
      | .error f => govLoop (f.drop 1)
    else govLoop rest
termination_by ls => ls.length
decreasing_by
  · exact processVector_ok_rest_lt (by simp) h
  · have := processVector_error_rest_le h
    simp only [List.length_cons] at this ⊢
    have h2 : (f.drop 1).length = f.length - 1 := by simp [List.length_drop]
    omega
  · simp only [List.length_cons]
    omega

/-- `FEMAPParser.get_output_vectors` (lines 475-570). -/
def get_output_vectors (bs : List FEMAPBlock) : List OutVec :=
  (get_blocks bs 1051).foldl (fun acc b => acc ++ govLoop b.lines) []

/-- Collector state of `get_elements_arrays` (lines 343-352); `offsets` starts
    as `[0]` and the running `offset` counter always equals `conn.length`. -/
structure ElemArrays where
  ids : List ℤ
  props : List ℤ
  topos : List ℤ
  conn : List ℤ
  offsets : List ℤ
deriving DecidableEq

/-- The per-connectivity-line append loop of lines 371-375: each field is
    converted and, when nonzero, appended at once, so a conversion failure
    keeps the already-appended prefix (`Except.error` carries it). -/
def connExtend (conn : List ℤ) : List Line → Except (List ℤ) (List ℤ)
  | [] => .ok conn
  | p :: t =>
    match pyInt? p with
    | some n => connExtend (if n ≠ 0 then conn ++ [n] else conn) t
    | none => .error conn

/-- One record attempt of `get_elements_arrays` (lines 358-385): ids/props/
    topos are appended after their conversions succeed; a failure while
    reading connectivity keeps those appends and the partially extended
    connectivity but not the offsets entry. -/
def stepElemArr (a : ElemArrays) (l : Line) (rest : List Line) :
    Except ElemArrays ElemArrays :=
  let parts := parse_csv_line l
  match pyInt? (parts.getD 0 []), pyInt? (parts.getD 2 []), pyInt? (parts.getD 4 []) with
  | some eid, some pid, some topo =>
    let ids2 := a.ids ++ [eid]
    let props2 := a.props ++ [pid]
    let topos2 := a.topos ++ [topo]
    match rest.head? with
    | none => .ok ⟨ids2, props2, topos2, a.conn, a.offsets ++ [(a.conn.length : ℤ)]⟩
    | some l1 =>
      match connExtend a.conn (parse_csv_line l1) with
      | .error c => .error ⟨ids2, props2, topos2, c, a.offsets⟩
      | .ok c1 =>
        match rest[1]? with
        | none => .ok ⟨ids2, props2, topos2, c1, a.offsets ++ [(c1.length : ℤ)]⟩
        | some l2 =>
          match connExtend c1 (parse_csv_line l2) with
          | .error c => .error ⟨ids2, props2, topos2, c, a.offsets⟩
          | .ok c2 => .ok ⟨ids2, props2, topos2, c2, a.offsets ++ [(c2.length : ℤ)]⟩
  | _, _, _ => .error a

/-- The `while` loop of `get_elements_arrays` (lines 354-390). -/
def elemsArrLoop : List Line → ElemArrays → ElemArrays
  | [], a => a
  | l :: rest, a =>
    if (parse_csv_line l).length ≥ 5 then
      match stepElemArr a l rest with
      | .ok a2 => elemsArrLoop (rest.drop 6) a2
      | .error a2 => elemsArrLoop rest a2
    else elemsArrLoop rest a
termination_by ls _ => ls.length
decreasing_by
  all_goals (simp only [List.length_cons, List.length_drop]; omega)

/-- `FEMAPParser.get_elements_arrays` (lines 330-398); the NumPy conversions
    are modelled as the identity on the collected lists. -/
def get_elements_arrays (bs : List FEMAPBlock) : ElemArrays :=
  (get_blocks bs 404).foldl (fun a b => elemsArrLoop b.lines a) ⟨[], [], [], [], [0]⟩

/-- The filter-skip loop of `get_output_vectors_arrays` (lines 608-615 and
    619-626): every line is consumed, including the terminator that stops the
    loop. -/
def skipToTerm : List Line → List Line
  | [] => []
  | l :: t => if isTermParts (parse_csv_line l) then t else skipToTerm t

theorem skipToTerm_le (ls : List Line) : (skipToTerm ls).length ≤ ls.length := by
  induction ls with
  | nil => simp [skipToTerm]
  | cons l t ih =>
    simp only [skipToTerm]
    split
    · simp
    · exact Nat.le_succ_of_le ih

/-- The result-record loop of `get_output_vectors_arrays` (lines 642-678),
    collecting parallel id/value lists. -/
def collectResultsArr (eids : List ℤ) (vals : List ℚ) :
    List Line → Except (List Line) ((List ℤ × List ℚ) × List Line)
  | [] => .ok ((eids, vals), [])
  | l :: t =>
    let ps := parse_csv_line l
    if isTermParts ps then .ok ((eids, vals), t)
    else if ps.length = 2 then
      match pyInt? (ps.getD 0 []), pyFloat? (ps.getD 1 []) with
      | some eid, some v => collectResultsArr (eids ++ [eid]) (vals ++ [v]) t
      | _, _ => .error (l :: t)
    else if ps.length > 2 then
      match pyInt? (ps.getD 0 []), pyInt? (ps.getD 1 []), mapFloat? (ps.drop 2) with
      | some s, some e, some vs =>
        match h : collectCont vs (e - s + 1) t with
        | .ok r =>
          collectResultsArr
            (eids ++ (List.range (min (r.1.length : ℤ) (e - s + 1)).toNat).map
              (fun (k : ℕ) => s + (k : ℤ)))
            (vals ++ r.1.take (min (r.1.length : ℤ) (e - s + 1)).toNat) r.2
        | .error f => .error f
      | _, _, _ => .error (l :: t)
    else collectResultsArr eids vals t
termination_by ls => ls.length
decreasing_by
  all_goals simp only [List.length_cons]
  · omega
  · have := collectCont_ok_rest_le h
    omega
  · omega

theorem collectResultsArr_rest_le_aux (n : ℕ) : ∀ (eids : List ℤ) (vals : List ℚ)
    (ls : List Line), ls.length ≤ n →
    (restOf (collectResultsArr eids vals ls)).length ≤ ls.length := by
  induction n with
  | zero =>
    intro eids vals ls h
    have : ls = [] := List.eq_nil_of_length_eq_zero (Nat.le_zero.mp h)
    subst this
    simp [collectResultsArr, restOf]
  | succ n ih =>
    intro eids vals ls h
    match ls with
    | [] => simp [collectResultsArr, restOf]
    | l :: t =>
      have ht : t.length ≤ n := by simp at h; omega
      simp only [collectResultsArr]
      split
      · simp [restOf]
      · split
        · split
          · exact Nat.le_succ_of_le (ih _ _ t ht)
          · simp [restOf]
        · split
          · split
            · next s e vs hok =>
              split
              · next r hcc =>
                have hr : r.2.length ≤ t.length := collectCont_ok_rest_le hcc
                exact Nat.le_succ_of_le
                  (Nat.le_trans (ih _ _ r.2 (Nat.le_trans hr ht)) hr)
              · next f hcc =>
                exact Nat.le_succ_of_le (collectCont_error_rest_le hcc)
            · simp [restOf]
          · exact Nat.le_succ_of_le (ih _ _ t ht)

theorem collectResultsArr_error_rest_le {eids : List ℤ} {vals : List ℚ}
    {ls : List Line} {f : List Line}
    (h : collectResultsArr eids vals ls = .error f) : f.length ≤ ls.length := by
  have := collectResultsArr_rest_le_aux ls.length eids vals ls le_rfl
  rw [h] at this
  exact this

theorem skipToTerm_drop7_lt (l : Line) (rest : List Line) :
    (skipToTerm ((l :: rest).drop 7)).length < (l :: rest).length := by
  have h1 := skipToTerm_le ((l :: rest).drop 7)
  simp only [List.length_drop, List.length_cons] at h1 ⊢
  omega

theorem govAError_lt {l : Line} {rest : List Line} {f : List Line}
    (h : collectResultsArr [] [] ((l :: rest).drop 7) = Except.error f) :
    (f.drop 1).length < (l :: rest).length := by
  have h1 := collectResultsArr_error_rest_le h
  simp only [List.length_drop, List.length_cons] at h1 ⊢
  omega

/-- Return record of `get_output_vectors_arrays` (lines 680-686 and 693);
    the `(None, None, -1, -1, -1)` sentinel is the all-defaults value. -/
structure GovArrOut where
  entity_ids : Option (List ℤ)
  values : Option (List ℚ)
  set_id : ℤ
  vec_id : ℤ
  ent_type : ℤ
deriving DecidableEq

/-- The per-block `while` loop of `get_output_vectors_arrays` (lines
    598-691): `some` models the `return` out of the whole function, `none`
    falling through to the next block. -/
def govALoop (sf vf : ℤ) : List Line → Option GovArrOut
  | [] => none
  | l :: rest =>
    if (parse_csv_line l).length ≥ 2 then
      match pyInt? ((parse_csv_line l).getD 0 []),
          pyInt? ((parse_csv_line l).getD 1 []) with
      | some sid, some vid =>
        if 0 ≤ sf ∧ sid ≠ sf then govALoop sf vf (skipToTerm ((l :: rest).drop 7))
        else if 0 ≤ vf ∧ vid ≠ vf then govALoop sf vf (skipToTerm ((l :: rest).drop 7))
        else
          match entTypeOf (l :: rest)[5]? with
          | .error _ => govALoop sf vf rest
          | .ok ety =>
            match h : collectResultsArr [] [] ((l :: rest).drop 7) with
            | .ok r => some ⟨some r.1.1, some r.1.2, sid, vid, ety.getD (-1)⟩
            | .error f => govALoop sf vf (f.drop 1)
      | _, _ => govALoop sf vf rest
    else govALoop sf vf rest
termination_by ls => ls.length
decreasing_by
  all_goals first
    | (simp only [List.length_cons]; omega)
    | exact skipToTerm_drop7_lt _ _
    | exact govAError_lt (by assumption)

/-- `FEMAPParser.get_output_vectors_arrays` (lines 572-693): the first
    matching vector across the 1051 blocks, else the sentinel. -/
def get_output_vectors_arrays (bs : List FEMAPBlock) (sf vf : ℤ) : GovArrOut :=
  match (get_blocks bs 1051).findSome? (fun b => govALoop sf vf b.lines) with
  | some r => r
  | none => ⟨none, none, -1, -1, -1⟩

/-! ### Generic facts about the Python-dict model -/

/-- The keys of a dict, in order. -/
def dkeys {V : Type} (d : PyDict V) : List ℤ := d.map Prod.fst

/-- Fold a list of key/value assignments into a dict, in order. -/
def dinsertFold {V : Type} (rs : List (ℤ × V)) (d : PyDict V) : PyDict V :=
  rs.foldl (fun d r => dinsert r.1 r.2 d) d

theorem dlookup_dinsert {V : Type} (k k' : ℤ) (v : V) (d : PyDict V) :
    dlookup k (dinsert k' v d) = if k = k' then some v else dlookup k d := by
  induction d with
  | nil => by_cases h : k = k' <;> simp [dinsert, dlookup, h]
  | cons p t ih =>
    simp only [dinsert]
    by_cases h1 : k' = p.1
    · rw [if_pos h1]
      by_cases h2 : k = k'
      · simp [dlookup, h2]
      · have h3 : ¬ k = p.1 := by omega
        simp [dlookup, h2, h3]
    · rw [if_neg h1]
      simp only [dlookup]
      by_cases h2 : k = p.1
      · have h3 : ¬ k = k' := by omega
        simp only [h2, h3, if_false, if_true, if_pos rfl]
        rw [if_neg (by omega)]
      · simp [h2, ih]

theorem dinsert_of_not_mem_keys {V : Type} (k : ℤ) (v : V) (d : PyDict V)
    (h : k ∉ dkeys d) : dinsert k v d = d ++ [(k, v)] := by
  induction d with
  | nil => simp [dinsert]
  | cons p t ih =>
    simp only [dkeys, List.map_cons, List.mem_cons] at h
    push_neg at h
    simp only [dinsert]
    rw [if_neg h.1]
    simp only [List.cons_append, List.cons.injEq, true_and]
    exact ih (by simpa [dkeys] using h.2)

theorem dinsert_length_le {V : Type} (k : ℤ) (v : V) (d : PyDict V) :
    (dinsert k v d).length ≤ d.length + 1 := by
  induction d with
  | nil => simp [dinsert]
  | cons p t ih =>
    simp only [dinsert]
    split
    · simp
    · simpa using ih

theorem getLast?_cons_eq {A : Type} (a : A) (l : List A) :
    (a :: l).getLast? = match l.getLast? with
                        | some x => some x
                        | none => some a := by
  induction l generalizing a with
  | nil => simp
  | cons b t ih =>
    rw [List.getLast?_cons_cons]
    cases hl : (b :: t).getLast? with
    | some x => simp
    | none =>
      have h2 : (b :: t) ≠ [] := by simp
      rw [← List.getLast?_isSome] at h2
      rw [hl] at h2
      simp at h2

/-- Last-wins: dictionary lookup after folding in a list of assignments
    returns the value of the last assignment to that key, if any. -/
theorem dlookup_dinsertFold {V : Type} (k : ℤ) (rs : List (ℤ × V)) (d : PyDict V) :
    dlookup k (dinsertFold rs d) =
      match (rs.filter (fun r => r.1 == k)).getLast? with
      | some r => some r.2
      | none => dlookup k d := by
  induction rs generalizing d with
  | nil => simp [dinsertFold]
  | cons r rs ih =>
    rw [show dinsertFold (r :: rs) d = dinsertFold rs (dinsert r.1 r.2 d) from rfl, ih]
    by_cases h : r.1 = k
    · have hb : (r.1 == k) = true := by simpa using h
      simp only [List.filter_cons, hb, if_true]
      rw [getLast?_cons_eq]
      cases hl : (rs.filter (fun r => r.1 == k)).getLast? with
      | some x => simp only [hl]
      | none =>
        simp only [hl, dlookup_dinsert]
        rw [if_pos h.symm]
    · have hb : (r.1 == k) = false := by simpa using h
      simp only [List.filter_cons, hb, Bool.false_eq_true, if_false]
      cases hl : (rs.filter (fun r => r.1 == k)).getLast? with
      | some x => simp only [hl]
      | none =>
        simp only [hl, dlookup_dinsert]
        rw [if_neg (fun hk => h hk.symm)]

theorem dinsertFold_nodup_eq {V : Type} (rs : List (ℤ × V)) (d : PyDict V)
    (h : (dkeys (d ++ rs)).Nodup) : dinsertFold rs d = d ++ rs := by
  induction rs generalizing d with
  | nil => simp [dinsertFold]
  | cons r rs ih =>
    have hmem : r.1 ∉ dkeys d := by
      intro hm
      simp only [dkeys, List.map_append] at h
      rcases List.nodup_append.mp h with ⟨h1, h2, h3⟩
      exact h3 (by simpa [dkeys] using hm) (by simp)
    have step : dinsertFold (r :: rs) d = dinsertFold rs (dinsert r.1 r.2 d) := rfl
    rw [step, dinsert_of_not_mem_keys _ _ _ hmem]
    rw [ih (d ++ [r]) (by simpa using h)]
    simp

theorem dinsertFold_length_le {V : Type} (rs : List (ℤ × V)) (d : PyDict V) :
    (dinsertFold rs d).length ≤ d.length + rs.length := by
  induction rs generalizing d with
  | nil => simp [dinsertFold]
  | cons r rs ih =>
    have step : dinsertFold (r :: rs) d = dinsertFold rs (dinsert r.1 r.2 d) := rfl
    rw [step]
    have h1 := ih (dinsert r.1 r.2 d)
    have h2 := dinsert_length_le r.1 r.2 d
    simp only [List.length_cons]
    omega

theorem getD_mem {A : Type} (l : List A) (a : A) :
    ∀ k : ℕ, k < l.length → l.getD k a ∈ l := by
  induction l with
  | nil => intro k hk; simp at hk
  | cons x t ih =>
    intro k hk
    cases k with
    | zero => simp [List.getD]
    | succ k =>
      have : (x :: t).getD (k + 1) a = t.getD k a := by simp [List.getD]
      rw [this]
      exact List.mem_cons_of_mem x (ih k (by simpa using hk))

theorem dlookup_nodup_get {V : Type} [Inhabited V] (rs : List (ℤ × V))
    (h : (dkeys rs).Nodup) :
    ∀ k : ℕ, k < rs.length →
      dlookup ((rs.map Prod.fst).getD k 0) rs =
        some ((rs.map Prod.snd).getD k default) := by
  induction rs with
  | nil => intro k hk; simp at hk
  | cons r t ih =>
    intro k hk
    have hcons : r.1 ∉ (t.map Prod.fst) ∧ (t.map Prod.fst).Nodup := by
      have h2 := h
      simp only [dkeys, List.map_cons, List.nodup_cons] at h2
      exact h2
    obtain ⟨hnm, hnd⟩ := hcons
    cases k with
    | zero => simp [dlookup, List.getD]
    | succ k =>
      have hk2 : k < t.length := by simpa using hk
      have e1 : ((r :: t).map Prod.fst).getD (k + 1) 0 = (t.map Prod.fst).getD k 0 := by
        simp [List.getD]
      have e2 : ((r :: t).map Prod.snd).getD (k + 1) default =
          (t.map Prod.snd).getD k default := by
        simp [List.getD]
      rw [e1, e2]
      have hne : (t.map Prod.fst).getD k 0 ≠ r.1 := by
        intro he
        exact hnm (he ▸ getD_mem (t.map Prod.fst) 0 k (by simpa using hk2))
      simp only [dlookup]
      rw [if_neg hne]
      exact ih (by simp only [dkeys]; exact hnd) k hk2

theorem dkeys_dinsert {V : Type} (k : ℤ) (v : V) (d : PyDict V) :
    dkeys (dinsert k v d) = if k ∈ dkeys d then dkeys d else dkeys d ++ [k] := by
  induction d with
  | nil => simp [dinsert, dkeys]
  | cons p t ih =>
    simp only [dinsert]
    by_cases h : k = p.1
    · rw [if_pos h]
      simp [dkeys, h]
    · rw [if_neg h]
      simp only [dkeys, List.map_cons] at ih ⊢
      rw [ih]
      by_cases hm : k ∈ t.map Prod.fst
      · simp [hm, h]
      · simp only [hm, if_false, List.mem_cons, h, false_or]
        simp [hm]

theorem dinsert_keys_nodup {V : Type} (k : ℤ) (v : V) (d : PyDict V)
    (h : (dkeys d).Nodup) : (dkeys (dinsert k v d)).Nodup := by
  rw [dkeys_dinsert]
  by_cases hm : k ∈ dkeys d
  · simpa [hm] using h
  · simp only [hm, if_false]
    simpa [List.nodup_append, hm] using h

theorem dinsertFold_keys_nodup {V : Type} (rs : List (ℤ × V)) (d : PyDict V)
    (h : (dkeys d).Nodup) : (dkeys (dinsertFold rs d)).Nodup := by
  induction rs generalizing d with
  | nil => simpa [dinsertFold] using h
  | cons r rs ih =>
    exact ih (dinsert r.1 r.2 d) (dinsert_keys_nodup r.1 r.2 d h)

theorem foldl_append_extract {A B : Type} (f : B → List A) (bl : List B) :
    ∀ acc : List A, bl.foldl (fun a b => a ++ f b) acc =
      acc ++ bl.foldl (fun a b => a ++ f b) [] := by
  induction bl with
  | nil => simp
  | cons b bl ih =>
    intro acc
    simp only [List.foldl_cons]
    rw [ih (acc ++ f b), ih (([] : List A) ++ f b)]
    simp

theorem dinsertFold_append {V : Type} (xs ys : List (ℤ × V)) (d : PyDict V) :
    dinsertFold (xs ++ ys) d = dinsertFold ys (dinsertFold xs d) := by
  simp only [dinsertFold, List.foldl_append]

/-! ### Claim C9: last-wins for repeated property IDs (block 402) -/

/-- The 402 records, in extraction order, over one block's lines: the same
    scan as `propsLoop` but collecting the records instead of folding them
    into the dict. -/
def propsRecs : List Line → List (ℤ × PropEntry)
  | [] => []
  | l :: rest =>
    if (parse_csv_line l).length ≥ 3 then
      match parse402 l rest with
      | some r => r :: propsRecs (rest.drop 6)
      | none => propsRecs rest
    else propsRecs rest
termination_by ls => ls.length
decreasing_by
  all_goals (simp only [List.length_cons, List.length_drop]; omega)

theorem propsLoop_eq_fold_aux (n : ℕ) : ∀ (ls : List Line) (d : PyDict PropEntry),
    ls.length ≤ n → propsLoop ls d = dinsertFold (propsRecs ls) d := by
  induction n with
  | zero =>
    intro ls d h
    have : ls = [] := List.eq_nil_of_length_eq_zero (Nat.le_zero.mp h)
    subst this
    simp [propsLoop, propsRecs, dinsertFold]
  | succ n ih =>
    intro ls d h
    match ls with
    | [] => simp [propsLoop, propsRecs, dinsertFold]
    | l :: rest =>
      have hr : rest.length ≤ n := by simp at h; omega
      simp only [propsLoop, propsRecs]
      split
      · cases hp : parse402 l rest with
        | some r =>
          simp only [hp]
          rw [ih (rest.drop 6) _ (by simp only [List.length_drop]; omega)]
          rfl
        | none =>
          simp only [hp]
          exact ih rest d hr
      · exact ih rest d hr

theorem propsLoop_eq_fold (ls : List Line) (d : PyDict PropEntry) :
    propsLoop ls d = dinsertFold (propsRecs ls) d :=
  propsLoop_eq_fold_aux ls.length ls d le_rfl

/-- All 402 records of the input, in file order. -/
def propRecords (bs : List FEMAPBlock) : List (ℤ × PropEntry) :=
  (get_blocks bs 402).foldl (fun acc b => acc ++ propsRecs b.lines) []

theorem get_properties_eq_fold (bs : List FEMAPBlock) :
    get_properties bs = dinsertFold (propRecords bs) [] := by
  rw [get_properties, propRecords]
  generalize get_blocks bs 402 = bl
  have main : ∀ (bl : List FEMAPBlock) (d : PyDict PropEntry),
      bl.foldl (fun d b => propsLoop b.lines d) d =
        dinsertFold (bl.foldl (fun acc b => acc ++ propsRecs b.lines) []) d := by
    intro bl
    induction bl with
    | nil => intro d; simp [dinsertFold]
    | cons b bl ih =>
      intro d
      simp only [List.foldl_cons]
      rw [ih (propsLoop b.lines d), propsLoop_eq_fold]
      rw [foldl_append_extract (fun b => propsRecs b.lines) bl ([] ++ propsRecs b.lines)]
      rw [dinsertFold_append]
      simp
  exact main bl []

/-- C9: on any input, `get_properties` has at most one entry per property id
    (its key list has no duplicates), and looking up a property id yields the
    `material_id`/`title` of the **last** 402 record with that id in file
    order — whether the repetition is inside one block instance or across
    repeated block instances — and `none` when no record has that id. -/
theorem C9_properties_last_wins (bs : List FEMAPBlock) (k : ℤ) :
    (dkeys (get_properties bs)).Nodup ∧
    dlookup k (get_properties bs) =
      (match ((propRecords bs).filter (fun r => r.1 == k)).getLast? with
       | some r => some r.2
       | none => none) := by
  constructor
  · rw [get_properties_eq_fold]
    exact dinsertFold_keys_nodup _ _ (by simp [dkeys])
  · rw [get_properties_eq_fold, dlookup_dinsertFold]
    cases hl : ((propRecords bs).filter (fun r => r.1 == k)).getLast? with
    | some x => simp only [hl]
    | none => simp only [hl, dlookup]

/-! ### Claim C10: `get_nodes_arrays` versus `get_nodes` -/

/-- The accepted 403 records, in file order: the same per-line test as
    `get_nodes` / `get_nodes_arrays`, collecting the records. -/
def nodesRecsLine (rs : List (ℤ × (ℚ × ℚ × ℚ))) (line : Line) :
    List (ℤ × (ℚ × ℚ × ℚ)) :=
  let parts := parse_csv_line line
  if parts.length ≥ 14 then
    match pyInt? (parts.getD 0 []), pyFloat? (parts.getD 11 []),
        pyFloat? (parts.getD 12 []), pyFloat? (parts.getD 13 []) with
    | some nid, some x, some y, some z => rs ++ [(nid, (x, y, z))]
    | _, _, _, _ => rs
  else rs

/-- The concatenation of the lines of all blocks with a given id, in file
    order. -/
def blockLines (bs : List FEMAPBlock) (id : ℤ) : List Line :=
  (get_blocks bs id).foldl (fun acc b => acc ++ b.lines) []

/-- All accepted 403 records of the input, in file order. -/
def nodeRecords (bs : List FEMAPBlock) : List (ℤ × (ℚ × ℚ × ℚ)) :=
  (blockLines bs 403).foldl nodesRecsLine []

theorem foldl_blocks_concat {A C : Type} (step : C → A → C)
    (lines : FEMAPBlock → List A) :
    ∀ (bl : List FEMAPBlock) (c : C),
      bl.foldl (fun c b => (lines b).foldl step c) c =
        (bl.foldl (fun acc b => acc ++ lines b) []).foldl step c := by
  intro bl
  induction bl with
  | nil => intro c; simp
  | cons b bl ih =>
    intro c
    simp only [List.foldl_cons]
    rw [ih ((lines b).foldl step c)]
    rw [foldl_append_extract lines bl ([] ++ lines b)]
    simp [List.foldl_append]

theorem get_nodes_eq_lineFold (bs : List FEMAPBlock) :
    get_nodes bs = (blockLines bs 403).foldl nodesLineStep [] := by
  rw [get_nodes, blockLines]
  exact foldl_blocks_concat nodesLineStep (fun b => b.lines) (get_blocks bs 403) []

theorem get_nodes_arrays_eq_lineFold (bs : List FEMAPBlock) :
    get_nodes_arrays bs = (blockLines bs 403).foldl nodesArrStep ([], []) := by
  rw [get_nodes_arrays, blockLines]
  exact foldl_blocks_concat nodesArrStep (fun b => b.lines) (get_blocks bs 403) ([], [])

theorem nodesArr_eq_recs (lines : List Line) :
    ∀ rs : List (ℤ × (ℚ × ℚ × ℚ)),
      lines.foldl nodesArrStep (rs.map Prod.fst, rs.map Prod.snd) =
        ((lines.foldl nodesRecsLine rs).map Prod.fst,
         (lines.foldl nodesRecsLine rs).map Prod.snd) := by
  induction lines with
  | nil => intro rs; simp
  | cons l lines ih =>
    intro rs
    simp only [List.foldl_cons]
    have step : nodesArrStep (rs.map Prod.fst, rs.map Prod.snd) l =
        ((nodesRecsLine rs l).map Prod.fst, (nodesRecsLine rs l).map Prod.snd) := by
      simp only [nodesArrStep, nodesRecsLine]
      split
      · cases pyInt? ((parse_csv_line l).getD 0 []) <;>
          cases pyFloat? ((parse_csv_line l).getD 11 []) <;>
          cases pyFloat? ((parse_csv_line l).getD 12 []) <;>
          cases pyFloat? ((parse_csv_line l).getD 13 []) <;>
          simp
      · rfl
    rw [step, ih (nodesRecsLine rs l)]

theorem nodesDict_eq_recs (lines : List Line) :
    ∀ (rs : List (ℤ × (ℚ × ℚ × ℚ))) (d : PyDict (ℚ × ℚ × ℚ)),
      lines.foldl nodesLineStep (dinsertFold rs d) =
        dinsertFold (lines.foldl nodesRecsLine rs) d := by
  induction lines with
  | nil => intro rs d; simp
  | cons l lines ih =>
    intro rs d
    simp only [List.foldl_cons]
    have step : nodesLineStep (dinsertFold rs d) l =
        dinsertFold (nodesRecsLine rs l) d := by
      simp only [nodesLineStep, nodesRecsLine]
      split
      · cases pyInt? ((parse_csv_line l).getD 0 []) <;>
          cases pyFloat? ((parse_csv_line l).getD 11 []) <;>
          cases pyFloat? ((parse_csv_line l).getD 12 []) <;>
          cases pyFloat? ((parse_csv_line l).getD 13 []) <;>
          simp [dinsertFold_append, dinsertFold]
      · rfl
    rw [step, ih (nodesRecsLine rs l) d]

theorem get_nodes_eq_fold (bs : List FEMAPBlock) :
    get_nodes bs = dinsertFold (nodeRecords bs) [] := by
  rw [get_nodes_eq_lineFold, nodeRecords]
  have := nodesDict_eq_recs (blockLines bs 403) [] []
  simpa [dinsertFold] using this

theorem get_nodes_arrays_eq_recs (bs : List FEMAPBlock) :
    get_nodes_arrays bs =
      ((nodeRecords bs).map Prod.fst, (nodeRecords bs).map Prod.snd) := by
  rw [get_nodes_arrays_eq_lineFold, nodeRecords]
  have := nodesArr_eq_recs (blockLines bs 403) []
  simpa using this

/-- C10: `get_nodes_arrays` returns id/coordinate arrays of equal length with
    one row per accepted 403 record in file-appearance order, while
    `get_nodes` is the last-wins dict over the same records, so the dict never
    has more entries than the arrays have rows; when the accepted records
    carry pairwise-distinct node ids the two agree: the array length equals
    the dict size and row `k`'s id looks up row `k`'s coordinates. -/
theorem C10_nodes_arrays_refinement (bs : List FEMAPBlock) :
    (get_nodes_arrays bs).1.length = (get_nodes_arrays bs).2.length ∧
    get_nodes_arrays bs =
      ((nodeRecords bs).map Prod.fst, (nodeRecords bs).map Prod.snd) ∧
    get_nodes bs = dinsertFold (nodeRecords bs) [] ∧
    (get_nodes bs).length ≤ (get_nodes_arrays bs).1.length ∧
    (((nodeRecords bs).map Prod.fst).Nodup →
      (get_nodes_arrays bs).1.length = (get_nodes bs).length ∧
      ∀ k : ℕ, k < (get_nodes_arrays bs).1.length →
        dlookup ((get_nodes_arrays bs).1.getD k 0) (get_nodes bs) =
          some ((get_nodes_arrays bs).2.getD k default)) := by
  have h2 := get_nodes_arrays_eq_recs bs
  have h3 := get_nodes_eq_fold bs
  refine ⟨by rw [h2]; simp, h2, h3, ?_, ?_⟩
  · rw [h2, h3]
    have h4 := dinsertFold_length_le (nodeRecords bs) []
    simpa using h4
  · intro hnd
    have hR : get_nodes bs = nodeRecords bs := by
      rw [h3, dinsertFold_nodup_eq (nodeRecords bs) [] (by simpa [dkeys] using hnd)]
      simp
    constructor
    · rw [h2, hR]
      simp
    · intro k hk
      rw [h2] at hk
      rw [h2, hR]
      simp only at hk
      exact dlookup_nodup_get (nodeRecords bs) (by simpa [dkeys] using hnd) k
        (by simpa using hk)

/-- Concrete 403 block used to instantiate C10: two records with distinct
    node ids. -/
def nodesWitnessInput : List FEMAPBlock :=
  [⟨403, [chars "1 0 0 0 0 0 0 0 0 0 0 1.5 2.5 3.5",
          chars "2 0 0 0 0 0 0 0 0 0 0 4.0 5.0 6.0"]⟩]

theorem C10_nodes_arrays_refinement_witness :
    ((nodeRecords nodesWitnessInput).map Prod.fst).Nodup ∧
    (get_nodes_arrays nodesWitnessInput).1.length = (get_nodes nodesWitnessInput).length :=
  ⟨by decide, ((C10_nodes_arrays_refinement nodesWitnessInput).2.2.2.2 (by decide)).1⟩

/-! ### Fuelled loop shadows

Each `...F` function below is the same loop as its namesake, except that it
counts loop iterations: one unit of fuel is spent per iteration of the
corresponding `while` loop in the source, and `none` reports fuel running
out.  Since every loop iteration advances the line index by at least one,
`length + 1` fuel always suffices; the adequacy theorems state exactly that,
which is the termination argument for the source's loops.  Being structurally
recursive in the fuel, these shadows also evaluate inside the kernel, which
the concrete witnesses below rely on. -/

def femapScanF : ℕ → List Line → Option (List FEMAPBlock)
  | 0, _ => none
  | _ + 1, [] => some []
  | fuel + 1, l :: rest =>
    if rstripNewline l = BLOCK_DELIMITER then
      match rest with
      | [] => some []
      | nl :: rest2 =>
        if pyStrip nl = chars "-1" then femapScanF fuel (nl :: rest2)
        else
          match pyInt? (pyStrip nl) with
          | some bid =>
            (femapScanF fuel (collectBlock rest2).2).map
              (fun tl => ⟨bid, (collectBlock rest2).1⟩ :: tl)
          | none => femapScanF fuel (nl :: rest2)
    else femapScanF fuel rest

theorem femapScanF_adequate : ∀ (fuel : ℕ) (ls : List Line), ls.length < fuel →
    femapScanF fuel ls = some (femapScan ls) := by
  intro fuel
  induction fuel with
  | zero => intro ls h; omega
  | succ fuel ih =>
    intro ls h
    match ls with
    | [] => simp [femapScanF, femapScan]
    | l :: rest =>
      have hr : rest.length < fuel := by simp at h; omega
      simp only [femapScanF]
      conv_rhs => unfold femapScan
      by_cases hc : rstripNewline l = BLOCK_DELIMITER
      · simp only [if_pos hc]
        match rest with
        | [] => rfl
        | nl :: rest2 =>
          by_cases hg : pyStrip nl = chars "-1"
          · simp only [if_pos hg]
            exact ih _ hr
          · simp only [if_neg hg]
            cases hi : pyInt? (pyStrip nl) with
            | some bid =>
              rw [ih ((collectBlock rest2).2)
                (by
                  have := collectBlock_rest_le rest2
                  simp only [List.length_cons] at hr
                  omega)]
              simp
            | none => exact ih _ hr
      · simp only [if_neg hc]
        exact ih rest hr

def propsLoopF : ℕ → List Line → PyDict PropEntry → Option (PyDict PropEntry)
  | 0, _, _ => none
  | _ + 1, [], d => some d
  | fuel + 1, l :: rest, d =>
    if (parse_csv_line l).length ≥ 3 then
      match parse402 l rest with
      | some r => propsLoopF fuel (rest.drop 6) (dinsert r.1 r.2 d)
      | none => propsLoopF fuel rest d
    else propsLoopF fuel rest d

theorem propsLoopF_adequate : ∀ (fuel : ℕ) (ls : List Line) (d : PyDict PropEntry),
    ls.length < fuel → propsLoopF fuel ls d = some (propsLoop ls d) := by
  intro fuel
  induction fuel with
  | zero => intro ls d h; omega
  | succ fuel ih =>
    intro ls d h
    match ls with
    | [] => simp [propsLoopF, propsLoop]
    | l :: rest =>
      have hr : rest.length < fuel := by simp at h; omega
      simp only [propsLoopF]
      conv_rhs => unfold propsLoop
      by_cases hc : (parse_csv_line l).length ≥ 3
      · simp only [if_pos hc]
        cases hp : parse402 l rest with
        | some r =>
          exact ih (rest.drop 6) _ (by simp only [List.length_drop]; omega)
        | none => exact ih rest d hr
      · simp only [if_neg hc]
        exact ih rest d hr

def elemsLoopF : ℕ → List Line → Option (List Elem)
  | 0, _ => none
  | _ + 1, [] => some []
  | fuel + 1, l :: rest =>
    if (parse_csv_line l).length ≥ 5 then
      match parse404 l rest with
      | some e => (elemsLoopF fuel (rest.drop 6)).map (fun tl => e :: tl)
      | none => elemsLoopF fuel rest
    else elemsLoopF fuel rest

theorem elemsLoopF_adequate : ∀ (fuel : ℕ) (ls : List Line),
    ls.length < fuel → elemsLoopF fuel ls = some (elemsLoop ls) := by
  intro fuel
  induction fuel with
  | zero => intro ls h; omega
  | succ fuel ih =>
    intro ls h
    match ls with
    | [] => simp [elemsLoopF, elemsLoop]
    | l :: rest =>
      have hr : rest.length < fuel := by simp at h; omega
      simp only [elemsLoopF]
      conv_rhs => unfold elemsLoop
      by_cases hc : (parse_csv_line l).length ≥ 5
      · simp only [if_pos hc]
        cases hp : parse404 l rest with
        | some e =>
          rw [ih (rest.drop 6) (by simp only [List.length_drop]; omega)]
          simp
        | none => exact ih rest hr
      · simp only [if_neg hc]
        exact ih rest hr

def setsLoopF : ℕ → List Line → PyDict OutSet → Option (PyDict OutSet)
  | 0, _, _ => none
  | _ + 1, [], d => some d
  | fuel + 1, l :: rest, d =>
    if (parse_csv_line l).length ≥ 1 then
      match parse450 l rest with
      | some r => setsLoopF fuel (rest.drop 5) (dinsert r.1 r.2 d)
      | none => setsLoopF fuel rest d
    else setsLoopF fuel rest d

theorem setsLoopF_adequate : ∀ (fuel : ℕ) (ls : List Line) (d : PyDict OutSet),
    ls.length < fuel → setsLoopF fuel ls d = some (setsLoop ls d) := by
  intro fuel
  induction fuel with
  | zero => intro ls d h; omega
  | succ fuel ih =>
    intro ls d h
    match ls with
    | [] => simp [setsLoopF, setsLoop]
    | l :: rest =>
      have hr : rest.length < fuel := by simp at h; omega
      simp only [setsLoopF]
      conv_rhs => unfold setsLoop
      by_cases hc : (parse_csv_line l).length ≥ 1
      · simp only [if_pos hc]
        cases hp : parse450 l rest with
        | some r =>
          exact ih (rest.drop 5) _ (by simp only [List.length_drop]; omega)
        | none => exact ih rest d hr
      · simp only [if_neg hc]
        exact ih rest d hr

theorem collectResults_cons_term {d : PyDict ℚ} {l : Line} {t : List Line}
    (h1 : isTermParts (parse_csv_line l) = true) :
    collectResults d (l :: t) = .ok (d, t) := by
  conv_lhs => unfold collectResults
  simp only [h1, if_true]

theorem collectResults_cons_fmt1 {d : PyDict ℚ} {l : Line} {t : List Line}
    {eid : ℤ} {v : ℚ}
    (h1 : isTermParts (parse_csv_line l) = false)
    (h2 : (parse_csv_line l).length = 2)
    (hi : pyInt? ((parse_csv_line l).getD 0 []) = some eid)
    (hf : pyFloat? ((parse_csv_line l).getD 1 []) = some v) :
    collectResults d (l :: t) = collectResults (dinsert eid v d) t := by
  conv_lhs => unfold collectResults
  simp only [h1, Bool.false_eq_true, if_false, if_pos h2, hi, hf]

theorem collectResults_cons_fmt1_err {d : PyDict ℚ} {l : Line} {t : List Line}
    (h1 : isTermParts (parse_csv_line l) = false)
    (h2 : (parse_csv_line l).length = 2)
    (he : pyInt? ((parse_csv_line l).getD 0 []) = none ∨
          pyFloat? ((parse_csv_line l).getD 1 []) = none) :
    collectResults d (l :: t) = .error (l :: t) := by
  conv_lhs => unfold collectResults
  simp only [h1, Bool.false_eq_true, if_false, if_pos h2]
  rcases he with he | he
  · simp only [he]
  · simp only [he]
    cases pyInt? ((parse_csv_line l).getD 0 []) <;> rfl

theorem collectResults_cons_fmt2_ok {d : PyDict ℚ} {l : Line} {t : List Line}
    {s e : ℤ} {vs : List ℚ} {r : List ℚ × List Line}
    (h1 : isTermParts (parse_csv_line l) = false)
    (h2 : ¬ (parse_csv_line l).length = 2)
    (h3 : (parse_csv_line l).length > 2)
    (hi1 : pyInt? ((parse_csv_line l).getD 0 []) = some s)
    (hi2 : pyInt? ((parse_csv_line l).getD 1 []) = some e)
    (hm : mapFloat? ((parse_csv_line l).drop 2) = some vs)
    (hcc : collectCont vs (e - s + 1) t = .ok r) :
    collectResults d (l :: t) =
      collectResults (runEntries s r.1 (e - s + 1) d) r.2 := by
  conv_lhs => unfold collectResults
  simp only [h1, Bool.false_eq_true, if_false, if_neg h2, if_pos h3, hi1, hi2, hm]
  split <;> rename_i heq2 <;> rw [hcc] at heq2 <;> cases heq2 <;> rfl

theorem collectResults_cons_fmt2_err {d : PyDict ℚ} {l : Line} {t : List Line}
    {s e : ℤ} {vs : List ℚ} {f : List Line}
    (h1 : isTermParts (parse_csv_line l) = false)
    (h2 : ¬ (parse_csv_line l).length = 2)
    (h3 : (parse_csv_line l).length > 2)
    (hi1 : pyInt? ((parse_csv_line l).getD 0 []) = some s)
    (hi2 : pyInt? ((parse_csv_line l).getD 1 []) = some e)
    (hm : mapFloat? ((parse_csv_line l).drop 2) = some vs)
    (hcc : collectCont vs (e - s + 1) t = .error f) :
    collectResults d (l :: t) = .error f := by
  conv_lhs => unfold collectResults
  simp only [h1, Bool.false_eq_true, if_false, if_neg h2, if_pos h3, hi1, hi2, hm]
  split <;> rename_i heq2 <;> rw [hcc] at heq2 <;> cases heq2 <;> rfl

theorem collectResults_cons_fmt2_parse_err {d : PyDict ℚ} {l : Line} {t : List Line}
    (h1 : isTermParts (parse_csv_line l) = false)
    (h2 : ¬ (parse_csv_line l).length = 2)
    (h3 : (parse_csv_line l).length > 2)
    (he : pyInt? ((parse_csv_line l).getD 0 []) = none ∨
          pyInt? ((parse_csv_line l).getD 1 []) = none ∨
          mapFloat? ((parse_csv_line l).drop 2) = none) :
    collectResults d (l :: t) = .error (l :: t) := by
  conv_lhs => unfold collectResults
  simp only [h1, Bool.false_eq_true, if_false, if_neg h2, if_pos h3]
  rcases he with he | he | he
  · simp only [he]
  · simp only [he]
    cases pyInt? ((parse_csv_line l).getD 0 []) <;> rfl
  · simp only [he]
    cases pyInt? ((parse_csv_line l).getD 0 []) <;>
      cases pyInt? ((parse_csv_line l).getD 1 []) <;> rfl

theorem collectResults_cons_short {d : PyDict ℚ} {l : Line} {t : List Line}
    (h1 : isTermParts (parse_csv_line l) = false)
    (h2 : ¬ (parse_csv_line l).length = 2)
    (h3 : ¬ (parse_csv_line l).length > 2) :
    collectResults d (l :: t) = collectResults d t := by
  conv_lhs => unfold collectResults
  simp only [h1, Bool.false_eq_true, if_false, if_neg h2, if_neg h3]

def collectResultsF : ℕ → PyDict ℚ → List Line →
    Option (Except (List Line) (PyDict ℚ × List Line))
  | 0, _, _ => none
  | _ + 1, d, [] => some (.ok (d, []))
  | fuel + 1, d, l :: t =>
    if isTermParts (parse_csv_line l) then some (.ok (d, t))
    else if (parse_csv_line l).length = 2 then
      match pyInt? ((parse_csv_line l).getD 0 []),
          pyFloat? ((parse_csv_line l).getD 1 []) with
      | some eid, some v => collectResultsF fuel (dinsert eid v d) t
      | _, _ => some (.error (l :: t))
    else if (parse_csv_line l).length > 2 then
      match pyInt? ((parse_csv_line l).getD 0 []),
          pyInt? ((parse_csv_line l).getD 1 []),
          mapFloat? ((parse_csv_line l).drop 2) with
      | some s, some e, some vs =>
        match collectCont vs (e - s + 1) t with
        | .ok r => collectResultsF fuel (runEntries s r.1 (e - s + 1) d) r.2
        | .error f => some (.error f)
      | _, _, _ => some (.error (l :: t))
    else collectResultsF fuel d t

theorem collectResultsF_adequate : ∀ (fuel : ℕ) (d : PyDict ℚ) (ls : List Line),
    ls.length < fuel → collectResultsF fuel d ls = some (collectResults d ls) := by
  intro fuel
  induction fuel with
  | zero => intro d ls h; omega
  | succ fuel ih =>
    intro d ls h
    match ls with
    | [] => simp [collectResultsF, collectResults]
    | l :: t =>
      have ht : t.length < fuel := by simp at h; omega
      simp only [collectResultsF]
      by_cases h1 : isTermParts (parse_csv_line l)
      · rw [collectResults_cons_term h1]
        simp only [if_pos h1]
      · have h1f : isTermParts (parse_csv_line l) = false := by
          simpa using h1
        simp only [h1f, Bool.false_eq_true, if_false]
        by_cases h2 : (parse_csv_line l).length = 2
        · simp only [if_pos h2]
          cases hi : pyInt? ((parse_csv_line l).getD 0 []) with
          | some eid =>
            cases hf : pyFloat? ((parse_csv_line l).getD 1 []) with
            | some v =>
              rw [collectResults_cons_fmt1 h1f h2 hi hf]
              exact ih _ t ht
            | none =>
              rw [collectResults_cons_fmt1_err h1f h2 (Or.inr hf)]
          | none =>
            rw [collectResults_cons_fmt1_err h1f h2 (Or.inl hi)]
        · simp only [if_neg h2]
          by_cases h3 : (parse_csv_line l).length > 2
          · simp only [if_pos h3]
            cases hi1 : pyInt? ((parse_csv_line l).getD 0 []) with
            | some s =>
              cases hi2 : pyInt? ((parse_csv_line l).getD 1 []) with
              | some e =>
                cases hm : mapFloat? ((parse_csv_line l).drop 2) with
                | some vs =>
                  show (match collectCont vs (e - s + 1) t with
                        | .ok r =>
                          collectResultsF fuel (runEntries s r.1 (e - s + 1) d) r.2
                        | .error f => some (.error f)) = _
                  cases hcc : collectCont vs (e - s + 1) t with
                  | ok r =>
                    rw [collectResults_cons_fmt2_ok h1f h2 h3 hi1 hi2 hm hcc]
                    exact ih _ r.2 (Nat.lt_of_le_of_lt (collectCont_ok_rest_le hcc) ht)
                  | error f =>
                    rw [collectResults_cons_fmt2_err h1f h2 h3 hi1 hi2 hm hcc]
                | none =>
                  rw [collectResults_cons_fmt2_parse_err h1f h2 h3 (Or.inr (Or.inr hm))]
              | none =>
                rw [collectResults_cons_fmt2_parse_err h1f h2 h3 (Or.inr (Or.inl hi2))]
            | none =>
              rw [collectResults_cons_fmt2_parse_err h1f h2 h3 (Or.inl hi1)]
          · simp only [if_neg h3]
            rw [collectResults_cons_short h1f h2 h3]
            exact ih d t ht

/-- `processVector` with the inner result loop fuelled by its own line count
    (which always suffices), making the whole record computation a bounded
    computation. -/
def processVectorF (ls : List Line) : Option (Except (List Line) (OutVec × List Line)) :=
  match ls with
  | [] => some (.error [])
  | l :: rest =>
    let parts := parse_csv_line l
    match pyInt? (parts.getD 0 []), pyInt? (parts.getD 1 []) with
    | some sid, some vid =>
      let title := match rest.head? with
                   | some tl => titleOf tl
                   | none => []
      match entTypeOf ls[5]? with
      | .error _ => some (.error ls)
      | .ok ety =>
        match collectResultsF (ls.drop 7).length.succ [] (ls.drop 7) with
        | some (.ok r) => some (.ok (⟨sid, vid, title, ety, r.1⟩, r.2))
        | some (.error f) => some (.error f)
        | none => none
    | _, _ => some (.error ls)

theorem processVectorF_adequate (ls : List Line) :
    processVectorF ls = some (processVector ls) := by
  match ls with
  | [] => rfl
  | l :: rest =>
    simp only [processVectorF, processVector]
    cases pyInt? ((parse_csv_line l).getD 0 []) with
    | some sid =>
      cases pyInt? ((parse_csv_line l).getD 1 []) with
      | some vid =>
        cases entTypeOf (l :: rest)[5]? with
        | error u => rfl
        | ok ety =>
          rw [collectResultsF_adequate ((l :: rest).drop 7).length.succ []
            ((l :: rest).drop 7) (Nat.lt_succ_self _)]
          cases collectResults [] ((l :: rest).drop 7) with
          | ok r => rfl
          | error f => rfl
      | none => rfl
    | none => cases pyInt? ((parse_csv_line l).getD 1 []) <;> rfl

def govLoopF : ℕ → List Line → Option (List OutVec)
  | 0, _ => none
  | _ + 1, [] => some []
  | fuel + 1, l :: rest =>
    if (parse_csv_line l).length ≥ 2 then
      match processVectorF (l :: rest) with
      | some (.ok r) => (govLoopF fuel r.2).map (fun tl => r.1 :: tl)
      | some (.error f) => govLoopF fuel (f.drop 1)
      | none => none
    else govLoopF fuel rest

theorem govLoopF_adequate : ∀ (fuel : ℕ) (ls : List Line),
    ls.length < fuel → govLoopF fuel ls = some (govLoop ls) := by
  intro fuel
  induction fuel with
  | zero => intro ls h; omega
  | succ fuel ih =>
    intro ls h
    match ls with
    | [] => simp [govLoopF, govLoop]
    | l :: rest =>
      have hr : rest.length < fuel := by simp at h; omega
      simp only [govLoopF, processVectorF_adequate]
      conv_rhs => unfold govLoop
      by_cases hc : (parse_csv_line l).length ≥ 2
      · simp only [if_pos hc]
        cases hp : processVector (l :: rest) with
        | ok r =>
          have hb : r.2.length < fuel := by
            have := processVector_ok_rest_lt (by simp) hp
            simp only [List.length_cons] at this
            omega
          show (govLoopF fuel r.2).map (fun tl => r.1 :: tl) = some (r.1 :: govLoop r.2)
          rw [ih r.2 hb]
          rfl
        | error f =>
          have hb : (f.drop 1).length < fuel := by
            have := processVector_error_rest_le hp
            simp only [List.length_cons, List.length_drop] at this ⊢
            omega
          show govLoopF fuel (f.drop 1) = some (govLoop (f.drop 1))
          exact ih (f.drop 1) hb
      · simp only [if_neg hc]
        exact ih rest hr


theorem collectResultsArr_cons_term {eids : List ℤ} {vals : List ℚ} {l : Line}
    {t : List Line} (h1 : isTermParts (parse_csv_line l) = true) :
    collectResultsArr eids vals (l :: t) = .ok ((eids, vals), t) := by
  conv_lhs => unfold collectResultsArr
  simp only [h1, if_true]

theorem collectResultsArr_cons_fmt1 {eids : List ℤ} {vals : List ℚ} {l : Line}
    {t : List Line} {eid : ℤ} {v : ℚ}
    (h1 : isTermParts (parse_csv_line l) = false)
    (h2 : (parse_csv_line l).length = 2)
    (hi : pyInt? ((parse_csv_line l).getD 0 []) = some eid)
    (hf : pyFloat? ((parse_csv_line l).getD 1 []) = some v) :
    collectResultsArr eids vals (l :: t) =
      collectResultsArr (eids ++ [eid]) (vals ++ [v]) t := by
  conv_lhs => unfold collectResultsArr
  simp only [h1, Bool.false_eq_true, if_false, if_pos h2, hi, hf]

theorem collectResultsArr_cons_fmt1_err {eids : List ℤ} {vals : List ℚ} {l : Line}
    {t : List Line}
    (h1 : isTermParts (parse_csv_line l) = false)
    (h2 : (parse_csv_line l).length = 2)
    (he : pyInt? ((parse_csv_line l).getD 0 []) = none ∨
          pyFloat? ((parse_csv_line l).getD 1 []) = none) :
    collectResultsArr eids vals (l :: t) = .error (l :: t) := by
  conv_lhs => unfold collectResultsArr
  simp only [h1, Bool.false_eq_true, if_false, if_pos h2]
  rcases he with he | he
  · simp only [he]
  · simp only [he]
    cases pyInt? ((parse_csv_line l).getD 0 []) <;> rfl

theorem collectResultsArr_cons_fmt2_ok {eids : List ℤ} {vals : List ℚ} {l : Line}
    {t : List Line} {s e : ℤ} {vs : List ℚ} {r : List ℚ × List Line}
    (h1 : isTermParts (parse_csv_line l) = false)
    (h2 : ¬ (parse_csv_line l).length = 2)
    (h3 : (parse_csv_line l).length > 2)
    (hi1 : pyInt? ((parse_csv_line l).getD 0 []) = some s)
    (hi2 : pyInt? ((parse_csv_line l).getD 1 []) = some e)
    (hm : mapFloat? ((parse_csv_line l).drop 2) = some vs)
    (hcc : collectCont vs (e - s + 1) t = .ok r) :
    collectResultsArr eids vals (l :: t) =
      collectResultsArr
        (eids ++ (List.range (min (r.1.length : ℤ) (e - s + 1)).toNat).map
          (fun (k : ℕ) => s + (k : ℤ)))
        (vals ++ r.1.take (min (r.1.length : ℤ) (e - s + 1)).toNat) r.2 := by
  conv_lhs => unfold collectResultsArr
  simp only [h1, Bool.false_eq_true, if_false, if_neg h2, if_pos h3, hi1, hi2, hm]
  split <;> rename_i heq2 <;> rw [hcc] at heq2 <;> cases heq2 <;> rfl

theorem collectResultsArr_cons_fmt2_err {eids : List ℤ} {vals : List ℚ} {l : Line}
    {t : List Line} {s e : ℤ} {vs : List ℚ} {f : List Line}
    (h1 : isTermParts (parse_csv_line l) = false)
    (h2 : ¬ (parse_csv_line l).length = 2)
    (h3 : (parse_csv_line l).length > 2)
    (hi1 : pyInt? ((parse_csv_line l).getD 0 []) = some s)
    (hi2 : pyInt? ((parse_csv_line l).getD 1 []) = some e)
    (hm : mapFloat? ((parse_csv_line l).drop 2) = some vs)
    (hcc : collectCont vs (e - s + 1) t = .error f) :
    collectResultsArr eids vals (l :: t) = .error f := by
  conv_lhs => unfold collectResultsArr
  simp only [h1, Bool.false_eq_true, if_false, if_neg h2, if_pos h3, hi1, hi2, hm]
  split <;> rename_i heq2 <;> rw [hcc] at heq2 <;> cases heq2 <;> rfl

theorem collectResultsArr_cons_fmt2_parse_err {eids : List ℤ} {vals : List ℚ}
    {l : Line} {t : List Line}
    (h1 : isTermParts (parse_csv_line l) = false)
    (h2 : ¬ (parse_csv_line l).length = 2)
    (h3 : (parse_csv_line l).length > 2)
    (he : pyInt? ((parse_csv_line l).getD 0 []) = none ∨
          pyInt? ((parse_csv_line l).getD 1 []) = none ∨
          mapFloat? ((parse_csv_line l).drop 2) = none) :
    collectResultsArr eids vals (l :: t) = .error (l :: t) := by
  conv_lhs => unfold collectResultsArr
  simp only [h1, Bool.false_eq_true, if_false, if_neg h2, if_pos h3]
  rcases he with he | he | he
  · simp only [he]
  · simp only [he]
    cases pyInt? ((parse_csv_line l).getD 0 []) <;> rfl
  · simp only [he]
    cases pyInt? ((parse_csv_line l).getD 0 []) <;>
      cases pyInt? ((parse_csv_line l).getD 1 []) <;> rfl

theorem collectResultsArr_cons_short {eids : List ℤ} {vals : List ℚ} {l : Line}
    {t : List Line}
    (h1 : isTermParts (parse_csv_line l) = false)
    (h2 : ¬ (parse_csv_line l).length = 2)
    (h3 : ¬ (parse_csv_line l).length > 2) :
    collectResultsArr eids vals (l :: t) = collectResultsArr eids vals t := by
  conv_lhs => unfold collectResultsArr
  simp only [h1, Bool.false_eq_true, if_false, if_neg h2, if_neg h3]

def collectResultsArrF : ℕ → List ℤ → List ℚ → List Line →
    Option (Except (List Line) ((List ℤ × List ℚ) × List Line))
  | 0, _, _, _ => none
  | _ + 1, eids, vals, [] => some (.ok ((eids, vals), []))
  | fuel + 1, eids, vals, l :: t =>
    if isTermParts (parse_csv_line l) then some (.ok ((eids, vals), t))
    else if (parse_csv_line l).length = 2 then
      match pyInt? ((parse_csv_line l).getD 0 []),
          pyFloat? ((parse_csv_line l).getD 1 []) with
      | some eid, some v => collectResultsArrF fuel (eids ++ [eid]) (vals ++ [v]) t
      | _, _ => some (.error (l :: t))
    else if (parse_csv_line l).length > 2 then
      match pyInt? ((parse_csv_line l).getD 0 []),
          pyInt? ((parse_csv_line l).getD 1 []),
          mapFloat? ((parse_csv_line l).drop 2) with
      | some s, some e, some vs =>
        match collectCont vs (e - s + 1) t with
        | .ok r =>
          collectResultsArrF fuel
            (eids ++ (List.range (min (r.1.length : ℤ) (e - s + 1)).toNat).map
              (fun (k : ℕ) => s + (k : ℤ)))
            (vals ++ r.1.take (min (r.1.length : ℤ) (e - s + 1)).toNat) r.2
        | .error f => some (.error f)
      | _, _, _ => some (.error (l :: t))
    else collectResultsArrF fuel eids vals t

theorem collectResultsArrF_adequate : ∀ (fuel : ℕ) (eids : List ℤ) (vals : List ℚ)
    (ls : List Line), ls.length < fuel →
    collectResultsArrF fuel eids vals ls = some (collectResultsArr eids vals ls) := by
  intro fuel
  induction fuel with
  | zero => intro eids vals ls h; omega
  | succ fuel ih =>
    intro eids vals ls h
    match ls with
    | [] => simp [collectResultsArrF, collectResultsArr]
    | l :: t =>
      have ht : t.length < fuel := by simp at h; omega
      simp only [collectResultsArrF]
      by_cases h1 : isTermParts (parse_csv_line l)
      · rw [collectResultsArr_cons_term h1]
        simp only [if_pos h1]
      · have h1f : isTermParts (parse_csv_line l) = false := by
          simpa using h1
        simp only [h1f, Bool.false_eq_true, if_false]
        by_cases h2 : (parse_csv_line l).length = 2
        · simp only [if_pos h2]
          cases hi : pyInt? ((parse_csv_line l).getD 0 []) with
          | some eid =>
            cases hf : pyFloat? ((parse_csv_line l).getD 1 []) with
            | some v =>
              rw [collectResultsArr_cons_fmt1 h1f h2 hi hf]
              exact ih _ _ t ht
            | none =>
              rw [collectResultsArr_cons_fmt1_err h1f h2 (Or.inr hf)]
          | none =>
            rw [collectResultsArr_cons_fmt1_err h1f h2 (Or.inl hi)]
        · simp only [if_neg h2]
          by_cases h3 : (parse_csv_line l).length > 2
          · simp only [if_pos h3]
            cases hi1 : pyInt? ((parse_csv_line l).getD 0 []) with
            | some s =>
              cases hi2 : pyInt? ((parse_csv_line l).getD 1 []) with
              | some e =>
                cases hm : mapFloat? ((parse_csv_line l).drop 2) with
                | some vs =>
                  show (match collectCont vs (e - s + 1) t with
                        | .ok r =>
                          collectResultsArrF fuel
                            (eids ++ (List.range
                              (min (r.1.length : ℤ) (e - s + 1)).toNat).map
                              (fun (k : ℕ) => s + (k : ℤ)))
                            (vals ++ r.1.take (min (r.1.length : ℤ) (e - s + 1)).toNat)
                            r.2
                        | .error f => some (.error f)) = _
                  cases hcc : collectCont vs (e - s + 1) t with
                  | ok r =>
                    rw [collectResultsArr_cons_fmt2_ok h1f h2 h3 hi1 hi2 hm hcc]
                    exact ih _ _ r.2
                      (Nat.lt_of_le_of_lt (collectCont_ok_rest_le hcc) ht)
                  | error f =>
                    rw [collectResultsArr_cons_fmt2_err h1f h2 h3 hi1 hi2 hm hcc]
                | none =>
                  rw [collectResultsArr_cons_fmt2_parse_err h1f h2 h3
                    (Or.inr (Or.inr hm))]
              | none =>
                rw [collectResultsArr_cons_fmt2_parse_err h1f h2 h3
                  (Or.inr (Or.inl hi2))]
            | none =>
              rw [collectResultsArr_cons_fmt2_parse_err h1f h2 h3 (Or.inl hi1)]
          · simp only [if_neg h3]
            rw [collectResultsArr_cons_short h1f h2 h3]
            exact ih eids vals t ht

def elemsArrLoopF : ℕ → List Line → ElemArrays → Option ElemArrays
  | 0, _, _ => none
  | _ + 1, [], a => some a
  | fuel + 1, l :: rest, a =>
    if (parse_csv_line l).length ≥ 5 then
      match stepElemArr a l rest with
      | .ok a2 => elemsArrLoopF fuel (rest.drop 6) a2
      | .error a2 => elemsArrLoopF fuel rest a2
    else elemsArrLoopF fuel rest a

theorem elemsArrLoopF_adequate : ∀ (fuel : ℕ) (ls : List Line) (a : ElemArrays),
    ls.length < fuel → elemsArrLoopF fuel ls a = some (elemsArrLoop ls a) := by
  intro fuel
  induction fuel with
  | zero => intro ls a h; omega
  | succ fuel ih =>
    intro ls a h
    match ls with
    | [] => simp [elemsArrLoopF, elemsArrLoop]
    | l :: rest =>
      have hr : rest.length < fuel := by simp at h; omega
      simp only [elemsArrLoopF]
      conv_rhs => unfold elemsArrLoop
      by_cases hc : (parse_csv_line l).length ≥ 5
      · simp only [if_pos hc]
        cases hp : stepElemArr a l rest with
        | ok a2 => exact ih (rest.drop 6) a2 (by simp only [List.length_drop]; omega)
        | error a2 => exact ih rest a2 hr
      · simp only [if_neg hc]
        exact ih rest a hr

def govALoopF : ℕ → ℤ → ℤ → List Line → Option (Option GovArrOut)
  | 0, _, _, _ => none
  | _ + 1, _, _, [] => some none
  | fuel + 1, sf, vf, l :: rest =>
    if (parse_csv_line l).length ≥ 2 then
      match pyInt? ((parse_csv_line l).getD 0 []),
          pyInt? ((parse_csv_line l).getD 1 []) with
      | some sid, some vid =>
        if 0 ≤ sf ∧ sid ≠ sf then
          govALoopF fuel sf vf (skipToTerm ((l :: rest).drop 7))
        else if 0 ≤ vf ∧ vid ≠ vf then
          govALoopF fuel sf vf (skipToTerm ((l :: rest).drop 7))
        else
          match entTypeOf (l :: rest)[5]? with
          | .error _ => govALoopF fuel sf vf rest
          | .ok ety =>
            match collectResultsArrF ((l :: rest).drop 7).length.succ [] []
                ((l :: rest).drop 7) with
            | some (.ok r) =>
              some (some ⟨some r.1.1, some r.1.2, sid, vid, ety.getD (-1)⟩)
            | some (.error f) => govALoopF fuel sf vf (f.drop 1)
            | none => none
      | _, _ => govALoopF fuel sf vf rest
    else govALoopF fuel sf vf rest

theorem govALoopF_adequate : ∀ (fuel : ℕ) (sf vf : ℤ) (ls : List Line),
    ls.length < fuel → govALoopF fuel sf vf ls = some (govALoop sf vf ls) := by
  intro fuel
  induction fuel with
  | zero => intro sf vf ls h; omega
  | succ fuel ih =>
    intro sf vf ls h
    match ls with
    | [] => simp [govALoopF, govALoop]
    | l :: rest =>
      have hr : rest.length < fuel := by simp at h; omega
      simp only [govALoopF]
      conv_rhs => unfold govALoop
      by_cases hc : (parse_csv_line l).length ≥ 2
      · simp only [if_pos hc]
        cases hi1 : pyInt? ((parse_csv_line l).getD 0 []) with
        | some sid =>
          cases hi2 : pyInt? ((parse_csv_line l).getD 1 []) with
          | some vid =>
            by_cases hsf : 0 ≤ sf ∧ sid ≠ sf
            · simp only [if_pos hsf]
              refine ih sf vf _ ?_
              have h1 := skipToTerm_le ((l :: rest).drop 7)
              simp only [List.length_drop, List.length_cons] at h1 ⊢
              omega
            · simp only [if_neg hsf]
              by_cases hvf : 0 ≤ vf ∧ vid ≠ vf
              · simp only [if_pos hvf]
                refine ih sf vf _ ?_
                have h1 := skipToTerm_le ((l :: rest).drop 7)
                simp only [List.length_drop, List.length_cons] at h1 ⊢
                omega
              · simp only [if_neg hvf]
                cases he : entTypeOf (l :: rest)[5]? with
                | error u => exact ih sf vf rest hr
                | ok ety =>
                  rw [collectResultsArrF_adequate ((l :: rest).drop 7).length.succ
                    [] [] ((l :: rest).drop 7) (Nat.lt_succ_self _)]
                  cases hcr : collectResultsArr [] [] ((l :: rest).drop 7) with
                  | ok r => rfl
                  | error f =>
                    show govALoopF fuel sf vf (f.drop 1) =
                      some (govALoop sf vf (f.drop 1))
                    refine ih sf vf _ ?_
                    have h1 := collectResultsArr_error_rest_le hcr
                    simp only [List.length_drop, List.length_cons] at h1 ⊢
                    omega
          | none => exact ih sf vf rest hr
        | none => exact ih sf vf rest hr
      · simp only [if_neg hc]
        exact ih sf vf rest hr

/-! ### Base-case equations and concrete-evaluation helpers -/

theorem propsLoop_nil (d : PyDict PropEntry) : propsLoop [] d = d := by
  unfold propsLoop
  rfl

theorem setsLoop_nil (d : PyDict OutSet) : setsLoop [] d = d := by
  unfold setsLoop
  rfl

theorem govLoop_nil : govLoop [] = [] := by
  unfold govLoop
  rfl

theorem collectResults_nil (d : PyDict ℚ) : collectResults d [] = .ok (d, []) := by
  unfold collectResults
  rfl

theorem femapScan_eval {ls : List Line} {X : List FEMAPBlock}
    (h : femapScanF (ls.length + 1) ls = some X) : femapScan ls = X := by
  have h2 := femapScanF_adequate (ls.length + 1) ls (Nat.lt_succ_self _)
  rw [h] at h2
  exact (Option.some.inj h2).symm

theorem govLoop_eval {ls : List Line} {X : List OutVec}
    (h : govLoopF (ls.length + 1) ls = some X) : govLoop ls = X := by
  have h2 := govLoopF_adequate (ls.length + 1) ls (Nat.lt_succ_self _)
  rw [h] at h2
  exact (Option.some.inj h2).symm

theorem elemsLoop_eval {ls : List Line} {X : List Elem}
    (h : elemsLoopF (ls.length + 1) ls = some X) : elemsLoop ls = X := by
  have h2 := elemsLoopF_adequate (ls.length + 1) ls (Nat.lt_succ_self _)
  rw [h] at h2
  exact (Option.some.inj h2).symm

/-! ### Claim C7: the stray-delimiter guard -/

/-- C7 counterexample: after the boundary at line 0, the next line is itself
    a full boundary line `"   -1"` (leading spaces included).  The claim says
    the guard does not fire there and the line is instead a block-ID
    candidate, which would open a block with id `-1` holding `["42", "x"]`;
    but the scanner strips the line before comparing, the guard does fire,
    scanning resumes at that line, and the parse instead yields exactly one
    block 42 with line `"x"`. -/
theorem C7_counterexample :
    femapScan [chars "   -1", chars "   -1", chars "42", chars "x", chars "   -1"] =
      [⟨42, [chars "x"]⟩] ∧
    femapScan [chars "   -1", chars "   -1", chars "42", chars "x", chars "   -1"] ≠
      [⟨-1, [chars "42", chars "x"]⟩] := by
  have he : femapScan
      [chars "   -1", chars "   -1", chars "42", chars "x", chars "   -1"] =
      [⟨42, [chars "x"]⟩] := femapScan_eval (by decide)
  exact ⟨he, by rw [he]; decide⟩

/-- C7 (amended): the stray-delimiter guard fires exactly when the line after
    a boundary **strips** to `-1` — surrounding whitespace included, so a
    second full boundary line `"   -1"` does trigger it — and scanning then
    resumes at that line; when the stripped line is anything else it is
    parsed as a block-ID candidate (opening a block on success, resuming at
    that line on failure). -/
theorem C7_guard_characterization (nl : Line) (rest : List Line) :
    (pyStrip nl = chars "-1" →
      femapScan (chars "   -1" :: nl :: rest) = femapScan (nl :: rest)) ∧
    (pyStrip nl ≠ chars "-1" →
      femapScan (chars "   -1" :: nl :: rest) =
        match pyInt? (pyStrip nl) with
        | some bid =>
          ⟨bid, (collectBlock rest).1⟩ :: femapScan (collectBlock rest).2
        | none => femapScan (nl :: rest)) := by
  have hd : rstripNewline (chars "   -1") = BLOCK_DELIMITER := by decide
  constructor
  · intro hg
    conv_lhs => unfold femapScan
    rw [if_pos hd]
    show (if pyStrip nl = chars "-1" then femapScan (nl :: rest)
          else
            match pyInt? (pyStrip nl) with
            | some bid =>
              ⟨bid, (collectBlock rest).1⟩ :: femapScan (collectBlock rest).2
            | none => femapScan (nl :: rest)) = femapScan (nl :: rest)
    rw [if_pos hg]
  · intro hg
    conv_lhs => unfold femapScan
    rw [if_pos hd]
    show (if pyStrip nl = chars "-1" then femapScan (nl :: rest)
          else
            match pyInt? (pyStrip nl) with
            | some bid =>
              ⟨bid, (collectBlock rest).1⟩ :: femapScan (collectBlock rest).2
            | none => femapScan (nl :: rest)) = _
    rw [if_neg hg]

theorem C7_guard_characterization_witness :
    (pyStrip (chars "   -1") = chars "-1" ∧
      femapScan [chars "   -1", chars "   -1"] = femapScan [chars "   -1"]) ∧
    (pyStrip (chars "7") ≠ chars "-1" ∧
      femapScan [chars "   -1", chars "7", chars "x", chars "   -1"] =
        ⟨7, (collectBlock [chars "x", chars "   -1"]).1⟩ ::
          femapScan (collectBlock [chars "x", chars "   -1"]).2) := by
  refine ⟨⟨by decide, (C7_guard_characterization (chars "   -1") []).1 (by decide)⟩,
    ⟨by decide, ?_⟩⟩
  have h := (C7_guard_characterization (chars "7") [chars "x", chars "   -1"]).2
    (by decide)
  rw [h, show pyInt? (pyStrip (chars "7")) = some 7 from by decide]

/-! ### Claim C8: `<NULL>` normalization in title slots -/

/-- C8 counterexample: the block-100 title line `"<NULL>,"` trims (whitespace
    and trailing comma) to exactly `<NULL>`, so the claim requires the
    extracted header title to be empty; `get_header` strips only whitespace,
    keeps `"<NULL>,"` verbatim, and does not normalize it. -/
theorem C8_counterexample :
    rstripComma (pyStrip (chars "<NULL>,")) = chars "<NULL>" ∧
    get_header [⟨100, [chars "<NULL>,", chars "4.1"]⟩] =
      some ⟨chars "<NULL>,", chars "4.1"⟩ ∧
    chars "<NULL>," ≠ ([] : Line) :=
  ⟨by decide, by decide, by decide⟩

/-- C8 (amended): in properties (402), output sets (450) and output vectors
    (1051) the title slot is stripped of surrounding whitespace, then of all
    trailing commas, and an exact `<NULL>` remainder becomes the empty
    string, anything else being kept unchanged; the header (100) title is
    only whitespace-stripped (no comma trimming) before the same `<NULL>`
    check. -/
theorem C8_title_normalization :
    (∀ (t v : Line) (extra : List Line),
      get_header [⟨100, t :: v :: extra⟩] =
        some ⟨if pyStrip t = chars "<NULL>" then [] else pyStrip t, pyStrip v⟩) ∧
    (∀ (l t : Line) (pid mid : ℤ),
      (parse_csv_line l).length ≥ 3 →
      pyInt? ((parse_csv_line l).getD 0 []) = some pid →
      pyInt? ((parse_csv_line l).getD 2 []) = some mid →
      dlookup pid (get_properties [⟨402, [l, t]⟩]) =
        some ⟨mid, if rstripComma (pyStrip t) = chars "<NULL>" then []
                   else rstripComma (pyStrip t)⟩) ∧
    (∀ (l t : Line) (sid : ℤ),
      (parse_csv_line l).length ≥ 1 →
      pyInt? ((parse_csv_line l).getD 0 []) = some sid →
      dlookup sid (get_output_sets [⟨450, [l, t]⟩]) =
        some ⟨if rstripComma (pyStrip t) = chars "<NULL>" then []
              else rstripComma (pyStrip t), 0⟩) ∧
    (∀ (l t : Line) (sid vid : ℤ),
      (parse_csv_line l).length ≥ 2 →
      pyInt? ((parse_csv_line l).getD 0 []) = some sid →
      pyInt? ((parse_csv_line l).getD 1 []) = some vid →
      get_output_vectors [⟨1051, [l, t]⟩] =
        [⟨sid, vid, (if rstripComma (pyStrip t) = chars "<NULL>" then []
                     else rstripComma (pyStrip t)), none, []⟩]) := by
  refine ⟨?_, ?_, ?_, ?_⟩
  · intro t v extra
    have hb : get_blocks [(⟨100, t :: v :: extra⟩ : FEMAPBlock)] 100 =
        [⟨100, t :: v :: extra⟩] := rfl
    simp only [get_header, hb]
  · intro l t pid mid hlen hi1 hi2
    have hb : get_blocks [(⟨402, [l, t]⟩ : FEMAPBlock)] 402 =
        [⟨402, [l, t]⟩] := rfl
    simp only [get_properties, hb, List.foldl_cons, List.foldl_nil]
    conv_lhs => rw [show propsLoop [l, t] [] =
      (if (parse_csv_line l).length ≥ 3 then
        match parse402 l [t] with
        | some r => propsLoop ([t].drop 6) (dinsert r.1 r.2 [])
        | none => propsLoop [t] []
      else propsLoop [t] []) from by conv_lhs => unfold propsLoop]
    rw [if_pos hlen]
    simp only [parse402, hi1, hi2, List.head?_cons]
    simp only [List.drop_succ_cons, List.drop_nil, propsLoop_nil]
    simp [dinsert, dlookup, titleOf]
  · intro l t sid hlen hi
    have hb : get_blocks [(⟨450, [l, t]⟩ : FEMAPBlock)] 450 =
        [⟨450, [l, t]⟩] := rfl
    simp only [get_output_sets, hb, List.foldl_cons, List.foldl_nil]
    conv_lhs => rw [show setsLoop [l, t] [] =
      (if (parse_csv_line l).length ≥ 1 then
        match parse450 l [t] with
        | some r => setsLoop ([t].drop 5) (dinsert r.1 r.2 [])
        | none => setsLoop [t] []
      else setsLoop [t] []) from by conv_lhs => unfold setsLoop]
    rw [if_pos hlen]
    simp only [parse450, hi, List.head?_cons, List.getElem?_cons_succ,
      List.getElem?_nil]
    simp only [List.drop_succ_cons, List.drop_nil, setsLoop_nil]
    simp [dinsert, dlookup, titleOf]
  · intro l t sid vid hlen hi1 hi2
    have hb : get_blocks [(⟨1051, [l, t]⟩ : FEMAPBlock)] 1051 =
        [⟨1051, [l, t]⟩] := rfl
    simp only [get_output_vectors, hb, List.foldl_cons, List.foldl_nil,
      List.nil_append]
    have hpv : processVector [l, t] =
        .ok (⟨sid, vid, titleOf t, none, []⟩, []) := by
      simp only [processVector, hi1, hi2, List.head?_cons,
        List.getElem?_cons_succ, List.getElem?_nil, List.drop_succ_cons,
        List.drop_nil]
      rw [collectResults_nil]
      rfl
    conv_lhs => rw [show govLoop [l, t] =
      (if (parse_csv_line l).length ≥ 2 then
        match h : processVector [l, t] with
        | .ok r => r.1 :: govLoop r.2
        | .error f => govLoop (f.drop 1)
      else govLoop [t]) from by conv_lhs => unfold govLoop]
    rw [if_pos hlen]
    split <;> rename_i heq <;> rw [hpv] at heq <;> cases heq <;>
      simp [govLoop_nil, titleOf]

theorem C8_title_normalization_witness :
    get_header [⟨100, [chars " <NULL> ", chars "4.1"]⟩] =
      some ⟨[], chars "4.1"⟩ ∧
    dlookup 7 (get_properties [⟨402, [chars "7 0 3", chars " Steel,"]⟩]) =
      some ⟨3, chars "Steel"⟩ ∧
    dlookup 2 (get_output_sets [⟨450, [chars "2", chars "<NULL>,"]⟩]) =
      some ⟨[], 0⟩ ∧
    get_output_vectors [⟨1051, [chars "1 4 1", chars "<NULL>"]⟩] =
      [⟨1, 4, [], none, []⟩] := by
  refine ⟨?_, ?_, ?_, ?_⟩
  · rw [C8_title_normalization.1 (chars " <NULL> ") (chars "4.1") []]
    decide
  · rw [C8_title_normalization.2.1 (chars "7 0 3") (chars " Steel,") 7 3
      (by decide) (by decide) (by decide)]
    decide
  · rw [C8_title_normalization.2.2.1 (chars "2") (chars "<NULL>,") 2
      (by decide) (by decide)]
    decide
  · rw [C8_title_normalization.2.2.2 (chars "1 4 1") (chars "<NULL>") 1 4
      (by decide) (by decide) (by decide)]
    decide

/-! ### Claim C1: Format-2 run expansion -/

/-- Well-formed continuation lines for a Format-2 run: each consumed line is
    read while fewer than `count` values are gathered, is not a terminator,
    and converts entirely to floats; `out` is the final gathered value list. -/
inductive ContOK : List ℚ → ℤ → List Line → List ℚ → Prop where
  | done (vs : List ℚ) (count : ℤ) : ContOK vs count [] vs
  | step (c : Line) (C : List Line) (vs ws : List ℚ) (count : ℤ) (out : List ℚ) :
      (vs.length : ℤ) < count →
      isTermParts (parse_csv_line c) = false →
      mapFloat? (parse_csv_line c) = some ws →
      ContOK (vs ++ ws) count C out →
      ContOK vs count (c :: C) out

/-- The continuation loop consumes exactly the `ContOK` lines and leaves the
    rest untouched, provided it stops: either enough values were gathered or
    the next line is a terminator. -/
theorem contOK_collectCont {vs : List ℚ} {count : ℤ} {C : List Line}
    {out : List ℚ} (h : ContOK vs count C out) :
    ∀ rest : List Line,
      (count ≤ (out.length : ℤ) ∨
        (∃ l2 t2, rest = l2 :: t2 ∧ isTermParts (parse_csv_line l2) = true)) →
      collectCont vs count (C ++ rest) = .ok (out, rest) := by
  induction h with
  | done vs count =>
    intro rest hstop
    match rest with
    | [] => simp [collectCont]
    | l2 :: t2 =>
      simp only [List.nil_append, collectCont]
      rcases hstop with hc | ⟨l3, t3, heq, hterm⟩
      · rw [if_neg (by omega)]
      · cases heq
        by_cases hlt : ((vs.length : ℤ) < count)
        · rw [if_pos hlt]
          simp only [hterm, if_true]
        · rw [if_neg hlt]
  | step c C vs ws count out hlt hterm hmf hC ih =>
    intro rest hstop
    simp only [List.cons_append, collectCont]
    rw [if_pos hlt]
    simp only [hterm, Bool.false_eq_true, if_false, hmf]
    exact ih rest hstop

/-- A Format-2 run record followed by its continuation lines expands, in one
    sweep of the result loop, into the `runEntries` assignments over the
    gathered values. -/
theorem collectResults_run_record {d : PyDict ℚ} {l : Line} {C rest : List Line}
    {s e : ℤ} {vs out : List ℚ}
    (hterm : isTermParts (parse_csv_line l) = false)
    (hlen : (parse_csv_line l).length > 2)
    (hi1 : pyInt? ((parse_csv_line l).getD 0 []) = some s)
    (hi2 : pyInt? ((parse_csv_line l).getD 1 []) = some e)
    (hm : mapFloat? ((parse_csv_line l).drop 2) = some vs)
    (hC : ContOK vs (e - s + 1) C out)
    (hstop : (e - s + 1) ≤ (out.length : ℤ) ∨
      (∃ l2 t2, rest = l2 :: t2 ∧ isTermParts (parse_csv_line l2) = true)) :
    collectResults d (l :: (C ++ rest)) =
      collectResults (runEntries s out (e - s + 1) d) rest := by
  have hcc := contOK_collectCont hC rest hstop
  have h2 : ¬ (parse_csv_line l).length = 2 := by omega
  exact collectResults_cons_fmt2_ok hterm h2 hlen hi1 hi2 hm hcc

theorem dlookup_append {V : Type} (j : ℤ) (d1 d2 : PyDict V) :
    dlookup j (d1 ++ d2) = match dlookup j d1 with
                           | some v => some v
                           | none => dlookup j d2 := by
  induction d1 with
  | nil => simp [dlookup]
  | cons p t ih =>
    simp only [List.cons_append, dlookup]
    by_cases hp : j = p.1
    · simp [hp]
    · simp only [if_neg hp]
      exact ih

theorem dlookup_range_map {V : Type} (s : ℤ) (f : ℕ → V) :
    ∀ (m : ℕ) (j : ℤ),
      dlookup j ((List.range m).map (fun (k : ℕ) => (s + (k : ℤ), f k))) =
        if 0 ≤ j - s ∧ j - s < (m : ℤ) then some (f (j - s).toNat) else none := by
  intro m
  induction m with
  | zero =>
    intro j
    rw [if_neg (by omega)]
    simp [dlookup]
  | succ m ih =>
    intro j
    rw [List.range_succ, List.map_append, dlookup_append, ih j]
    by_cases hj : 0 ≤ j - s ∧ j - s < (m : ℤ)
    · rw [if_pos hj, if_pos (by omega)]
    · rw [if_neg hj]
      by_cases hj2 : j = s + (m : ℤ)
      · simp only [List.map_cons, List.map_nil, dlookup]
        rw [if_pos hj2, if_pos (by omega)]
        have hk : (j - s).toNat = m := by omega
        rw [hk]
      · simp only [List.map_cons, List.map_nil, dlookup]
        rw [if_neg hj2, if_neg (by omega)]

theorem runEntries_eq_fold (s : ℤ) (values : List ℚ) (count : ℤ) (d : PyDict ℚ) :
    runEntries s values count d =
      dinsertFold ((List.range (min (values.length : ℤ) count).toNat).map
        (fun (k : ℕ) => (s + (k : ℤ), values.getD k 0))) d := by
  simp [runEntries, dinsertFold, List.foldl_map]

theorem runEntries_nil_lookup (s : ℤ) (values : List ℚ) (count : ℤ) (j : ℤ) :
    dlookup j (runEntries s values count []) =
      if 0 ≤ j - s ∧ j - s < min (values.length : ℤ) count
      then some (values.getD (j - s).toNat 0) else none := by
  rw [runEntries_eq_fold]
  rw [dinsertFold_nodup_eq _ _ (by
    simp only [List.nil_append, dkeys, List.map_map]
    have he : (Prod.fst ∘ fun k : ℕ => (s + (k : ℤ), values.getD k 0)) =
        (fun k : ℕ => s + (k : ℤ)) := rfl
    rw [he]
    exact List.Nodup.map (fun a b hab => by omega) (List.nodup_range _))]
  simp only [List.nil_append]
  rw [dlookup_range_map s (fun k => values.getD k 0)
    ((min (values.length : ℤ) count).toNat) j]
  have hco : ((min (values.length : ℤ) count).toNat : ℤ) =
      max (min (values.length : ℤ) count) 0 := Int.toNat_eq_max _
  by_cases hj : 0 ≤ j - s ∧ j - s < min (values.length : ℤ) count
  · rw [if_pos (by omega), if_pos hj]
  · rw [if_neg (by omega), if_neg hj]

/-- C1: in a 1051 block holding one vector whose result stream is a Format-2
    run record (more than 2 fields, not a terminator) with start `s`, end `e`
    and initial values, extended by continuation lines read while fewer than
    `e - s + 1` values are gathered and no terminator is seen, then the
    terminator: `get_output_vectors` returns that one vector whose results
    are exactly the run-expansion entries `s + k ↦ out[k]` for
    `k < min(gathered, e - s + 1)` — present with the right value in that
    range, absent outside it. -/
theorem C1_run_expansion
    (h0 t f2 f3 f4 h5 f6 runl term : Line) (C : List Line)
    (sid vid s e : ℤ) (vs out : List ℚ) (ety : Option ℤ)
    (hh0 : (parse_csv_line h0).length ≥ 2)
    (hsid : pyInt? ((parse_csv_line h0).getD 0 []) = some sid)
    (hvid : pyInt? ((parse_csv_line h0).getD 1 []) = some vid)
    (hety : entTypeOf (some h5) = .ok ety)
    (hterm : isTermParts (parse_csv_line term) = true)
    (hrt : isTermParts (parse_csv_line runl) = false)
    (hrl : (parse_csv_line runl).length > 2)
    (hi1 : pyInt? ((parse_csv_line runl).getD 0 []) = some s)
    (hi2 : pyInt? ((parse_csv_line runl).getD 1 []) = some e)
    (hm : mapFloat? ((parse_csv_line runl).drop 2) = some vs)
    (hC : ContOK vs (e - s + 1) C out) :
    get_output_vectors
        [⟨1051, h0 :: t :: f2 :: f3 :: f4 :: h5 :: f6 :: runl :: (C ++ [term])⟩] =
      [⟨sid, vid, titleOf t, ety, runEntries s out (e - s + 1) []⟩] ∧
    (∀ k : ℕ, (k : ℤ) < min (out.length : ℤ) (e - s + 1) →
      dlookup (s + (k : ℤ)) (runEntries s out (e - s + 1) []) =
        some (out.getD k 0)) ∧
    (∀ j : ℤ, ¬ (0 ≤ j - s ∧ j - s < min (out.length : ℤ) (e - s + 1)) →
      dlookup j (runEntries s out (e - s + 1) []) = none) := by
  refine ⟨?_, ?_, ?_⟩
  · have hb : get_blocks [(⟨1051,
        h0 :: t :: f2 :: f3 :: f4 :: h5 :: f6 :: runl :: (C ++ [term])⟩ :
        FEMAPBlock)] 1051 =
        [⟨1051, h0 :: t :: f2 :: f3 :: f4 :: h5 :: f6 :: runl :: (C ++ [term])⟩] :=
      rfl
    simp only [get_output_vectors, hb, List.foldl_cons, List.foldl_nil,
      List.nil_append]
    have hpv : processVector
        (h0 :: t :: f2 :: f3 :: f4 :: h5 :: f6 :: runl :: (C ++ [term])) =
        .ok (⟨sid, vid, titleOf t, ety, runEntries s out (e - s + 1) []⟩, []) := by
      simp only [processVector, hsid, hvid, List.head?_cons,
        List.getElem?_cons_succ, List.getElem?_cons_zero, hety,
        List.drop_succ_cons, List.drop_zero]
      rw [collectResults_run_record hrt hrl hi1 hi2 hm hC
        (Or.inr ⟨term, [], rfl, hterm⟩)]
      rw [collectResults_cons_term hterm]
    conv_lhs => rw [show govLoop
        (h0 :: t :: f2 :: f3 :: f4 :: h5 :: f6 :: runl :: (C ++ [term])) =
      (if (parse_csv_line h0).length ≥ 2 then
        match h : processVector
            (h0 :: t :: f2 :: f3 :: f4 :: h5 :: f6 :: runl :: (C ++ [term])) with
        | .ok r => r.1 :: govLoop r.2
        | .error f => govLoop (f.drop 1)
      else govLoop (t :: f2 :: f3 :: f4 :: h5 :: f6 :: runl :: (C ++ [term])))
      from by conv_lhs => unfold govLoop]
    rw [if_pos hh0]
    split <;> rename_i heq <;> rw [hpv] at heq <;> cases heq <;>
      simp [govLoop_nil]
  · intro k hk
    rw [runEntries_nil_lookup]
    rw [if_pos (by omega)]
    have hx : ((s + (k : ℤ)) - s).toNat = k := by omega
    rw [hx]
  · intro j hj
    rw [runEntries_nil_lookup, if_neg hj]

/-- Concrete instance of C1: run `start=5, end=8`, values
    `[1.0, 2.0, 3.0, 4.0]`, then the terminator, yields exactly
    `{5↦1.0, 6↦2.0, 7↦3.0, 8↦4.0}`. -/
theorem C1_run_expansion_witness :
    get_output_vectors [⟨1051, [chars "1 2 1", chars "T", chars "0. 0. 0.",
        chars "0", chars "0", chars "0 0 0 7", chars "0",
        chars "5 8 1.0 2.0 3.0 4.0", chars "-1 0."]⟩] =
      [⟨1, 2, chars "T", some 7, [(5, 1), (6, 2), (7, 3), (8, 4)]⟩] := by
  have h := C1_run_expansion (chars "1 2 1") (chars "T") (chars "0. 0. 0.")
    (chars "0") (chars "0") (chars "0 0 0 7") (chars "0")
    (chars "5 8 1.0 2.0 3.0 4.0") (chars "-1 0.") [] 1 2 5 8
    [1, 2, 3, 4] [1, 2, 3, 4] (some 7)
    (by decide) (by decide) (by decide) (by decide) (by decide) (by decide)
    (by decide) (by decide) (by decide) (by decide) (ContOK.done [1, 2, 3, 4] _)
  have h1 := h.1
  simp only [List.nil_append] at h1
  rw [h1]
  decide


/-! ### Claim C3: error recovery in the result stream -/

/-- A well-formed Format-1 result line: two fields, not a terminator, both
    conversions succeed. -/
def Fmt1OK (g : Line) : Prop :=
  isTermParts (parse_csv_line g) = false ∧ (parse_csv_line g).length = 2 ∧
  (pyInt? ((parse_csv_line g).getD 0 [])).isSome ∧
  (pyFloat? ((parse_csv_line g).getD 1 [])).isSome

instance (g : Line) : Decidable (Fmt1OK g) := by
  unfold Fmt1OK
  infer_instance

theorem collectResults_fmt1_prefix_error :
    ∀ (good : List Line), (∀ g ∈ good, Fmt1OK g) →
    ∀ (bad : Line) (rest : List Line),
      (parse_csv_line bad).length = 2 →
      isTermParts (parse_csv_line bad) = false →
      (pyInt? ((parse_csv_line bad).getD 0 []) = none ∨
        pyFloat? ((parse_csv_line bad).getD 1 []) = none) →
    ∀ d : PyDict ℚ,
      collectResults d (good ++ bad :: rest) = .error (bad :: rest) := by
  intro good
  induction good with
  | nil =>
    intro _ bad rest hb2 hbt hbe d
    exact collectResults_cons_fmt1_err hbt hb2 hbe
  | cons g gs ih =>
    intro hg bad rest hb2 hbt hbe d
    obtain ⟨h1, h2, h3, h4⟩ := hg g (by simp)
    obtain ⟨eid, hi⟩ := Option.isSome_iff_exists.mp h3
    obtain ⟨v, hf⟩ := Option.isSome_iff_exists.mp h4
    rw [List.cons_append, collectResults_cons_fmt1 h1 h2 hi hf]
    exact ih (fun g2 hg2 => hg g2 (by simp [hg2])) bad rest hb2 hbt hbe _

/-- C3 counterexample: a vector with one good result line `"1 2.5"`, then a
    malformed line `"x 3.5"`, then another good line and the terminator.  The
    claim says only the malformed line is lost; in fact the raised
    `ValueError` aborts the whole record before it is appended, the resumed
    scan misparses the remaining lines as vector headers, and the extractor
    returns no vector at all. -/
theorem C3_counterexample :
    get_output_vectors [⟨1051, [chars "1 2 1", chars "T", chars "0. 0. 0.",
        chars "0", chars "0", chars "0 0 0 7", chars "0",
        chars "1 2.5", chars "x 3.5", chars "2 4.5", chars "-1 0."]⟩] = [] := by
  have hg : govLoop [chars "1 2 1", chars "T", chars "0. 0. 0.",
      chars "0", chars "0", chars "0 0 0 7", chars "0",
      chars "1 2.5", chars "x 3.5", chars "2 4.5", chars "-1 0."] = [] :=
    govLoop_eval (by decide)
  have hb : get_blocks [(⟨1051, [chars "1 2 1", chars "T", chars "0. 0. 0.",
      chars "0", chars "0", chars "0 0 0 7", chars "0",
      chars "1 2.5", chars "x 3.5", chars "2 4.5", chars "-1 0."]⟩ :
      FEMAPBlock)] 1051 = [⟨1051, [chars "1 2 1", chars "T", chars "0. 0. 0.",
      chars "0", chars "0", chars "0 0 0 7", chars "0",
      chars "1 2.5", chars "x 3.5", chars "2 4.5", chars "-1 0."]⟩] := rfl
  simp only [get_output_vectors, hb, List.foldl_cons, List.foldl_nil,
    List.nil_append, hg]

/-- C3 (amended): a conversion failure skips exactly one line from the point
    of failure and scanning resumes at the next line; but in the block-1051
    extractor a malformed line inside a vector's result stream aborts the
    whole vector record: the header and every result collected so far are
    discarded (the vector is never appended) and the outer scan resumes at
    the line after the failing one, reinterpreting the remaining lines as
    potential new vector headers. -/
theorem C3_malformed_result_line
    (h0 t f2 f3 f4 h5 f6 bad : Line) (good rest : List Line)
    (sid vid : ℤ) (ety : Option ℤ)
    (hh0 : (parse_csv_line h0).length ≥ 2)
    (hsid : pyInt? ((parse_csv_line h0).getD 0 []) = some sid)
    (hvid : pyInt? ((parse_csv_line h0).getD 1 []) = some vid)
    (hety : entTypeOf (some h5) = .ok ety)
    (hgood : ∀ g ∈ good, Fmt1OK g)
    (hb2 : (parse_csv_line bad).length = 2)
    (hbt : isTermParts (parse_csv_line bad) = false)
    (hbe : pyInt? ((parse_csv_line bad).getD 0 []) = none ∨
           pyFloat? ((parse_csv_line bad).getD 1 []) = none) :
    get_output_vectors
        [⟨1051, h0 :: t :: f2 :: f3 :: f4 :: h5 :: f6 :: (good ++ bad :: rest)⟩] =
      govLoop rest := by
  have hb : get_blocks [(⟨1051,
      h0 :: t :: f2 :: f3 :: f4 :: h5 :: f6 :: (good ++ bad :: rest)⟩ :
      FEMAPBlock)] 1051 =
      [⟨1051, h0 :: t :: f2 :: f3 :: f4 :: h5 :: f6 :: (good ++ bad :: rest)⟩] :=
    rfl
  simp only [get_output_vectors, hb, List.foldl_cons, List.foldl_nil,
    List.nil_append]
  have hpv : processVector
      (h0 :: t :: f2 :: f3 :: f4 :: h5 :: f6 :: (good ++ bad :: rest)) =
      .error (bad :: rest) := by
    simp only [processVector, hsid, hvid, List.head?_cons,
      List.getElem?_cons_succ, List.getElem?_cons_zero, hety,
      List.drop_succ_cons, List.drop_zero]
    rw [collectResults_fmt1_prefix_error good hgood bad rest hb2 hbt hbe []]
  conv_lhs => rw [show govLoop
      (h0 :: t :: f2 :: f3 :: f4 :: h5 :: f6 :: (good ++ bad :: rest)) =
    (if (parse_csv_line h0).length ≥ 2 then
      match h : processVector
          (h0 :: t :: f2 :: f3 :: f4 :: h5 :: f6 :: (good ++ bad :: rest)) with
      | .ok r => r.1 :: govLoop r.2
      | .error f => govLoop (f.drop 1)
    else govLoop (t :: f2 :: f3 :: f4 :: h5 :: f6 :: (good ++ bad :: rest)))
    from by conv_lhs => unfold govLoop]
  rw [if_pos hh0]
  split <;> rename_i heq <;> rw [hpv] at heq <;> cases heq <;> rfl

theorem C3_malformed_result_line_witness :
    get_output_vectors [⟨1051, [chars "1 2 1", chars "T", chars "0. 0. 0.",
        chars "0", chars "0", chars "0 0 0 7", chars "0",
        chars "1 2.5", chars "x 3.5", chars "2 4.5", chars "-1 0."]⟩] =
      govLoop [chars "2 4.5", chars "-1 0."] := by
  have h := C3_malformed_result_line (chars "1 2 1") (chars "T")
    (chars "0. 0. 0.") (chars "0") (chars "0") (chars "0 0 0 7") (chars "0")
    (chars "x 3.5") [chars "1 2.5"] [chars "2 4.5", chars "-1 0."] 1 2 (some 7)
    (by decide) (by decide) (by decide) (by decide) (by decide) (by decide)
    (by decide) (by decide)
  exact h


/-! ### Claim C4: tokenizer equivalence -/

/-- Replace every comma by a single space (the transformation in the claim). -/
def commaToSpace (l : Line) : Line := l.map (fun c => if c = ',' then ' ' else c)

/-- The comma-branch pipeline of `parse_csv_line`. -/
def commaTokens (l : Line) : List Line :=
  ((splitComma l).map pyStrip).filter (· ≠ [])

/-- The whitespace-branch pipeline after comma replacement. -/
def wsTokens (l : Line) : List Line := splitWs (commaToSpace l)

/-- A record line is tokenizer-safe when no comma-separated field keeps
    internal whitespace after stripping. -/
def tokenizerSafe (l : Line) : Bool :=
  (splitComma l).all (fun f => (pyStrip f).all (fun c => !isPySpace c))

theorem splitOnChar_ne_nil (p : Char → Bool) (l : Line) :
    splitOnChar p l ≠ [] := by
  induction l with
  | nil => simp [splitOnChar]
  | cons c cs ih =>
    by_cases h : p c
    · simp [splitOnChar, h]
    · simp only [splitOnChar, h, Bool.false_eq_true, if_false]
      cases hs : splitOnChar p cs <;> simp

theorem splitOnChar_append_sep (p : Char → Bool) (c : Char) (hc : p c = true)
    (a b : Line) :
    splitOnChar p (a ++ c :: b) = splitOnChar p a ++ splitOnChar p b := by
  induction a with
  | nil => simp [splitOnChar, hc]
  | cons x a' ih =>
    by_cases hx : p x
    · simp [splitOnChar, hx, ih]
    · cases hs : splitOnChar p a' with
      | nil => exact absurd hs (splitOnChar_ne_nil p a')
      | cons g gs =>
        rw [List.cons_append,
          show splitOnChar p (x :: (a' ++ c :: b)) =
              match splitOnChar p (a' ++ c :: b) with
              | [] => [[x]]
              | g :: gs => (x :: g) :: gs from by
            simp [splitOnChar, hx],
          ih, hs,
          show splitOnChar p (x :: a') = (x :: g) :: gs from by
            simp [splitOnChar, hx, hs]]
        rfl

theorem splitOnChar_sep_free (p : Char → Bool) (a : Line)
    (h : ∀ x ∈ a, p x = false) : splitOnChar p a = [a] := by
  induction a with
  | nil => rfl
  | cons x a' ih =>
    have hx : p x = false := h x (by simp)
    have ha' := ih (fun y hy => h y (by simp [hy]))
    simp [splitOnChar, hx, ha']

theorem splitOnChar_all_sep (p : Char → Bool) (s : Line)
    (h : ∀ x ∈ s, p x = true) : ∀ f ∈ splitOnChar p s, f = [] := by
  induction s with
  | nil =>
    intro f hf
    simp [splitOnChar] at hf
    exact hf
  | cons x s' ih =>
    intro f hf
    have hx : p x = true := h x (by simp)
    simp only [splitOnChar, hx, if_true, List.mem_cons] at hf
    rcases hf with hf | hf
    · exact hf
    · exact ih (fun y hy => h y (by simp [hy])) f hf

theorem splitOnChar_concat_sep (p : Char → Bool) (c : Char) (hc : p c = true)
    (y : Line) : splitOnChar p (y ++ [c]) = splitOnChar p y ++ [[]] :=
  splitOnChar_append_sep p c hc y []

theorem splitOnChar_concat_nosep (p : Char → Bool) (c : Char) (hc : p c = false)
    (y : Line) :
    ∀ (gs : List Line) (g : Line), splitOnChar p y = gs ++ [g] →
      splitOnChar p (y ++ [c]) = gs ++ [g ++ [c]] := by
  induction y with
  | nil =>
    intro gs g h
    rcases gs with _ | ⟨g0, gs'⟩
    · simp only [List.nil_append] at h ⊢
      have hg : g = [] := by
        rw [show splitOnChar p ([] : Line) = [[]] from rfl] at h
        exact (List.cons.injEq _ _ _ _ ▸ h).1.symm
      subst hg
      simp [splitOnChar, hc]
    · rw [show splitOnChar p ([] : Line) = [[]] from rfl] at h
      have := congrArg List.length h
      simp [List.length_append] at this
  | cons x y' ih =>
    intro gs g h
    by_cases hx : p x
    · rw [show splitOnChar p (x :: y') = [] :: splitOnChar p y' from by
        simp [splitOnChar, hx]] at h
      rcases gs with _ | ⟨g0, gs'⟩
      · exfalso
        simp only [List.nil_append, List.cons.injEq] at h
        exact splitOnChar_ne_nil p y' h.2
      · simp only [List.cons_append, List.cons.injEq] at h
        obtain ⟨hg0, hrest⟩ := h
        rw [List.cons_append,
          show splitOnChar p (x :: (y' ++ [c])) =
              [] :: splitOnChar p (y' ++ [c]) from by simp [splitOnChar, hx],
          ih gs' g hrest, ← hg0]
        rfl
    · cases hs : splitOnChar p y' with
      | nil => exact absurd hs (splitOnChar_ne_nil p y')
      | cons g1 gs1 =>
        rw [show splitOnChar p (x :: y') = (x :: g1) :: gs1 from by
          simp [splitOnChar, hx, hs]] at h
        rcases gs with _ | ⟨g0, gs'⟩
        · simp only [List.nil_append, List.cons.injEq] at h
          obtain ⟨hg, hnil⟩ := h
          have h1 : splitOnChar p (y' ++ [c]) = [g1 ++ [c]] := by
            have := ih [] g1 (by simp [hs, hnil])
            simpa using this
          rw [List.cons_append,
            show splitOnChar p (x :: (y' ++ [c])) = [x :: (g1 ++ [c])] from by
              simp [splitOnChar, hx, h1]]
          simp [← hg]
        · simp only [List.cons_append, List.cons.injEq] at h
          obtain ⟨hg0, hrest⟩ := h
          have h1 : splitOnChar p (y' ++ [c]) = g1 :: (gs' ++ [g ++ [c]]) := by
            have := ih (g1 :: gs') g (by rw [hs, hrest]; rfl)
            simpa using this
          rw [List.cons_append,
            show splitOnChar p (x :: (y' ++ [c])) =
                (x :: g1) :: (gs' ++ [g ++ [c]]) from by
              simp [splitOnChar, hx, h1],
            ← hg0]
          rfl

theorem mem_dropWhile (p : Char → Bool) (l : Line) (a : Char)
    (h : a ∈ l.dropWhile p) : a ∈ l := by
  induction l with
  | nil => simpa using h
  | cons c cs ih =>
    by_cases hc : p c
    · rw [List.dropWhile_cons_of_pos hc] at h
      exact List.mem_cons_of_mem c (ih h)
    · rwa [List.dropWhile_cons_of_neg hc] at h

theorem mem_dropTrailing (p : Char → Bool) (x : Line) (a : Char)
    (h : a ∈ dropTrailing p x) : a ∈ x := by
  unfold dropTrailing at h
  rw [List.mem_reverse] at h
  exact List.mem_reverse.mp (mem_dropWhile p x.reverse a h)

theorem mem_pyStrip (l : Line) (a : Char) (h : a ∈ pyStrip l) : a ∈ l := by
  unfold pyStrip at h
  exact mem_dropWhile isPySpace l a (mem_dropTrailing isPySpace _ a h)

theorem dropWhile_eq_self_of (p : Char → Bool) (x : Line)
    (h : ∀ a ∈ x, p a = false) : x.dropWhile p = x := by
  cases x with
  | nil => rfl
  | cons c cs =>
    rw [List.dropWhile_cons_of_neg]
    simp [h c (by simp)]

theorem dropTrailing_eq_self (p : Char → Bool) (x : Line)
    (h : ∀ a ∈ x, p a = false) : dropTrailing p x = x := by
  unfold dropTrailing
  rw [dropWhile_eq_self_of p x.reverse (fun a ha => h a (List.mem_reverse.mp ha)),
    List.reverse_reverse]

theorem dropTrailing_concat (p : Char → Bool) (c : Char) (hc : p c = true)
    (x : Line) : dropTrailing p (x ++ [c]) = dropTrailing p x := by
  unfold dropTrailing
  rw [show (x ++ [c]).reverse = c :: x.reverse from by simp,
    List.dropWhile_cons_of_pos hc]

theorem dropTrailing_decomp (p : Char → Bool) (x : Line) :
    ∃ suf : Line, x = dropTrailing p x ++ suf ∧ ∀ a ∈ suf, p a = true := by
  refine ⟨(x.reverse.takeWhile p).reverse, ?_, ?_⟩
  · have h : dropTrailing p x ++ (x.reverse.takeWhile p).reverse = x := by
      unfold dropTrailing
      rw [← List.reverse_append, List.takeWhile_append_dropWhile,
        List.reverse_reverse]
    exact h.symm
  · intro a ha
    rw [List.mem_reverse] at ha
    exact List.mem_takeWhile_imp ha

theorem pyStrip_cons_ws (c : Char) (hc : isPySpace c = true) (f : Line) :
    pyStrip (c :: f) = pyStrip f := by
  unfold pyStrip
  rw [List.dropWhile_cons_of_pos hc]

theorem pyStrip_concat_ws (c : Char) (hc : isPySpace c = true) (f : Line) :
    pyStrip (f ++ [c]) = pyStrip f := by
  unfold pyStrip
  rw [List.dropWhile_append]
  by_cases he : (f.dropWhile isPySpace).isEmpty
  · rw [if_pos he]
    rw [List.isEmpty_iff] at he
    rw [he, show List.dropWhile isPySpace [c] = [] from by
      simp [List.dropWhile_cons, hc]]
  · rw [if_neg he]
    exact dropTrailing_concat isPySpace c hc _

theorem splitWs_cons_ws (c : Char) (hc : isPySpace c = true) (x : Line) :
    splitWs (c :: x) = splitWs x := by
  unfold splitWs
  rw [show splitOnChar isPySpace (c :: x) = [] :: splitOnChar isPySpace x from by
    simp [splitOnChar, hc]]
  simp

theorem splitWs_concat_ws (c : Char) (hc : isPySpace c = true) (x : Line) :
    splitWs (x ++ [c]) = splitWs x := by
  unfold splitWs
  rw [splitOnChar_concat_sep isPySpace c hc x, List.filter_append]
  simp

theorem commaToSpace_append (x y : Line) :
    commaToSpace (x ++ y) = commaToSpace x ++ commaToSpace y :=
  List.map_append _ x y

theorem commaToSpace_no_comma (x : Line) : ∀ a ∈ commaToSpace x, a ≠ ',' := by
  intro a ha
  unfold commaToSpace at ha
  rw [List.mem_map] at ha
  obtain ⟨b, _, hb⟩ := ha
  subst hb
  by_cases hb' : b = ','
  · simp [hb']
  · simp [hb']

theorem commaToSpace_eq_self (x : Line) (h : ∀ a ∈ x, a ≠ ',') :
    commaToSpace x = x := by
  unfold commaToSpace
  have h2 : ∀ a ∈ x, (if a = ',' then ' ' else a) = id a := by
    intro a ha
    simp [h a ha]
  rw [List.map_congr_left h2, List.map_id]

theorem commaToSpace_idem (t : Line) :
    commaToSpace (commaToSpace t) = commaToSpace t :=
  commaToSpace_eq_self _ (commaToSpace_no_comma t)

theorem contains_comma_false_of (x : Line) (h : ∀ a ∈ x, a ≠ ',') :
    x.contains ',' = false := by
  have hm : ',' ∉ x := fun hmem => h ',' hmem rfl
  simp [hm]

theorem not_contains_comma (x : Line) (h : x.contains ',' = false) :
    ∀ a ∈ x, a ≠ ',' := by
  intro a ha hacc
  subst hacc
  simp at h
  exact h ha

theorem wsTokens_cons_ws (c : Char) (hc : isPySpace c = true) (t : Line) :
    wsTokens (c :: t) = wsTokens t := by
  unfold wsTokens
  have hcc : c ≠ ',' := by
    intro h
    subst h
    exact absurd hc (by decide)
  rw [show commaToSpace (c :: t) = c :: commaToSpace t from by
    simp [commaToSpace, hcc]]
  exact splitWs_cons_ws c hc _

theorem wsTokens_concat_ws (c : Char) (hc : isPySpace c = true) (t : Line) :
    wsTokens (t ++ [c]) = wsTokens t := by
  unfold wsTokens
  have hcc : c ≠ ',' := by
    intro h
    subst h
    exact absurd hc (by decide)
  rw [commaToSpace_append, show commaToSpace [c] = [c] from by
    simp [commaToSpace, hcc]]
  exact splitWs_concat_ws c hc _

theorem wsTokens_concat_comma (t : Line) :
    wsTokens (t ++ [',']) = wsTokens t := by
  unfold wsTokens
  rw [commaToSpace_append, show commaToSpace [','] = [' '] from rfl]
  exact splitWs_concat_ws ' ' (by decide) _

theorem wsTokens_dropWhile (t : Line) :
    wsTokens (t.dropWhile isPySpace) = wsTokens t := by
  induction t with
  | nil => rfl
  | cons c cs ih =>
    by_cases hc : isPySpace c
    · rw [List.dropWhile_cons_of_pos hc, wsTokens_cons_ws c hc cs]
      exact ih
    · rw [List.dropWhile_cons_of_neg hc]

theorem wsTokens_append_sep_suffix (suf : Line) :
    (∀ a ∈ suf, isPySpace a = true ∨ a = ',') →
    ∀ x : Line, wsTokens (x ++ suf) = wsTokens x := by
  induction suf using List.reverseRecOn with
  | nil =>
    intro _ x
    simp
  | append_singleton s c ih =>
    intro h x
    rw [← List.append_assoc]
    rcases h c (by simp) with hc | hc
    · rw [wsTokens_concat_ws c hc (x ++ s)]
      exact ih (fun a ha => h a (by simp [ha])) x
    · subst hc
      rw [wsTokens_concat_comma (x ++ s)]
      exact ih (fun a ha => h a (by simp [ha])) x

theorem wsTokens_dropTrailing_ws (x : Line) :
    wsTokens (dropTrailing isPySpace x) = wsTokens x := by
  obtain ⟨suf, hdec, hall⟩ := dropTrailing_decomp isPySpace x
  conv_rhs => rw [hdec]
  exact (wsTokens_append_sep_suffix suf (fun a ha => Or.inl (hall a ha)) _).symm

theorem wsTokens_rstripComma (x : Line) :
    wsTokens (rstripComma x) = wsTokens x := by
  obtain ⟨suf, hdec, hall⟩ := dropTrailing_decomp (· = ',') x
  conv_rhs => rw [hdec]
  refine (wsTokens_append_sep_suffix suf (fun a ha => Or.inr ?_) _).symm
  exact of_decide_eq_true (hall a ha)

theorem wsTokens_pyStrip (x : Line) :
    wsTokens (pyStrip x) = wsTokens x := by
  unfold pyStrip
  rw [wsTokens_dropTrailing_ws, wsTokens_dropWhile]

theorem commaTokens_cons_ws (c : Char) (hc : isPySpace c = true) (t : Line) :
    commaTokens (c :: t) = commaTokens t := by
  have hcc : c ≠ ',' := by
    intro h
    subst h
    exact absurd hc (by decide)
  unfold commaTokens splitComma
  cases hs : splitOnChar (fun c => c = ',') t with
  | nil => exact absurd hs (splitOnChar_ne_nil _ t)
  | cons g gs =>
    rw [show splitOnChar (fun c => c = ',') (c :: t) = (c :: g) :: gs from by
      simp [splitOnChar, hcc, hs]]
    simp only [List.map_cons, pyStrip_cons_ws c hc g]

theorem commaTokens_concat_ws (c : Char) (hc : isPySpace c = true) (t : Line) :
    commaTokens (t ++ [c]) = commaTokens t := by
  have hcc : c ≠ ',' := by
    intro h
    subst h
    exact absurd hc (by decide)
  rcases List.eq_nil_or_concat (splitOnChar (fun c => c = ',') t) with hnil | ⟨gs, g, hgs⟩
  · exact absurd hnil (splitOnChar_ne_nil _ t)
  · rw [List.concat_eq_append] at hgs
    unfold commaTokens splitComma
    rw [splitOnChar_concat_nosep _ c (by simp [hcc]) t gs g hgs, hgs]
    simp only [List.map_append, List.map_cons, List.map_nil, List.filter_append]
    rw [pyStrip_concat_ws c hc g]

theorem commaTokens_concat_comma (t : Line) :
    commaTokens (t ++ [',']) = commaTokens t := by
  unfold commaTokens splitComma
  rw [splitOnChar_concat_sep _ ',' (by simp) t]
  simp [List.filter_append, pyStrip, dropTrailing]

theorem commaTokens_dropWhile (t : Line) :
    commaTokens (t.dropWhile isPySpace) = commaTokens t := by
  induction t with
  | nil => rfl
  | cons c cs ih =>
    by_cases hc : isPySpace c
    · rw [List.dropWhile_cons_of_pos hc, commaTokens_cons_ws c hc cs]
      exact ih
    · rw [List.dropWhile_cons_of_neg hc]

theorem commaTokens_append_sep_suffix (suf : Line) :
    (∀ a ∈ suf, isPySpace a = true ∨ a = ',') →
    ∀ x : Line, commaTokens (x ++ suf) = commaTokens x := by
  induction suf using List.reverseRecOn with
  | nil =>
    intro _ x
    simp
  | append_singleton s c ih =>
    intro h x
    rw [← List.append_assoc]
    rcases h c (by simp) with hc | hc
    · rw [commaTokens_concat_ws c hc (x ++ s)]
      exact ih (fun a ha => h a (by simp [ha])) x
    · subst hc
      rw [commaTokens_concat_comma (x ++ s)]
      exact ih (fun a ha => h a (by simp [ha])) x

theorem commaTokens_dropTrailing_ws (x : Line) :
    commaTokens (dropTrailing isPySpace x) = commaTokens x := by
  obtain ⟨suf, hdec, hall⟩ := dropTrailing_decomp isPySpace x
  conv_rhs => rw [hdec]
  exact (commaTokens_append_sep_suffix suf (fun a ha => Or.inl (hall a ha)) _).symm

theorem commaTokens_rstripComma (x : Line) :
    commaTokens (rstripComma x) = commaTokens x := by
  obtain ⟨suf, hdec, hall⟩ := dropTrailing_decomp (· = ',') x
  conv_rhs => rw [hdec]
  refine (commaTokens_append_sep_suffix suf (fun a ha => Or.inr ?_) _).symm
  exact of_decide_eq_true (hall a ha)

theorem commaTokens_pyStrip (x : Line) :
    commaTokens (pyStrip x) = commaTokens x := by
  unfold pyStrip
  rw [commaTokens_dropTrailing_ws, commaTokens_dropWhile]

theorem first_comma_decomp (l : Line) :
    (∀ a ∈ l, a ≠ ',') ∨ ∃ f r, l = f ++ ',' :: r ∧ ∀ a ∈ f, a ≠ ',' := by
  induction l with
  | nil => exact Or.inl (by simp)
  | cons c cs ih =>
    by_cases hc : c = ','
    · subst hc
      exact Or.inr ⟨[], cs, rfl, by simp⟩
    · rcases ih with h | ⟨f, r, hl, hf⟩
      · refine Or.inl ?_
        intro a ha
        rcases List.mem_cons.mp ha with h1 | h1
        · subst h1
          exact hc
        · exact h a h1
      · refine Or.inr ⟨c :: f, r, by rw [hl]; rfl, ?_⟩
        intro a ha
        rcases List.mem_cons.mp ha with h1 | h1
        · subst h1
          exact hc
        · exact hf a h1

theorem splitWs_safe_single (l : Line)
    (hfree : ∀ a ∈ l, a ≠ ',')
    (hsafe : ∀ a ∈ pyStrip l, isPySpace a = false) :
    splitWs l = List.filter (· ≠ []) [pyStrip l] := by
  have h1 : splitWs l = splitWs (pyStrip l) := by
    have hq := wsTokens_pyStrip l
    unfold wsTokens at hq
    rw [commaToSpace_eq_self l hfree,
      commaToSpace_eq_self (pyStrip l) (fun a ha => hfree a (mem_pyStrip l a ha))]
      at hq
    exact hq.symm
  rw [h1]
  unfold splitWs
  rw [splitOnChar_sep_free isPySpace (pyStrip l) hsafe]

theorem tokenizer_safe_parts (l : Line) (h : tokenizerSafe l = true)
    (f : Line) (hf : f ∈ splitComma l) :
    ∀ a ∈ pyStrip f, isPySpace a = false := by
  unfold tokenizerSafe at h
  rw [List.all_eq_true] at h
  have h2 := h f hf
  rw [List.all_eq_true] at h2
  intro a ha
  have := h2 a ha
  simpa using this

theorem tokenizer_equiv_main : ∀ (n : ℕ) (l : Line), l.length ≤ n →
    tokenizerSafe l = true → commaTokens l = wsTokens l := by
  intro n
  induction n with
  | zero =>
    intro l hl _
    have hnil : l = [] := List.length_eq_zero.mp (Nat.le_zero.mp hl)
    subst hnil
    rfl
  | succ n ih =>
    intro l hl hsafe
    rcases first_comma_decomp l with hfree | ⟨f, r, hdec, hf⟩
    · have hsplit : splitComma l = [l] :=
        splitOnChar_sep_free _ l (fun a ha => decide_eq_false (hfree a ha))
      have hs1 : ∀ a ∈ pyStrip l, isPySpace a = false :=
        tokenizer_safe_parts l hsafe l (by rw [hsplit]; simp)
      unfold commaTokens wsTokens
      rw [hsplit, commaToSpace_eq_self l hfree]
      simp only [List.map_cons, List.map_nil]
      exact (splitWs_safe_single l hfree hs1).symm
    · subst hdec
      have hsf : splitComma (f ++ ',' :: r) = [f] ++ splitComma r := by
        unfold splitComma
        rw [splitOnChar_append_sep _ ',' (by simp) f r,
          splitOnChar_sep_free _ f (fun a ha => decide_eq_false (hf a ha))]
      have hsafe_f : ∀ a ∈ pyStrip f, isPySpace a = false :=
        tokenizer_safe_parts _ hsafe f (by rw [hsf]; simp)
      have hsafe_r : tokenizerSafe r = true := by
        unfold tokenizerSafe at hsafe ⊢
        rw [hsf, List.all_append, Bool.and_eq_true] at hsafe
        exact hsafe.2
      have hlen : r.length ≤ n := by
        rw [List.length_append, List.length_cons] at hl
        omega
      have hP : commaTokens (f ++ ',' :: r) =
          List.filter (· ≠ []) [pyStrip f] ++ commaTokens r := by
        unfold commaTokens
        rw [hsf]
        simp only [List.cons_append, List.nil_append, List.map_cons,
          List.filter_cons, List.map_nil, List.filter_nil]
        by_cases hfe : pyStrip f = [] <;> simp [hfe]
      have hQ : wsTokens (f ++ ',' :: r) = splitWs f ++ wsTokens r := by
        unfold wsTokens splitWs
        rw [commaToSpace_append,
          show commaToSpace (',' :: r) = ' ' :: commaToSpace r from rfl,
          splitOnChar_append_sep isPySpace ' ' (by decide) _ _,
          List.filter_append, commaToSpace_eq_self f hf]
      rw [hP, hQ, ih r hlen hsafe_r, splitWs_safe_single f hf hsafe_f]

/-- C4 (amended): the tokenizer equivalence holds exactly for tokenizer-safe
    lines (no comma-separated field keeps internal whitespace after
    stripping); for such a line, replacing commas with spaces and removing
    trailing whitespace does not change the `parse_csv_line` field list. -/
theorem C4_tokenizer_equivalence (t : Line) (h : tokenizerSafe t = true) :
    parse_csv_line (dropTrailing isPySpace (commaToSpace t)) =
      parse_csv_line t := by
  have hnc : ∀ a ∈ dropTrailing isPySpace (commaToSpace t), a ≠ ',' :=
    fun a ha => commaToSpace_no_comma t a (mem_dropTrailing _ _ a ha)
  have hstr : rstripComma (dropTrailing isPySpace (commaToSpace t)) =
      dropTrailing isPySpace (commaToSpace t) :=
    dropTrailing_eq_self _ _ (fun a ha => decide_eq_false (hnc a ha))
  have hnc2 : ∀ a ∈ pyStrip (dropTrailing isPySpace (commaToSpace t)), a ≠ ',' :=
    fun a ha => hnc a (mem_pyStrip _ a ha)
  have hcf : (pyStrip (rstripComma (dropTrailing isPySpace (commaToSpace t)))).contains ','
      = false := by
    rw [hstr]
    exact contains_comma_false_of _ hnc2
  have hL : splitWs (pyStrip (rstripComma (dropTrailing isPySpace (commaToSpace t)))) =
      wsTokens t := by
    rw [hstr]
    calc splitWs (pyStrip (dropTrailing isPySpace (commaToSpace t)))
        = wsTokens (pyStrip (dropTrailing isPySpace (commaToSpace t))) := by
          unfold wsTokens
          rw [commaToSpace_eq_self _ hnc2]
      _ = wsTokens (dropTrailing isPySpace (commaToSpace t)) := wsTokens_pyStrip _
      _ = wsTokens (commaToSpace t) := wsTokens_dropTrailing_ws _
      _ = wsTokens t := by
          unfold wsTokens
          rw [commaToSpace_idem]
  have hnm : ',' ∉ pyStrip (rstripComma (dropTrailing isPySpace (commaToSpace t))) := by
    rw [hstr]
    exact fun hm => hnc2 ',' hm rfl
  simp only [parse_csv_line]
  rw [if_neg (by simpa using hnm)]
  rw [hL]
  by_cases hcr : (pyStrip (rstripComma t)).contains ',' = true
  · rw [if_pos hcr]
    have hA : ((splitComma (pyStrip (rstripComma t))).map pyStrip).filter (· ≠ []) =
        commaTokens t := by
      show commaTokens (pyStrip (rstripComma t)) = commaTokens t
      rw [commaTokens_pyStrip, commaTokens_rstripComma]
    rw [hA]
    exact (tokenizer_equiv_main t.length t le_rfl h).symm
  · rw [if_neg hcr]
    have hfree : ∀ a ∈ pyStrip (rstripComma t), a ≠ ',' :=
      not_contains_comma _ (Bool.eq_false_iff.mpr hcr)
    calc wsTokens t = wsTokens (rstripComma t) := (wsTokens_rstripComma t).symm
      _ = wsTokens (pyStrip (rstripComma t)) := (wsTokens_pyStrip _).symm
      _ = splitWs (pyStrip (rstripComma t)) := by
          unfold wsTokens
          rw [commaToSpace_eq_self _ hfree]

/-- C4 counterexample: on `"a b,c"` the original line tokenizes to
    `["a b", "c"]` but the comma-replaced line tokenizes to
    `["a", "b", "c"]`. -/
theorem C4_counterexample :
    parse_csv_line (dropTrailing isPySpace (commaToSpace (chars "a b,c"))) ≠
      parse_csv_line (chars "a b,c") := by decide

theorem C4_tokenizer_equivalence_witness :
    tokenizerSafe (chars " 1, 2.5, 3 ") = true ∧
    parse_csv_line (dropTrailing isPySpace (commaToSpace (chars " 1, 2.5, 3 "))) =
      parse_csv_line (chars " 1, 2.5, 3 ") :=
  ⟨by decide, C4_tokenizer_equivalence (chars " 1, 2.5, 3 ") (by decide)⟩


/-! ### Claim C5: block-order independence -/

/-- C5 counterexample: swapping two 404 blocks — a permutation of the
    top-level blocks that preserves the line order inside each block —
    reorders the extracted element list, so the extractors are not
    invariant under arbitrary block permutations. -/
theorem C5_counterexample :
    List.Perm
      [(⟨404, [chars "2 0 1 0 2", chars "4 5"]⟩ : FEMAPBlock),
        ⟨404, [chars "1 0 1 0 2", chars "2 3"]⟩]
      [⟨404, [chars "1 0 1 0 2", chars "2 3"]⟩,
        ⟨404, [chars "2 0 1 0 2", chars "4 5"]⟩] ∧
    get_elements [⟨404, [chars "2 0 1 0 2", chars "4 5"]⟩,
        ⟨404, [chars "1 0 1 0 2", chars "2 3"]⟩] ≠
      get_elements [⟨404, [chars "1 0 1 0 2", chars "2 3"]⟩,
        ⟨404, [chars "2 0 1 0 2", chars "4 5"]⟩] := by
  constructor
  · exact List.Perm.swap _ _ _
  · have h1 : elemsLoop [chars "1 0 1 0 2", chars "2 3"] = [⟨1, 1, 2, [2, 3]⟩] :=
      elemsLoop_eval (by decide)
    have h2 : elemsLoop [chars "2 0 1 0 2", chars "4 5"] = [⟨2, 1, 2, [4, 5]⟩] :=
      elemsLoop_eval (by decide)
    rw [show get_elements [(⟨404, [chars "2 0 1 0 2", chars "4 5"]⟩ : FEMAPBlock),
          ⟨404, [chars "1 0 1 0 2", chars "2 3"]⟩] =
        (([] : List Elem) ++ elemsLoop [chars "2 0 1 0 2", chars "4 5"]) ++
          elemsLoop [chars "1 0 1 0 2", chars "2 3"] from rfl,
      show get_elements [(⟨404, [chars "1 0 1 0 2", chars "2 3"]⟩ : FEMAPBlock),
          ⟨404, [chars "2 0 1 0 2", chars "4 5"]⟩] =
        (([] : List Elem) ++ elemsLoop [chars "1 0 1 0 2", chars "2 3"]) ++
          elemsLoop [chars "2 0 1 0 2", chars "4 5"] from rfl,
      h1, h2]
    decide

/-- C5 (amended): every extractor reads the input only through `get_blocks`,
    so any block rearrangement — in particular any permutation preserving
    intra-block line order — that additionally keeps the relative file order
    of the blocks of each ID leaves all six extracted results unchanged. -/
theorem C5_block_order (bs bs' : List FEMAPBlock)
    (hperm : List.Perm bs bs')
    (hblocks : ∀ id : ℤ, get_blocks bs id = get_blocks bs' id) :
    get_nodes bs = get_nodes bs' ∧ get_elements bs = get_elements bs' ∧
    get_properties bs = get_properties bs' ∧
    get_materials bs = get_materials bs' ∧
    get_output_sets bs = get_output_sets bs' ∧
    get_output_vectors bs = get_output_vectors bs' := by
  refine ⟨?_, ?_, ?_, ?_, ?_, ?_⟩
  · unfold get_nodes
    rw [hblocks 403]
  · unfold get_elements
    rw [hblocks 404]
  · unfold get_properties
    rw [hblocks 402]
  · unfold get_materials
    rw [hblocks 601]
  · unfold get_output_sets
    rw [hblocks 450]
  · unfold get_output_vectors
    rw [hblocks 1051]

theorem C5_block_order_witness :
    get_nodes [(⟨403, [chars "n"]⟩ : FEMAPBlock), ⟨601, [chars "7"]⟩] =
      get_nodes [⟨601, [chars "7"]⟩, ⟨403, [chars "n"]⟩] ∧
    get_elements [(⟨403, [chars "n"]⟩ : FEMAPBlock), ⟨601, [chars "7"]⟩] =
      get_elements [⟨601, [chars "7"]⟩, ⟨403, [chars "n"]⟩] ∧
    get_properties [(⟨403, [chars "n"]⟩ : FEMAPBlock), ⟨601, [chars "7"]⟩] =
      get_properties [⟨601, [chars "7"]⟩, ⟨403, [chars "n"]⟩] ∧
    get_materials [(⟨403, [chars "n"]⟩ : FEMAPBlock), ⟨601, [chars "7"]⟩] =
      get_materials [⟨601, [chars "7"]⟩, ⟨403, [chars "n"]⟩] ∧
    get_output_sets [(⟨403, [chars "n"]⟩ : FEMAPBlock), ⟨601, [chars "7"]⟩] =
      get_output_sets [⟨601, [chars "7"]⟩, ⟨403, [chars "n"]⟩] ∧
    get_output_vectors [(⟨403, [chars "n"]⟩ : FEMAPBlock), ⟨601, [chars "7"]⟩] =
      get_output_vectors [⟨601, [chars "7"]⟩, ⟨403, [chars "n"]⟩] := by
  have hb : ∀ id : ℤ,
      get_blocks [(⟨403, [chars "n"]⟩ : FEMAPBlock), ⟨601, [chars "7"]⟩] id =
      get_blocks [(⟨601, [chars "7"]⟩ : FEMAPBlock), ⟨403, [chars "n"]⟩] id := by
    intro id
    unfold get_blocks
    simp only [List.filter_cons, List.filter_nil]
    by_cases h3 : ((403 : ℤ) == id) = true
    · by_cases h6 : ((601 : ℤ) == id) = true
      · rw [beq_iff_eq] at h3 h6
        omega
      · simp [h3, h6]
    · by_cases h6 : ((601 : ℤ) == id) = true
      · simp [h3, h6]
      · simp [h3, h6]
  exact C5_block_order _ _ (List.Perm.swap _ _ _) hb

/-! ### Claim C2: splitting a block into two consecutive blocks -/

theorem elemsLoop_nil : elemsLoop [] = [] := by
  unfold elemsLoop
  rfl

theorem elemsLoop_cons (l : Line) (rest : List Line) :
    elemsLoop (l :: rest) =
      if (parse_csv_line l).length ≥ 5 then
        match parse404 l rest with
        | some e => e :: elemsLoop (rest.drop 6)
        | none => elemsLoop rest
      else elemsLoop rest := by
  conv_lhs => unfold elemsLoop

theorem elemsLoop_cons_ok {l : Line} {rest : List Line} {e : Elem}
    (h5 : (parse_csv_line l).length ≥ 5) (h : parse404 l rest = some e) :
    elemsLoop (l :: rest) = e :: elemsLoop (rest.drop 6) := by
  rw [elemsLoop_cons, if_pos h5, h]

theorem elemsLoop_cons_fail {l : Line} {rest : List Line}
    (h : parse404 l rest = none) :
    elemsLoop (l :: rest) = elemsLoop rest := by
  rw [elemsLoop_cons]
  by_cases h5 : (parse_csv_line l).length ≥ 5
  · rw [if_pos h5, h]
  · rw [if_neg h5]

theorem elemsLoop_cons_short {l : Line} {rest : List Line}
    (h5 : ¬ (parse_csv_line l).length ≥ 5) :
    elemsLoop (l :: rest) = elemsLoop rest := by
  rw [elemsLoop_cons, if_neg h5]

theorem parse404_take2 (l a b : Line) (t : List Line) :
    parse404 l (a :: b :: t) = parse404 l [a, b] := by
  simp only [parse404, List.head?_cons, List.getElem?_cons_succ,
    List.getElem?_cons_zero]

/-- Complete-record decomposition of a 404 block prefix: each unit is either
    a record header (≥ 5 fields, parsing with its two lookahead lines)
    followed by the six lines the loop consumes, or a line on which the
    record attempt fails without reading past the line itself. -/
inductive Units404 : List Line → Prop where
  | nil : Units404 []
  | unit (l r0 r1 r2 r3 r4 r5 : Line) (rest : List Line) (e : Elem) :
      (parse_csv_line l).length ≥ 5 →
      parse404 l [r0, r1] = some e →
      Units404 rest →
      Units404 (l :: r0 :: r1 :: r2 :: r3 :: r4 :: r5 :: rest)
  | skip (l : Line) (rest : List Line) :
      ((parse_csv_line l).length ≥ 5 → ∀ r : List Line, parse404 l r = none) →
      Units404 rest →
      Units404 (l :: rest)

theorem elemsLoop_split {L1 : List Line} (h : Units404 L1) :
    ∀ L2 : List Line, elemsLoop (L1 ++ L2) = elemsLoop L1 ++ elemsLoop L2 := by
  induction h with
  | nil =>
    intro L2
    rw [List.nil_append, elemsLoop_nil, List.nil_append]
  | unit l r0 r1 r2 r3 r4 r5 rest e h5 hp hrest ih =>
    intro L2
    have hp1 : parse404 l (r0 :: r1 :: r2 :: r3 :: r4 :: r5 :: (rest ++ L2)) =
        some e := by
      rw [parse404_take2]
      exact hp
    have hp2 : parse404 l (r0 :: r1 :: r2 :: r3 :: r4 :: r5 :: rest) = some e := by
      rw [parse404_take2]
      exact hp
    rw [show (l :: r0 :: r1 :: r2 :: r3 :: r4 :: r5 :: rest) ++ L2 =
        l :: r0 :: r1 :: r2 :: r3 :: r4 :: r5 :: (rest ++ L2) from rfl,
      elemsLoop_cons_ok h5 hp1, elemsLoop_cons_ok h5 hp2]
    simp only [List.drop_succ_cons, List.drop_zero]
    rw [ih L2]
    rfl
  | skip l rest hf hrest ih =>
    intro L2
    rw [List.cons_append]
    by_cases h5 : (parse_csv_line l).length ≥ 5
    · rw [elemsLoop_cons_fail (hf h5 _), elemsLoop_cons_fail (hf h5 _), ih L2]
    · rw [elemsLoop_cons_short h5, elemsLoop_cons_short h5, ih L2]

theorem propsLoop_cons (l : Line) (rest : List Line) (d : PyDict PropEntry) :
    propsLoop (l :: rest) d =
      if (parse_csv_line l).length ≥ 3 then
        match parse402 l rest with
        | some r => propsLoop (rest.drop 6) (dinsert r.1 r.2 d)
        | none => propsLoop rest d
      else propsLoop rest d := by
  conv_lhs => unfold propsLoop

theorem propsLoop_cons_ok {l : Line} {rest : List Line} {r : ℤ × PropEntry}
    {d : PyDict PropEntry}
    (h3 : (parse_csv_line l).length ≥ 3) (h : parse402 l rest = some r) :
    propsLoop (l :: rest) d = propsLoop (rest.drop 6) (dinsert r.1 r.2 d) := by
  rw [propsLoop_cons, if_pos h3, h]

theorem propsLoop_cons_fail {l : Line} {rest : List Line} {d : PyDict PropEntry}
    (h : parse402 l rest = none) :
    propsLoop (l :: rest) d = propsLoop rest d := by
  rw [propsLoop_cons]
  by_cases h3 : (parse_csv_line l).length ≥ 3
  · rw [if_pos h3, h]
  · rw [if_neg h3]

theorem propsLoop_cons_short {l : Line} {rest : List Line} {d : PyDict PropEntry}
    (h3 : ¬ (parse_csv_line l).length ≥ 3) :
    propsLoop (l :: rest) d = propsLoop rest d := by
  rw [propsLoop_cons, if_neg h3]

theorem parse402_take1 (l a : Line) (t : List Line) :
    parse402 l (a :: t) = parse402 l [a] := by
  simp only [parse402, List.head?_cons]

theorem parse402_none_mono {l : Line} (h : parse402 l [] = none) (r : List Line) :
    parse402 l r = none := by
  simp only [parse402] at h ⊢
  cases h0 : pyInt? ((parse_csv_line l).getD 0 []) with
  | none => simp only [h0]
  | some pid =>
    cases h2 : pyInt? ((parse_csv_line l).getD 2 []) with
    | none => simp only [h0, h2]
    | some mid =>
      rw [h0, h2] at h
      simp at h

/-- Complete-record decomposition of a 402 block prefix. -/
inductive Units402 : List Line → Prop where
  | nil : Units402 []
  | unit (l r0 r1 r2 r3 r4 r5 : Line) (rest : List Line) (rv : ℤ × PropEntry) :
      (parse_csv_line l).length ≥ 3 →
      parse402 l [r0] = some rv →
      Units402 rest →
      Units402 (l :: r0 :: r1 :: r2 :: r3 :: r4 :: r5 :: rest)
  | skip (l : Line) (rest : List Line) :
      ((parse_csv_line l).length ≥ 3 → parse402 l [] = none) →
      Units402 rest →
      Units402 (l :: rest)

theorem propsLoop_split {L1 : List Line} (h : Units402 L1) :
    ∀ (L2 : List Line) (d : PyDict PropEntry),
      propsLoop (L1 ++ L2) d = propsLoop L2 (propsLoop L1 d) := by
  induction h with
  | nil =>
    intro L2 d
    rw [List.nil_append, propsLoop_nil]
  | unit l r0 r1 r2 r3 r4 r5 rest rv h3 hp hrest ih =>
    intro L2 d
    have hp1 : parse402 l (r0 :: r1 :: r2 :: r3 :: r4 :: r5 :: (rest ++ L2)) =
        some rv := by
      rw [parse402_take1]
      exact hp
    have hp2 : parse402 l (r0 :: r1 :: r2 :: r3 :: r4 :: r5 :: rest) = some rv := by
      rw [parse402_take1]
      exact hp
    rw [show (l :: r0 :: r1 :: r2 :: r3 :: r4 :: r5 :: rest) ++ L2 =
        l :: r0 :: r1 :: r2 :: r3 :: r4 :: r5 :: (rest ++ L2) from rfl,
      propsLoop_cons_ok h3 hp1, propsLoop_cons_ok h3 hp2]
    simp only [List.drop_succ_cons, List.drop_zero]
    exact ih L2 (dinsert rv.1 rv.2 d)
  | skip l rest hf hrest ih =>
    intro L2 d
    rw [List.cons_append]
    by_cases h3 : (parse_csv_line l).length ≥ 3
    · rw [propsLoop_cons_fail (parse402_none_mono (hf h3) _),
        propsLoop_cons_fail (parse402_none_mono (hf h3) _), ih L2 d]
    · rw [propsLoop_cons_short h3, propsLoop_cons_short h3, ih L2 d]

theorem setsLoop_cons (l : Line) (rest : List Line) (d : PyDict OutSet) :
    setsLoop (l :: rest) d =
      if (parse_csv_line l).length ≥ 1 then
        match parse450 l rest with
        | some r => setsLoop (rest.drop 5) (dinsert r.1 r.2 d)
        | none => setsLoop rest d
      else setsLoop rest d := by
  conv_lhs => unfold setsLoop

theorem setsLoop_cons_ok {l : Line} {rest : List Line} {r : ℤ × OutSet}
    {d : PyDict OutSet}
    (h1 : (parse_csv_line l).length ≥ 1) (h : parse450 l rest = some r) :
    setsLoop (l :: rest) d = setsLoop (rest.drop 5) (dinsert r.1 r.2 d) := by
  rw [setsLoop_cons, if_pos h1, h]

theorem setsLoop_cons_fail {l : Line} {rest : List Line} {d : PyDict OutSet}
    (h : parse450 l rest = none) :
    setsLoop (l :: rest) d = setsLoop rest d := by
  rw [setsLoop_cons]
  by_cases h1 : (parse_csv_line l).length ≥ 1
  · rw [if_pos h1, h]
  · rw [if_neg h1]

theorem setsLoop_cons_short {l : Line} {rest : List Line} {d : PyDict OutSet}
    (h1 : ¬ (parse_csv_line l).length ≥ 1) :
    setsLoop (l :: rest) d = setsLoop rest d := by
  rw [setsLoop_cons, if_neg h1]

theorem parse450_take3 (l a b c : Line) (t : List Line) :
    parse450 l (a :: b :: c :: t) = parse450 l [a, b, c] := by
  simp only [parse450, List.head?_cons, List.getElem?_cons_succ,
    List.getElem?_cons_zero]

theorem parse450_none_of_int {l : Line}
    (h : pyInt? ((parse_csv_line l).getD 0 []) = none) (r : List Line) :
    parse450 l r = none := by
  simp only [parse450, h]

/-- Complete-record decomposition of a 450 block prefix. -/
inductive Units450 : List Line → Prop where
  | nil : Units450 []
  | unit (l r0 r1 r2 r3 r4 : Line) (rest : List Line) (rv : ℤ × OutSet) :
      (parse_csv_line l).length ≥ 1 →
      parse450 l [r0, r1, r2] = some rv →
      Units450 rest →
      Units450 (l :: r0 :: r1 :: r2 :: r3 :: r4 :: rest)
  | skip (l : Line) (rest : List Line) :
      ((parse_csv_line l).length ≥ 1 →
        pyInt? ((parse_csv_line l).getD 0 []) = none) →
      Units450 rest →
      Units450 (l :: rest)

theorem setsLoop_split {L1 : List Line} (h : Units450 L1) :
    ∀ (L2 : List Line) (d : PyDict OutSet),
      setsLoop (L1 ++ L2) d = setsLoop L2 (setsLoop L1 d) := by
  induction h with
  | nil =>
    intro L2 d
    rw [List.nil_append, setsLoop_nil]
  | unit l r0 r1 r2 r3 r4 rest rv h1 hp hrest ih =>
    intro L2 d
    have hp1 : parse450 l (r0 :: r1 :: r2 :: r3 :: r4 :: (rest ++ L2)) =
        some rv := by
      rw [parse450_take3]
      exact hp
    have hp2 : parse450 l (r0 :: r1 :: r2 :: r3 :: r4 :: rest) = some rv := by
      rw [parse450_take3]
      exact hp
    rw [show (l :: r0 :: r1 :: r2 :: r3 :: r4 :: rest) ++ L2 =
        l :: r0 :: r1 :: r2 :: r3 :: r4 :: (rest ++ L2) from rfl,
      setsLoop_cons_ok h1 hp1, setsLoop_cons_ok h1 hp2]
    simp only [List.drop_succ_cons, List.drop_zero]
    exact ih L2 (dinsert rv.1 rv.2 d)
  | skip l rest hf hrest ih =>
    intro L2 d
    rw [List.cons_append]
    by_cases h1 : (parse_csv_line l).length ≥ 1
    · rw [setsLoop_cons_fail (parse450_none_of_int (hf h1) _),
        setsLoop_cons_fail (parse450_none_of_int (hf h1) _), ih L2 d]
    · rw [setsLoop_cons_short h1, setsLoop_cons_short h1, ih L2 d]

set_option maxHeartbeats 4000000 in
/-- A well-formed result stream: Format-1/Format-2 records and sub-2-field
    skips, ending exactly at a terminator line. -/
inductive ResBody : List Line → Prop where
  | term (l : Line) :
      isTermParts (parse_csv_line l) = true → ResBody [l]
  | fmt1 (l : Line) (rest : List Line) (eid : ℤ) (v : ℚ) :
      isTermParts (parse_csv_line l) = false →
      (parse_csv_line l).length = 2 →
      pyInt? ((parse_csv_line l).getD 0 []) = some eid →
      pyFloat? ((parse_csv_line l).getD 1 []) = some v →
      ResBody rest →
      ResBody (l :: rest)
  | fmt2 (l : Line) (C rest : List Line) (s e : ℤ) (vs out : List ℚ) :
      isTermParts (parse_csv_line l) = false →
      (parse_csv_line l).length > 2 →
      pyInt? ((parse_csv_line l).getD 0 []) = some s →
      pyInt? ((parse_csv_line l).getD 1 []) = some e →
      mapFloat? ((parse_csv_line l).drop 2) = some vs →
      ContOK vs (e - s + 1) C out →
      ((e - s + 1) ≤ (out.length : ℤ) ∨
        (∃ l2 t2, rest = l2 :: t2 ∧ isTermParts (parse_csv_line l2) = true)) →
      ResBody rest →
      ResBody (l :: (C ++ rest))
  | skip (l : Line) (rest : List Line) :
      isTermParts (parse_csv_line l) = false →
      ¬ (parse_csv_line l).length = 2 →
      ¬ (parse_csv_line l).length > 2 →
      ResBody rest →
      ResBody (l :: rest)

/-- A well-formed result stream is consumed exactly, for any later lines and
    any starting dict, ending in the same results dict. -/
theorem resBody_collectResults {R : List Line} (h : ResBody R) :
    ∀ d : PyDict ℚ, ∃ dr : PyDict ℚ, ∀ tail : List Line,
      collectResults d (R ++ tail) = .ok (dr, tail) := by
  induction h with
  | term l hterm =>
    intro d
    exact ⟨d, fun tail => collectResults_cons_term hterm⟩
  | fmt1 l rest eid v hterm h2 hi hf hrest ih =>
    intro d
    obtain ⟨dr, hdr⟩ := ih (dinsert eid v d)
    refine ⟨dr, fun tail => ?_⟩
    rw [List.cons_append, collectResults_cons_fmt1 hterm h2 hi hf]
    exact hdr tail
  | fmt2 l C rest s e vs out hterm h3 hi1 hi2 hm hC hstop hrest ih =>
    intro d
    obtain ⟨dr, hdr⟩ := ih (runEntries s out (e - s + 1) d)
    refine ⟨dr, fun tail => ?_⟩
    have hstop2 : (e - s + 1) ≤ (out.length : ℤ) ∨
        (∃ l2 t2, rest ++ tail = l2 :: t2 ∧
          isTermParts (parse_csv_line l2) = true) := by
      rcases hstop with hs | ⟨l2, t2, heq, ht⟩
      · exact Or.inl hs
      · exact Or.inr ⟨l2, t2 ++ tail, by rw [heq]; rfl, ht⟩
    have hcc := contOK_collectCont hC (rest ++ tail) hstop2
    have h2 : ¬ (parse_csv_line l).length = 2 := by omega
    rw [show (l :: (C ++ rest)) ++ tail = l :: (C ++ (rest ++ tail)) from by
      simp [List.append_assoc]]
    rw [collectResults_cons_fmt2_ok hterm h2 h3 hi1 hi2 hm hcc]
    exact hdr tail
  | skip l rest hterm h2 h3 hrest ih =>
    intro d
    obtain ⟨dr, hdr⟩ := ih d
    refine ⟨dr, fun tail => ?_⟩
    rw [List.cons_append, collectResults_cons_short hterm h2 h3]
    exact hdr tail

theorem processVector_unit (h0 tl f2 f3 f4 h5 f6 : Line) (R : List Line)
    {sid vid : ℤ} {ety : Option ℤ} {dr : PyDict ℚ}
    (hsid : pyInt? ((parse_csv_line h0).getD 0 []) = some sid)
    (hvid : pyInt? ((parse_csv_line h0).getD 1 []) = some vid)
    (hety : entTypeOf (some h5) = .ok ety)
    (hR : ∀ tail, collectResults [] (R ++ tail) = .ok (dr, tail)) :
    ∀ tail : List Line,
      processVector (h0 :: tl :: f2 :: f3 :: f4 :: h5 :: f6 :: (R ++ tail)) =
        .ok (⟨sid, vid, titleOf tl, ety, dr⟩, tail) := by
  intro tail
  simp only [processVector, hsid, hvid, List.head?_cons,
    List.getElem?_cons_succ, List.getElem?_cons_zero, hety,
    List.drop_succ_cons, List.drop_zero]
  rw [hR tail]

theorem govLoop_cons_ok {l : Line} {rest : List Line} {r : OutVec × List Line}
    (h2 : (parse_csv_line l).length ≥ 2)
    (h : processVector (l :: rest) = .ok r) :
    govLoop (l :: rest) = r.1 :: govLoop r.2 := by
  conv_lhs => rw [show govLoop (l :: rest) =
    (if (parse_csv_line l).length ≥ 2 then
      match h : processVector (l :: rest) with
      | .ok r => r.1 :: govLoop r.2
      | .error f => govLoop (f.drop 1)
    else govLoop rest) from by conv_lhs => unfold govLoop]
  rw [if_pos h2]
  split <;> rename_i heq <;> rw [h] at heq <;> cases heq <;> rfl

theorem govLoop_cons_short {l : Line} {rest : List Line}
    (h2 : ¬ (parse_csv_line l).length ≥ 2) :
    govLoop (l :: rest) = govLoop rest := by
  conv_lhs => rw [show govLoop (l :: rest) =
    (if (parse_csv_line l).length ≥ 2 then
      match h : processVector (l :: rest) with
      | .ok r => r.1 :: govLoop r.2
      | .error f => govLoop (f.drop 1)
    else govLoop rest) from by conv_lhs => unfold govLoop]
  rw [if_neg h2]

/-- Complete-record decomposition of a 1051 block prefix: complete vector
    records (7 header lines and a terminated result stream) and sub-2-field
    skip lines. -/
inductive Units1051 : List Line → Prop where
  | nil : Units1051 []
  | vec (h0 tl f2 f3 f4 h5 f6 : Line) (R rest : List Line)
      (sid vid : ℤ) (ety : Option ℤ) :
      (parse_csv_line h0).length ≥ 2 →
      pyInt? ((parse_csv_line h0).getD 0 []) = some sid →
      pyInt? ((parse_csv_line h0).getD 1 []) = some vid →
      entTypeOf (some h5) = .ok ety →
      ResBody R →
      Units1051 rest →
      Units1051 (h0 :: tl :: f2 :: f3 :: f4 :: h5 :: f6 :: (R ++ rest))
  | short (l : Line) (rest : List Line) :
      ¬ (parse_csv_line l).length ≥ 2 →
      Units1051 rest →
      Units1051 (l :: rest)

theorem govLoop_split {L1 : List Line} (h : Units1051 L1) :
    ∀ L2 : List Line, govLoop (L1 ++ L2) = govLoop L1 ++ govLoop L2 := by
  induction h with
  | nil =>
    intro L2
    rw [List.nil_append, govLoop_nil, List.nil_append]
  | vec h0 tl f2 f3 f4 h5 f6 R rest sid vid ety hh0 hsid hvid hety hR hrest ih =>
    intro L2
    obtain ⟨dr, hdr⟩ := resBody_collectResults hR []
    have hu := processVector_unit h0 tl f2 f3 f4 h5 f6 R hsid hvid hety hdr
    rw [show (h0 :: tl :: f2 :: f3 :: f4 :: h5 :: f6 :: (R ++ rest)) ++ L2 =
        h0 :: tl :: f2 :: f3 :: f4 :: h5 :: f6 :: (R ++ (rest ++ L2)) from by
      simp [List.append_assoc]]
    rw [govLoop_cons_ok hh0 (hu (rest ++ L2)), govLoop_cons_ok hh0 (hu rest),
      ih L2]
    rfl
  | short l rest hl hrest ih =>
    intro L2
    rw [List.cons_append, govLoop_cons_short hl, govLoop_cons_short hl, ih L2]

theorem get_blocks_append (xs ys : List FEMAPBlock) (tid : ℤ) :
    get_blocks (xs ++ ys) tid = get_blocks xs tid ++ get_blocks ys tid := by
  unfold get_blocks
  rw [List.filter_append]

theorem get_blocks_cons (id tid : ℤ) (L : List Line) (bs : List FEMAPBlock) :
    get_blocks (⟨id, L⟩ :: bs) tid =
      if id = tid then ⟨id, L⟩ :: get_blocks bs tid else get_blocks bs tid := by
  unfold get_blocks
  rw [List.filter_cons]
  by_cases h : id = tid
  · rw [if_pos h, if_pos (by simpa using h)]
  · rw [if_neg h, if_neg (by simpa using h)]

/-- Splitting one block into two consecutive same-ID blocks, seen through a
    per-block left fold: harmless whenever processing the two parts in
    sequence equals processing the concatenation. -/
theorem getBlocks_split_fold {A : Type} (pre post : List FEMAPBlock)
    (id tid : ℤ) (L1 L2 : List Line) (step : FEMAPBlock → A → A) (i : A)
    (hsplit : ∀ a : A, step ⟨id, L1 ++ L2⟩ a = step ⟨id, L2⟩ (step ⟨id, L1⟩ a)) :
    (get_blocks (pre ++ ⟨id, L1⟩ :: ⟨id, L2⟩ :: post) tid).foldl
        (fun a b => step b a) i =
      (get_blocks (pre ++ ⟨id, L1 ++ L2⟩ :: post) tid).foldl
        (fun a b => step b a) i := by
  rw [show (pre ++ ⟨id, L1⟩ :: ⟨id, L2⟩ :: post : List FEMAPBlock) =
      pre ++ [⟨id, L1⟩, ⟨id, L2⟩] ++ post from by simp,
    show (pre ++ ⟨id, L1 ++ L2⟩ :: post : List FEMAPBlock) =
      pre ++ [⟨id, L1 ++ L2⟩] ++ post from by simp]
  rw [get_blocks_append, get_blocks_append, get_blocks_append, get_blocks_append,
    get_blocks_cons, get_blocks_cons, get_blocks_cons]
  by_cases hid : id = tid
  · rw [if_pos hid, if_pos hid, if_pos hid]
    rw [List.foldl_append, List.foldl_append, List.foldl_append,
      List.foldl_append]
    simp only [List.foldl_cons, List.foldl_nil]
    rw [hsplit]
  · rw [if_neg hid, if_neg hid, if_neg hid]

/-- C2 (amended): splitting a block at a line position into two consecutive
    blocks of the same ID leaves the per-line extractors `get_nodes` and
    `get_materials` unchanged at every split position; each multi-line
    record extractor (`get_elements`, `get_properties`, `get_output_sets`,
    `get_output_vectors`) is unchanged (including 402's last-wins dict)
    whenever the first part ends at a record boundary of its own format —
    it decomposes into complete records and stable skip lines of that
    format; a split inside a record changes the extracted data. -/
theorem C2_block_split (pre post : List FEMAPBlock) (id : ℤ) (L1 L2 : List Line) :
    (get_nodes (pre ++ ⟨id, L1⟩ :: ⟨id, L2⟩ :: post) =
      get_nodes (pre ++ ⟨id, L1 ++ L2⟩ :: post)) ∧
    (get_materials (pre ++ ⟨id, L1⟩ :: ⟨id, L2⟩ :: post) =
      get_materials (pre ++ ⟨id, L1 ++ L2⟩ :: post)) ∧
    (Units404 L1 →
      get_elements (pre ++ ⟨id, L1⟩ :: ⟨id, L2⟩ :: post) =
        get_elements (pre ++ ⟨id, L1 ++ L2⟩ :: post)) ∧
    (Units402 L1 →
      get_properties (pre ++ ⟨id, L1⟩ :: ⟨id, L2⟩ :: post) =
        get_properties (pre ++ ⟨id, L1 ++ L2⟩ :: post)) ∧
    (Units450 L1 →
      get_output_sets (pre ++ ⟨id, L1⟩ :: ⟨id, L2⟩ :: post) =
        get_output_sets (pre ++ ⟨id, L1 ++ L2⟩ :: post)) ∧
    (Units1051 L1 →
      get_output_vectors (pre ++ ⟨id, L1⟩ :: ⟨id, L2⟩ :: post) =
        get_output_vectors (pre ++ ⟨id, L1 ++ L2⟩ :: post)) := by
  refine ⟨?_, ?_, fun h404 => ?_, fun h402 => ?_, fun h450 => ?_,
    fun h1051 => ?_⟩
  · unfold get_nodes
    exact getBlocks_split_fold pre post id 403 L1 L2
      (fun b d => b.lines.foldl nodesLineStep d) []
      (fun a => by simp [List.foldl_append])
  · unfold get_materials
    exact getBlocks_split_fold pre post id 601 L1 L2
      (fun b d => b.lines.foldl matsLineStep d) []
      (fun a => by simp [List.foldl_append])
  · unfold get_elements
    exact getBlocks_split_fold pre post id 404 L1 L2
      (fun b acc => acc ++ elemsLoop b.lines) []
      (fun a => by simp [elemsLoop_split h404])
  · unfold get_properties
    exact getBlocks_split_fold pre post id 402 L1 L2
      (fun b d => propsLoop b.lines d) []
      (fun a => propsLoop_split h402 L2 a)
  · unfold get_output_sets
    exact getBlocks_split_fold pre post id 450 L1 L2
      (fun b d => setsLoop b.lines d) []
      (fun a => setsLoop_split h450 L2 a)
  · unfold get_output_vectors
    exact getBlocks_split_fold pre post id 1051 L1 L2
      (fun b acc => acc ++ govLoop b.lines) []
      (fun a => by simp [govLoop_split h1051])

/-- C2 counterexample: splitting a 404 block between a record's header line
    and its first connectivity line loses the element's node list — the
    header alone parses with no lookahead lines, and the second block's
    connectivity line is skipped as too short — so splitting at an arbitrary
    line position does change the extracted data. -/
theorem C2_counterexample :
    get_elements [(⟨404, [chars "1 0 1 0 2"]⟩ : FEMAPBlock),
        ⟨404, [chars "2 3"]⟩] ≠
      get_elements [⟨404, [chars "1 0 1 0 2", chars "2 3"]⟩] := by
  have h1 : elemsLoop [chars "1 0 1 0 2"] = [⟨1, 1, 2, []⟩] :=
    elemsLoop_eval (by decide)
  have h2 : elemsLoop [chars "2 3"] = [] :=
    elemsLoop_eval (by decide)
  have h3 : elemsLoop [chars "1 0 1 0 2", chars "2 3"] = [⟨1, 1, 2, [2, 3]⟩] :=
    elemsLoop_eval (by decide)
  rw [show get_elements [(⟨404, [chars "1 0 1 0 2"]⟩ : FEMAPBlock),
        ⟨404, [chars "2 3"]⟩] =
      (([] : List Elem) ++ elemsLoop [chars "1 0 1 0 2"]) ++
        elemsLoop [chars "2 3"] from rfl,
    show get_elements [(⟨404, [chars "1 0 1 0 2", chars "2 3"]⟩ : FEMAPBlock)] =
      ([] : List Elem) ++ elemsLoop [chars "1 0 1 0 2", chars "2 3"] from rfl,
    h1, h2, h3]
  decide

/-- One complete 7-line 404 element record (also a complete 402 property
    record), used to instantiate `C2_block_split`. -/
def splitRec404 : List Line :=
  [chars "1 0 1 0 2", chars "2 3", chars "", chars "", chars "", chars "",
    chars ""]

/-- One complete 6-line 450 output-set record. -/
def splitRec450 : List Line :=
  [chars "1", chars "T", chars "", chars "", chars "", chars ""]

/-- One complete 1051 vector record: 7 header lines and a terminator. -/
def splitRec1051 : List Line :=
  [chars "1 2 1", chars "T", chars "", chars "", chars "", chars "",
    chars "", chars "-1 0."]

/-- Concrete second part used to instantiate `C2_block_split`. -/
def splitTail : List Line := [chars "2 0 1 0 2", chars "4 5"]

theorem C2_block_split_witness :
    (get_nodes ([] ++ ⟨403, splitRec404⟩ :: ⟨403, splitTail⟩ :: []) =
      get_nodes ([] ++ ⟨403, splitRec404 ++ splitTail⟩ :: [])) ∧
    (get_materials ([] ++ ⟨601, splitRec404⟩ :: ⟨601, splitTail⟩ :: []) =
      get_materials ([] ++ ⟨601, splitRec404 ++ splitTail⟩ :: [])) ∧
    (get_elements ([] ++ ⟨404, splitRec404⟩ :: ⟨404, splitTail⟩ :: []) =
      get_elements ([] ++ ⟨404, splitRec404 ++ splitTail⟩ :: [])) ∧
    (get_properties ([] ++ ⟨402, splitRec404⟩ :: ⟨402, splitTail⟩ :: []) =
      get_properties ([] ++ ⟨402, splitRec404 ++ splitTail⟩ :: [])) ∧
    (get_output_sets ([] ++ ⟨450, splitRec450⟩ :: ⟨450, splitTail⟩ :: []) =
      get_output_sets ([] ++ ⟨450, splitRec450 ++ splitTail⟩ :: [])) ∧
    (get_output_vectors ([] ++ ⟨1051, splitRec1051⟩ :: ⟨1051, splitTail⟩ :: []) =
      get_output_vectors ([] ++ ⟨1051, splitRec1051 ++ splitTail⟩ :: [])) := by
  have h404 : Units404 splitRec404 := by
    refine Units404.unit _ _ _ _ _ _ _ _ ⟨1, 1, 2, [2, 3]⟩ (by decide)
      (by decide) ?_
    exact Units404.nil
  have h402 : Units402 splitRec404 := by
    refine Units402.unit _ _ _ _ _ _ _ _ (1, ⟨1, chars "2 3"⟩) (by decide)
      (by decide) ?_
    exact Units402.nil
  have h450 : Units450 splitRec450 := by
    refine Units450.unit _ _ _ _ _ _ _ (1, ⟨chars "T", 0⟩) (by decide)
      (by decide) ?_
    exact Units450.nil
  have h1051 : Units1051 splitRec1051 := by
    refine Units1051.vec (chars "1 2 1") (chars "T") (chars "")
      (chars "") (chars "") (chars "") (chars "")
      [chars "-1 0."] [] 1 2 none
      (by decide) (by decide) (by decide) (by decide) ?_ Units1051.nil
    exact ResBody.term _ (by decide)
  refine ⟨(C2_block_split [] [] 403 splitRec404 splitTail).1,
    (C2_block_split [] [] 601 splitRec404 splitTail).2.1,
    (C2_block_split [] [] 404 splitRec404 splitTail).2.2.1 h404,
    (C2_block_split [] [] 402 splitRec404 splitTail).2.2.2.1 h402,
    (C2_block_split [] [] 450 splitRec450 splitTail).2.2.2.2.1 h450,
    (C2_block_split [] [] 1051 splitRec1051 splitTail).2.2.2.2.2 h1051⟩


/-! ### Claim C6: termination and total results on arbitrary input -/

/-- Fueled version of the per-line `while` loops that advance by exactly one
    line per iteration (`get_nodes`, `get_nodes_arrays`, `get_materials`):
    one unit of fuel per iteration. -/
def lineLoopF {A : Type} (step : A → Line → A) : ℕ → A → List Line → Option A
  | 0, _, _ => none
  | _ + 1, a, [] => some a
  | fuel + 1, a, l :: t => lineLoopF step fuel (step a l) t

theorem lineLoopF_adequate {A : Type} (step : A → Line → A) :
    ∀ (fuel : ℕ) (ls : List Line) (a : A), ls.length < fuel →
      lineLoopF step fuel a ls = some (ls.foldl step a) := by
  intro fuel
  induction fuel with
  | zero =>
    intro ls a h
    omega
  | succ n ih =>
    intro ls a h
    match ls with
    | [] => rfl
    | l :: t =>
      simp only [lineLoopF, List.foldl_cons]
      exact ih t (step a l) (by simp only [List.length_cons] at h; omega)

/-- Fueled fold of a fueled per-block computation over the blocks of one ID;
    fuel exhaustion in any block propagates. -/
def foldBlocksF {A : Type} (stepF : A → FEMAPBlock → Option A) :
    A → List FEMAPBlock → Option A
  | a, [] => some a
  | a, b :: bs =>
    match stepF a b with
    | some a2 => foldBlocksF stepF a2 bs
    | none => none

theorem foldBlocksF_adequate {A : Type} (stepF : A → FEMAPBlock → Option A)
    (step : A → FEMAPBlock → A) (h : ∀ a b, stepF a b = some (step a b)) :
    ∀ (bs : List FEMAPBlock) (a : A),
      foldBlocksF stepF a bs = some (bs.foldl step a) := by
  intro bs
  induction bs with
  | nil =>
    intro a
    rfl
  | cons b bs2 ih =>
    intro a
    simp only [foldBlocksF, h a b, List.foldl_cons]
    exact ih (step a b)

/-- Fueled version of the `get_blocks` filter: one unit of fuel per block. -/
def get_blocksF : ℕ → List FEMAPBlock → ℤ → Option (List FEMAPBlock)
  | 0, _, _ => none
  | _ + 1, [], _ => some []
  | fuel + 1, b :: bs, id =>
    (get_blocksF fuel bs id).map (fun r => if b.block_id == id then b :: r else r)

theorem get_blocksF_adequate : ∀ (fuel : ℕ) (bs : List FEMAPBlock) (id : ℤ),
    bs.length < fuel → get_blocksF fuel bs id = some (get_blocks bs id) := by
  intro fuel
  induction fuel with
  | zero =>
    intro bs id h
    omega
  | succ n ih =>
    intro bs id h
    match bs with
    | [] => rfl
    | b :: bs2 =>
      rw [show get_blocksF (n + 1) (b :: bs2) id =
          (get_blocksF n bs2 id).map
            (fun r => if b.block_id == id then b :: r else r) from rfl,
        ih bs2 id (by simp only [List.length_cons] at h; omega)]
      unfold get_blocks
      rw [List.filter_cons]
      by_cases hb : (b.block_id == id) = true
      · simp [hb]
      · simp [hb]

/-- Fueled `get_header`: the only iteration is the block filter. -/
def get_headerF (bs : List FEMAPBlock) : Option (Option Header) :=
  (get_blocksF (bs.length + 1) bs 100).map (fun bl =>
    match bl with
    | [] => none
    | b :: _ =>
      match b.lines with
      | t :: v :: _ =>
        let title := pyStrip t
        some ⟨if title = chars "<NULL>" then [] else title, pyStrip v⟩
      | _ => none)

/-- Fueled `get_nodes`. -/
def get_nodesF (bs : List FEMAPBlock) : Option (PyDict (ℚ × ℚ × ℚ)) :=
  foldBlocksF (fun d b => lineLoopF nodesLineStep (b.lines.length + 1) d b.lines)
    [] (get_blocks bs 403)

/-- Fueled `get_nodes_arrays`. -/
def get_nodes_arraysF (bs : List FEMAPBlock) :
    Option (List ℤ × List (ℚ × ℚ × ℚ)) :=
  foldBlocksF (fun a b => lineLoopF nodesArrStep (b.lines.length + 1) a b.lines)
    ([], []) (get_blocks bs 403)

/-- Fueled `get_materials`. -/
def get_materialsF (bs : List FEMAPBlock) : Option (PyDict ℤ) :=
  foldBlocksF (fun d b => lineLoopF matsLineStep (b.lines.length + 1) d b.lines)
    [] (get_blocks bs 601)

/-- Fueled `get_properties`. -/
def get_propertiesF (bs : List FEMAPBlock) : Option (PyDict PropEntry) :=
  foldBlocksF (fun d b => propsLoopF (b.lines.length + 1) b.lines d)
    [] (get_blocks bs 402)

/-- Fueled `get_elements`. -/
def get_elementsF (bs : List FEMAPBlock) : Option (List Elem) :=
  foldBlocksF
    (fun acc b => (elemsLoopF (b.lines.length + 1) b.lines).map (acc ++ ·))
    [] (get_blocks bs 404)

/-- Fueled `get_elements_arrays`. -/
def get_elements_arraysF (bs : List FEMAPBlock) : Option ElemArrays :=
  foldBlocksF (fun a b => elemsArrLoopF (b.lines.length + 1) b.lines a)
    ⟨[], [], [], [], [0]⟩ (get_blocks bs 404)

/-- Fueled `get_output_sets`. -/
def get_output_setsF (bs : List FEMAPBlock) : Option (PyDict OutSet) :=
  foldBlocksF (fun d b => setsLoopF (b.lines.length + 1) b.lines d)
    [] (get_blocks bs 450)

/-- Fueled `get_output_vectors`. -/
def get_output_vectorsF (bs : List FEMAPBlock) : Option (List OutVec) :=
  foldBlocksF
    (fun acc b => (govLoopF (b.lines.length + 1) b.lines).map (acc ++ ·))
    [] (get_blocks bs 1051)

/-- Fueled `get_output_vectors_arrays`; the Python `return` out of the block
    loop is modelled by keeping the first produced record. -/
def get_output_vectors_arraysF (bs : List FEMAPBlock) (sf vf : ℤ) :
    Option GovArrOut :=
  match foldBlocksF (fun acc b =>
      match acc with
      | some r => some (some r)
      | none => govALoopF (b.lines.length + 1) sf vf b.lines)
    none (get_blocks bs 1051) with
  | some (some r) => some r
  | some none => some ⟨none, none, -1, -1, -1⟩
  | none => none

/-- The total step the `get_output_vectors_arrays` block loop folds with. -/
def govAStep (sf vf : ℤ) (acc : Option GovArrOut) (b : FEMAPBlock) :
    Option GovArrOut :=
  match acc with
  | some r => some r
  | none => govALoop sf vf b.lines

theorem foldl_govAStep_some (sf vf : ℤ) (r : GovArrOut) :
    ∀ bs : List FEMAPBlock, bs.foldl (govAStep sf vf) (some r) = some r := by
  intro bs
  induction bs with
  | nil => rfl
  | cons b bs2 ih =>
    simp only [List.foldl_cons, govAStep]
    exact ih

theorem foldl_govAStep_findSome (sf vf : ℤ) :
    ∀ bs : List FEMAPBlock,
      bs.foldl (govAStep sf vf) none =
        bs.findSome? (fun b => govALoop sf vf b.lines) := by
  intro bs
  induction bs with
  | nil => rfl
  | cons b bs2 ih =>
    rw [List.foldl_cons, List.findSome?_cons]
    cases hb : govALoop sf vf b.lines with
    | some r =>
      rw [show govAStep sf vf none b = some r from by
        simp only [govAStep, hb]]
      exact foldl_govAStep_some sf vf r bs2
    | none =>
      rw [show govAStep sf vf none b = none from by
        simp only [govAStep, hb]]
      exact ih

/-- The block scan and all ten typed extractors terminate on every input:
    the fueled versions — one unit of fuel per loop iteration, with fuel
    exhaustion as `none` — succeed with fuel one more than the number of
    lines (or blocks) available, because every loop iteration advances the
    line index, and their results agree with the total functions. -/
theorem fueledExtractors_adequate :
    (∀ ls : List Line, femapScanF (ls.length + 1) ls = some (femapScan ls)) ∧
    (∀ bs : List FEMAPBlock, get_headerF bs = some (get_header bs)) ∧
    (∀ bs : List FEMAPBlock, get_nodesF bs = some (get_nodes bs)) ∧
    (∀ bs : List FEMAPBlock, get_nodes_arraysF bs = some (get_nodes_arrays bs)) ∧
    (∀ bs : List FEMAPBlock, get_propertiesF bs = some (get_properties bs)) ∧
    (∀ bs : List FEMAPBlock, get_elementsF bs = some (get_elements bs)) ∧
    (∀ bs : List FEMAPBlock,
      get_elements_arraysF bs = some (get_elements_arrays bs)) ∧
    (∀ bs : List FEMAPBlock, get_materialsF bs = some (get_materials bs)) ∧
    (∀ bs : List FEMAPBlock, get_output_setsF bs = some (get_output_sets bs)) ∧
    (∀ bs : List FEMAPBlock,
      get_output_vectorsF bs = some (get_output_vectors bs)) ∧
    (∀ (bs : List FEMAPBlock) (sf vf : ℤ),
      get_output_vectors_arraysF bs sf vf =
        some (get_output_vectors_arrays bs sf vf)) := by
  refine ⟨?_, ?_, ?_, ?_, ?_, ?_, ?_, ?_, ?_, ?_, ?_⟩
  · intro ls
    exact femapScanF_adequate _ ls (Nat.lt_succ_self _)
  · intro bs
    unfold get_headerF
    rw [get_blocksF_adequate _ bs 100 (Nat.lt_succ_self _)]
    rfl
  · intro bs
    exact foldBlocksF_adequate _ (fun d b => b.lines.foldl nodesLineStep d)
      (fun a b => lineLoopF_adequate nodesLineStep _ b.lines a (Nat.lt_succ_self _))
      (get_blocks bs 403) []
  · intro bs
    exact foldBlocksF_adequate _ (fun a b => b.lines.foldl nodesArrStep a)
      (fun a b => lineLoopF_adequate nodesArrStep _ b.lines a (Nat.lt_succ_self _))
      (get_blocks bs 403) ([], [])
  · intro bs
    exact foldBlocksF_adequate _ (fun d b => propsLoop b.lines d)
      (fun a b => propsLoopF_adequate _ b.lines a (Nat.lt_succ_self _))
      (get_blocks bs 402) []
  · intro bs
    refine foldBlocksF_adequate _ (fun acc b => acc ++ elemsLoop b.lines)
      (fun a b => ?_) (get_blocks bs 404) []
    rw [elemsLoopF_adequate _ b.lines (Nat.lt_succ_self _)]
    rfl
  · intro bs
    exact foldBlocksF_adequate _ (fun a b => elemsArrLoop b.lines a)
      (fun a b => elemsArrLoopF_adequate _ b.lines a (Nat.lt_succ_self _))
      (get_blocks bs 404) ⟨[], [], [], [], [0]⟩
  · intro bs
    exact foldBlocksF_adequate _ (fun d b => b.lines.foldl matsLineStep d)
      (fun a b => lineLoopF_adequate matsLineStep _ b.lines a (Nat.lt_succ_self _))
      (get_blocks bs 601) []
  · intro bs
    exact foldBlocksF_adequate _ (fun d b => setsLoop b.lines d)
      (fun a b => setsLoopF_adequate _ b.lines a (Nat.lt_succ_self _))
      (get_blocks bs 450) []
  · intro bs
    refine foldBlocksF_adequate _ (fun acc b => acc ++ govLoop b.lines)
      (fun a b => ?_) (get_blocks bs 1051) []
    rw [govLoopF_adequate _ b.lines (Nat.lt_succ_self _)]
    rfl
  · intro bs sf vf
    unfold get_output_vectors_arraysF
    rw [foldBlocksF_adequate _ (govAStep sf vf)
      (fun a b => ?_) (get_blocks bs 1051) none]
    · rw [foldl_govAStep_findSome sf vf]
      unfold get_output_vectors_arrays
      cases (get_blocks bs 1051).findSome? (fun b => govALoop sf vf b.lines) with
      | some r => rfl
      | none => rfl
    · cases a with
      | some r => rfl
      | none => exact govALoopF_adequate _ sf vf b.lines (Nat.lt_succ_self _)


/-! ### Claim C6 continued: the unprotected `cdef int` narrowing -/

/-- 32-bit C `int` range test: Cython's `cdef int` narrowing raises an
    uncaught `OverflowError` outside this range. -/
def int32OK (n : ℤ) : Bool := decide (-(2 ^ 31) ≤ n) && decide (n < 2 ^ 31)

/-- `FEMAPParser._parse` (lines 46-103) with the `cdef int block_id`
    narrowing of line 78 modelled: `int(next_line)` raising `ValueError` is
    caught (line 97), but assigning an out-of-32-bit-range id raises an
    `OverflowError` no handler catches, aborting the whole parse
    (`Except.error`). -/
def femapScanX : List Line → Except Unit (List FEMAPBlock)
  | [] => .ok []
  | l :: rest =>
    if rstripNewline l = BLOCK_DELIMITER then
      match rest with
      | [] => .ok []
      | nl :: rest2 =>
        if pyStrip nl = chars "-1" then femapScanX (nl :: rest2)
        else
          match pyInt? (pyStrip nl) with
          | some bid =>
            if int32OK bid then
              (femapScanX (collectBlock rest2).2).map
                (fun tl => ⟨bid, (collectBlock rest2).1⟩ :: tl)
            else .error ()
          | none => femapScanX (nl :: rest2)
    else femapScanX rest
termination_by ls => ls.length
decreasing_by
  all_goals simp only [List.length_cons]
  all_goals first
    | exact Nat.lt_succ_of_lt (Nat.lt_succ_of_le (collectBlock_rest_le _))
    | omega

/-- Fueled shadow of `femapScanX`. -/
def femapScanXF : ℕ → List Line → Option (Except Unit (List FEMAPBlock))
  | 0, _ => none
  | _ + 1, [] => some (.ok [])
  | fuel + 1, l :: rest =>
    if rstripNewline l = BLOCK_DELIMITER then
      match rest with
      | [] => some (.ok [])
      | nl :: rest2 =>
        if pyStrip nl = chars "-1" then femapScanXF fuel (nl :: rest2)
        else
          match pyInt? (pyStrip nl) with
          | some bid =>
            if int32OK bid then
              (femapScanXF fuel (collectBlock rest2).2).map
                (fun x => x.map (fun tl => ⟨bid, (collectBlock rest2).1⟩ :: tl))
            else some (.error ())
          | none => femapScanXF fuel (nl :: rest2)
    else femapScanXF fuel rest

theorem femapScanXF_adequate : ∀ (fuel : ℕ) (ls : List Line), ls.length < fuel →
    femapScanXF fuel ls = some (femapScanX ls) := by
  intro fuel
  induction fuel with
  | zero =>
    intro ls h
    omega
  | succ fuel ih =>
    intro ls h
    match ls with
    | [] => simp [femapScanXF, femapScanX]
    | l :: rest =>
      have hr : rest.length < fuel := by simp at h; omega
      simp only [femapScanXF]
      conv_rhs => unfold femapScanX
      by_cases hc : rstripNewline l = BLOCK_DELIMITER
      · simp only [if_pos hc]
        match rest with
        | [] => rfl
        | nl :: rest2 =>
          by_cases hg : pyStrip nl = chars "-1"
          · simp only [if_pos hg]
            exact ih _ hr
          · simp only [if_neg hg]
            cases hi : pyInt? (pyStrip nl) with
            | some bid =>
              by_cases hb : int32OK bid = true
              · simp only [hb, if_true]
                rw [ih ((collectBlock rest2).2)
                  (by
                    have := collectBlock_rest_le rest2
                    simp only [List.length_cons] at hr
                    omega)]
                simp
              · simp only [Bool.not_eq_true] at hb
                simp only [hb, Bool.false_eq_true, if_false]
            | none => exact ih _ hr
      · simp only [if_neg hc]
        exact ih rest hr

theorem femapScanX_eval {ls : List Line} {X : Except Unit (List FEMAPBlock)}
    (h : femapScanXF (ls.length + 1) ls = some X) : femapScanX ls = X := by
  have h2 := femapScanXF_adequate (ls.length + 1) ls (Nat.lt_succ_self _)
  rw [h] at h2
  exact (Option.some.inj h2).symm

theorem femapScan_nil : femapScan [] = [] := by
  unfold femapScan
  rfl

theorem femapScan_cons (l : Line) (rest : List Line) :
    femapScan (l :: rest) =
      if rstripNewline l = BLOCK_DELIMITER then
        match rest with
        | [] => []
        | nl :: rest2 =>
          if pyStrip nl = chars "-1" then femapScan (nl :: rest2)
          else
            match pyInt? (pyStrip nl) with
            | some bid =>
              ⟨bid, (collectBlock rest2).1⟩ :: femapScan (collectBlock rest2).2
            | none => femapScan (nl :: rest2)
      else femapScan rest := by
  conv_lhs => unfold femapScan

theorem femapScanX_nil : femapScanX [] = .ok [] := by
  unfold femapScanX
  rfl

theorem femapScanX_cons (l : Line) (rest : List Line) :
    femapScanX (l :: rest) =
      if rstripNewline l = BLOCK_DELIMITER then
        match rest with
        | [] => .ok []
        | nl :: rest2 =>
          if pyStrip nl = chars "-1" then femapScanX (nl :: rest2)
          else
            match pyInt? (pyStrip nl) with
            | some bid =>
              if int32OK bid then
                (femapScanX (collectBlock rest2).2).map
                  (fun tl => ⟨bid, (collectBlock rest2).1⟩ :: tl)
              else .error ()
            | none => femapScanX (nl :: rest2)
      else femapScanX rest := by
  conv_lhs => unfold femapScanX

/-- On inputs all of whose scanned block ids fit the 32-bit range, the
    narrowing-aware scan raises nothing and agrees with the unbounded one. -/
theorem femapScanX_inRange_ok : ∀ (n : ℕ) (ls : List Line), ls.length < n →
    (∀ b ∈ femapScan ls, int32OK b.block_id = true) →
    femapScanX ls = .ok (femapScan ls) := by
  intro n
  induction n with
  | zero =>
    intro ls h _
    omega
  | succ n ih =>
    intro ls h hr
    match ls with
    | [] => rw [femapScanX_nil, femapScan_nil]
    | l :: rest =>
      have hlen : rest.length < n := by simp at h; omega
      by_cases hc : rstripNewline l = BLOCK_DELIMITER
      · match rest with
        | [] =>
          rw [femapScanX_cons, femapScan_cons, if_pos hc, if_pos hc]
        | nl :: rest2 =>
          by_cases hg : pyStrip nl = chars "-1"
          · have he : femapScan (l :: nl :: rest2) = femapScan (nl :: rest2) := by
              rw [femapScan_cons, if_pos hc]
              simp only [if_pos hg]
            rw [femapScanX_cons, if_pos hc]
            simp only [if_pos hg]
            rw [he] at hr
            rw [he]
            exact ih _ hlen hr
          · cases hi : pyInt? (pyStrip nl) with
            | none =>
              have he : femapScan (l :: nl :: rest2) = femapScan (nl :: rest2) := by
                rw [femapScan_cons, if_pos hc]
                simp only [if_neg hg, hi]
              rw [femapScanX_cons, if_pos hc]
              simp only [if_neg hg, hi]
              rw [he] at hr
              rw [he]
              exact ih _ hlen hr
            | some bid =>
              have he : femapScan (l :: nl :: rest2) =
                  ⟨bid, (collectBlock rest2).1⟩ ::
                    femapScan (collectBlock rest2).2 := by
                rw [femapScan_cons, if_pos hc]
                simp only [if_neg hg, hi]
              have hbid : int32OK bid = true :=
                hr ⟨bid, (collectBlock rest2).1⟩ (by
                  rw [he]
                  exact List.mem_cons_self _ _)
              have hr2 : ∀ b ∈ femapScan (collectBlock rest2).2,
                  int32OK b.block_id = true := by
                intro b hb
                exact hr b (by rw [he]; exact List.mem_cons_of_mem _ hb)
              have hlen2 : (collectBlock rest2).2.length < n := by
                have := collectBlock_rest_le rest2
                simp only [List.length_cons] at h
                omega
              rw [femapScanX_cons, if_pos hc]
              simp only [if_neg hg, hi, hbid, if_true]
              rw [ih _ hlen2 hr2, he]
              rfl
      · have he : femapScan (l :: rest) = femapScan rest := by
          rw [femapScan_cons, if_neg hc]
        rw [femapScanX_cons, if_neg hc]
        rw [he] at hr
        rw [he]
        exact ih _ hlen hr

/-- C6 counterexample: the scanner's `cdef int block_id` assignment is not
    protected against overflow — on a block-id line whose integer exceeds
    the 32-bit range, the narrowing-aware parse raises an uncaught
    `OverflowError` instead of returning, while the unbounded-ℤ scan would
    build the block. -/
theorem C6_counterexample :
    femapScanX [chars "   -1", chars "9999999999"] = .error () ∧
    femapScan [chars "   -1", chars "9999999999"] = [⟨9999999999, []⟩] := by
  constructor
  · exact femapScanX_eval (by decide)
  · exact femapScan_eval (by decide)

/-- C6 (amended): every loop terminates on every input — the fueled
    versions of the scan and of all ten extractors, one fuel unit per
    iteration, succeed with fuel one beyond the available line or block
    count — and `ValueError`/`IndexError` are consumed internally; but the
    `cdef int` narrowing is unprotected, so extraction does not return a
    value on every input: with the scanner's `block_id` narrowing modelled,
    the parse agrees with the unbounded scan exactly on inputs whose
    scanned block ids all fit in 32 bits, and an out-of-range id aborts it
    with an uncaught `OverflowError`. -/
theorem C6_no_uncaught_overflow :
    (∀ ls : List Line, femapScanXF (ls.length + 1) ls = some (femapScanX ls)) ∧
    (∀ ls : List Line,
      (∀ b ∈ femapScan ls, int32OK b.block_id = true) →
      femapScanX ls = .ok (femapScan ls)) ∧
    (∀ ls : List Line, femapScanF (ls.length + 1) ls = some (femapScan ls)) ∧
    (∀ bs : List FEMAPBlock, get_headerF bs = some (get_header bs)) ∧
    (∀ bs : List FEMAPBlock, get_nodesF bs = some (get_nodes bs)) ∧
    (∀ bs : List FEMAPBlock, get_nodes_arraysF bs = some (get_nodes_arrays bs)) ∧
    (∀ bs : List FEMAPBlock, get_propertiesF bs = some (get_properties bs)) ∧
    (∀ bs : List FEMAPBlock, get_elementsF bs = some (get_elements bs)) ∧
    (∀ bs : List FEMAPBlock,
      get_elements_arraysF bs = some (get_elements_arrays bs)) ∧
    (∀ bs : List FEMAPBlock, get_materialsF bs = some (get_materials bs)) ∧
    (∀ bs : List FEMAPBlock, get_output_setsF bs = some (get_output_sets bs)) ∧
    (∀ bs : List FEMAPBlock,
      get_output_vectorsF bs = some (get_output_vectors bs)) ∧
    (∀ (bs : List FEMAPBlock) (sf vf : ℤ),
      get_output_vectors_arraysF bs sf vf =
        some (get_output_vectors_arrays bs sf vf)) := by
  obtain ⟨h1, h2, h3, h4, h5, h6, h7, h8, h9, h10, h11⟩ :=
    fueledExtractors_adequate
  exact ⟨fun ls => femapScanXF_adequate _ ls (Nat.lt_succ_self _),
    fun ls hr => femapScanX_inRange_ok (ls.length + 1) ls (Nat.lt_succ_self _) hr,
    h1, h2, h3, h4, h5, h6, h7, h8, h9, h10, h11⟩

theorem C6_no_uncaught_overflow_witness :
    femapScanX [chars "   -1", chars "42", chars "x"] =
      .ok (femapScan [chars "   -1", chars "42", chars "x"]) := by
  have hs : femapScan [chars "   -1", chars "42", chars "x"] =
      [⟨42, [chars "x"]⟩] := femapScan_eval (by decide)
  refine C6_no_uncaught_overflow.2.1 _ ?_
  intro b hb
  rw [hs] at hb
  simp only [List.mem_singleton] at hb
  subst hb
  decide

end PyEMSI

